import Mathlib

/-!
Model of the ResurrectJS codec (resurrect-ts): a JSON-based serializer that
preserves shared references, cycles, `undefined`, and the typed atoms Date,
RegExp, non-finite numbers and BigInt.  JavaScript object graphs are modelled
as a heap of composite nodes addressed by naturals; JavaScript values by
`JSVal`; the wire format (the structured text produced by `JSON.stringify` and
read back by `JSON.parse`) by the tree type `JValue`, eliding the text layer
itself (`JSON.parse (JSON.stringify v)` is the identity on this universe).
-/

namespace Rz

/-- Heap addresses: object identity is modelled by the address. -/
abbrev Addr := Nat

/-- JavaScript values as the codec classifies them.  Finite numbers are
modelled as integers (their floating-point nature is never consulted by the
codec); NaN and the two infinities are separate constructors because
`handleAtom` treats them specially.  Date and RegExp values are atoms from the
codec's point of view (`Resurrect.isAtom` is true of them) and are modelled as
immutable atoms carrying their observable data: the millisecond timestamp, and
the normalized source text plus flag string.  `ptr` is a reference to a
composite (plain object or array) in the heap. -/
inductive JSVal where
  | null
  | undef
  | bool (b : Bool)
  | num (n : Int)
  | nan
  | inf
  | ninf
  | str (s : String)
  | bigint (i : Int)
  | date (ms : Int)
  | invalidDate
  | regexp (source flags : String)
  | func
  | ptr (a : Addr)
deriving DecidableEq

/-- A composite heap node: a plain object (own enumerable fields in for-in
order) or an array (indexed elements plus the ordered non-index string
properties, where the encoder stamps its scratch refcode). -/
inductive HNode where
  | obj (fields : List (String × JSVal))
  | arr (elems : List JSVal) (props : List (String × JSVal))
deriving DecidableEq

abbrev Heap := List HNode

/-- Property read `o[k]` on an ordered own-property list. -/
def getKV {α : Type} : List (String × α) → String → Option α
  | [], _ => none
  | (k', v) :: rest, k => if k' = k then some v else getKV rest k

/-- Property write `o[k] = v`: an existing key keeps its enumeration position
(JavaScript semantics), a fresh key is appended at the end. -/
def setKV {α : Type} : List (String × α) → String → α → List (String × α)
  | [], k, v => [(k, v)]
  | (k', v') :: rest, k, v =>
      if k' = k then (k, v) :: rest else (k', v') :: setKV rest k v

/-- Property delete `delete o[k]`. -/
def delKV {α : Type} (l : List (String × α)) (k : String) : List (String × α) :=
  l.filter fun kv => kv.1 ≠ k

/-- Whether list `s` starts with list `p` (used to model the anchored regular
expression `^<escaped marker>` that `replacerWrapper` tests keys against). -/
def listStarts {α : Type} [DecidableEq α] : List α → List α → Bool
  | _, [] => true
  | [], _ :: _ => false
  | a :: s, b :: p => a = b && listStarts s p

/-- Whether string `s` starts with string `p`. -/
def strStarts (s p : String) : Bool := listStarts s.toList p.toList

/-- Encoder/decoder options (the `Resurrect` constructor's options object);
`mark` is the marker-key string (the option called prefix, default "#"). -/
structure Config where
  mark : String := "#"
  cleanup : Bool := false
  revive : Bool := true
deriving DecidableEq

/-- `this.refcode`: the scratch identifier property stamped onto visited
nodes. -/
def Config.refcode (c : Config) : String := c.mark ++ "id"

/-- `this.buildcode`: the key naming a builder record's constructor. -/
def Config.buildcode (c : Config) : String := c.mark ++ "."

/-- `this.valuecode`: the key carrying a builder record's argument list. -/
def Config.valuecode (c : Config) : String := c.mark ++ "v"

/-- What `visit`/`handleAtom` produce for one child slot of a table entry: an
inline plain atom, a reference record `{[mark]: id}` (id -1 denotes
undefined), or a builder record `{[buildcode]: name, [valuecode]: args}`. -/
inductive Encoded where
  | atom (v : JSVal)
  | refRec (id : Int)
  | buildRec (name : String) (args : List JSVal)
deriving DecidableEq

/-- The encoder's working copy of a visited node — the object pushed into
`this.table`.  The source mutates the copy in place while its fields are
visited; since nothing reads an entry before the traversal finishes, the
model builds the finished copy and writes it back at the entry's index.  The
scratch refcode field that `tag` sets on the copy is kept here (the cleanup
loop in `stringify` deletes it again before serialization); the copy's
origcode pointer back to the original is modelled as the address paired with
the copy in the table. -/
inductive Copy where
  | obj (fields : List (String × Encoded))
  | arr (elems : List Encoded) (props : List (String × Encoded))
deriving DecidableEq

/-- Encode-time failures.  `outOfFuel` is the model's recursion bound (proved
unreachable); `danglingPtr` and `badRefcode` are model-boundary markers that
well-formed heaps never hit; the others model thrown exceptions.
`atomRootReplacer` marks the one case the model leaves open: an atom root
with a replacer present, where the source hands the (function-converted)
replacer to the platform's JSON.stringify, which consults it for the root
value under the key "" and for each own key of the emitted record — user
code applied to the wire record itself, or an array-converted replacer
suppressing the output entirely, both outside the model's value universe.
The model asserts nothing about that case. -/
inductive EncErr where
  | outOfFuel
  | danglingPtr
  | cantSerializeFunction
  | dateRange
  | regexpMatch
  | badRefcode
  | atomRootReplacer
deriving DecidableEq

/-- One recorded replacer invocation from `visit`'s field loop: the node being
copied, the key and value passed, and whether the invocation reaches the
user-supplied function (the wrapper made by `replacerWrapper` answers calls
for marker-prefixed keys itself).  Pure instrumentation — it never influences
the encoding. -/
structure RCall where
  node : Addr
  key : String
  val : JSVal
  toUser : Bool
deriving DecidableEq

/-- Traversal state: the caller's heap (mutated through refcode stamps), the
reference table under construction (each copy paired with the address of the
original node it copies), and the instrumentation log of replacer calls. -/
structure EncState where
  heap : Heap
  table : List (Copy × Addr)
  calls : List RCall
deriving DecidableEq

/-- Own-property read through a node (for non-index keys). -/
def HNode.getProp : HNode → String → Option JSVal
  | .obj fs, k => getKV fs k
  | .arr _ ps, k => getKV ps k

/-- Own-property write on a node. -/
def HNode.setProp : HNode → String → JSVal → HNode
  | .obj fs, k, v => .obj (setKV fs k v)
  | .arr es ps, k, v => .arr es (setKV ps k v)

/-- Own-property delete on a node. -/
def HNode.delProp : HNode → String → HNode
  | .obj fs, k => .obj (delKV fs k)
  | .arr es ps, k => .arr es (delKV ps k)

def setNodeProp (h : Heap) (a : Addr) (k : String) (v : JSVal) : Heap :=
  match h[a]? with
  | some n => h.set a (n.setProp k v)
  | none => h

def delNodeProp (h : Heap) (a : Addr) (k : String) : Heap :=
  match h[a]? with
  | some n => h.set a (n.delProp k)
  | none => h

/-- `_getRefcode(object)`: read the scratch identifier property. -/
def getRefcode (cfg : Config) (h : Heap) (a : Addr) : Option JSVal :=
  (h[a]?).bind fun n => n.getProp cfg.refcode

/-- `isTagged(object)` is `_getRefcode(object) != null`; with JavaScript loose
inequality this is false exactly when the property is absent, null or
undefined. -/
def isTagged (cfg : Config) (h : Heap) (a : Addr) : Bool :=
  match getRefcode cfg h a with
  | none => false
  | some .null => false
  | some .undef => false
  | some _ => true

/-- Characters the source's flag-recovery pattern `[gimy]*` can keep. -/
def isGimy (c : Char) : Bool := c = 'g' || c = 'i' || c = 'm' || c = 'y'

/-- The flag string recovered by matching `\/(.+)\/([gimy]*)` against
`regexp.toString()`: the greedy group extends to the last slash, so the
captured flags are the longest prefix of the real flag string drawn from
g, i, m, y; the first other flag and everything after it are dropped. -/
def capturedFlags (flags : String) : String :=
  (flags.toList.takeWhile isGimy).asString

/-- Decimal digits of a positive natural, most significant first, as
JavaScript's integer toString renders them. -/
def decimalOfNat (n : Nat) : String :=
  if n = 0 then "0" else ((Nat.digits 10 n).map Nat.digitChar).reverse.asString

/-- Decimal rendering of an integer (JavaScript BigInt.prototype.toString). -/
def decimalOfInt (i : Int) : String :=
  if i < 0 then "-" ++ decimalOfNat i.natAbs else decimalOfNat i.natAbs

def isDigitChar (c : Char) : Bool := '0' ≤ c && c ≤ '9'

def digitVal (c : Char) : Nat := c.toNat - '0'.toNat

/-- Parse an unsigned decimal numeral given as a character list. -/
def parseDecNatL (l : List Char) : Option Nat :=
  if l ≠ [] ∧ l.all isDigitChar then some (Nat.ofDigits 10 (l.reverse.map digitVal))
  else none

/-- Parse an unsigned decimal numeral. -/
def parseDecNat (s : String) : Option Nat := parseDecNatL s.toList

/-- Parse a decimal integer (JavaScript's BigInt constructor on a numeral). -/
def parseDecInt (s : String) : Option Int :=
  match s.toList with
  | '-' :: rest => (parseDecNatL rest).map fun n => -Int.ofNat n
  | _ => (parseDecNat s).map fun n => Int.ofNat n

/-- Models the host pair `Date.prototype.toISOString` / `new Date(string)`:
an injective millisecond-precision rendering together with its parser.  The
model renders the timestamp in decimal rather than calendar syntax; the codec
depends only on the pair being mutually inverse at millisecond precision. -/
def isoOfMs (ms : Int) : String := decimalOfInt ms

/-- Parser half of the modelled ISO-8601 pair. -/
def msOfIso (s : String) : Option Int := parseDecInt s

/-- Largest absolute timestamp a JavaScript Date can hold (8.64e15 ms);
`toISOString` throws a RangeError beyond it. -/
def maxDateMs : Nat := 8640000000000000

/-- `handleAtom(atom)`: encode the special atoms, pass plain atoms through.
The DOM-node branch is not modelled (the model's value universe contains no
host nodes).  An empty regexp source cannot occur in a real
`RegExp.prototype.source` (the host renders it as "(?:)"); on it the source's
`toString().match(...)` returns null and the `.slice` call throws. -/
def handleAtom : JSVal → Except EncErr Encoded
  | .func => .error .cantSerializeFunction
  | .date ms =>
      if ms.natAbs ≤ maxDateMs then .ok (.buildRec "Date" [.str (isoOfMs ms)])
      else .error .dateRange
  | .invalidDate => .error .dateRange
  | .regexp src flags =>
      if src = "" then .error .regexpMatch
      else .ok (.buildRec "RegExp" [.str src, .str (capturedFlags flags)])
  | .undef => .ok (.refRec (-1))
  | .nan => .ok (.buildRec "Number" [.str "NaN"])
  | .inf => .ok (.buildRec "Number" [.str "Infinity"])
  | .ninf => .ok (.buildRec "Number" [.str "-Infinity"])
  | .bigint i => .ok (.buildRec "BigInt" [.str (decimalOfInt i)])
  | v => .ok (.atom v)

/-- The replacer argument of `stringify`: absent, a user function, or a
key-allowlist array. -/
inductive Replacer where
  | noRepl
  | fnRepl (f : String → JSVal → JSVal)
  | arrRepl (keys : List String)

/-- The effective replacer `visit` receives after `stringify` preprocesses
its argument: a function from key and value to the replaced value, plus a
flag telling whether the invocation reaches user code (recorded in the
instrumentation log).  A function replacer is wrapped by `replacerWrapper`,
which answers marker-prefixed keys itself; an array replacer becomes the
allowlist test and is not wrapped. -/
def effRepl (cfg : Config) : Replacer → Option (String → JSVal → JSVal × Bool)
  | .noRepl => none
  | .fnRepl f => some fun k v => if strStarts k cfg.mark then (v, false) else (f k v, true)
  | .arrRepl keys => some fun k v => (if keys.contains k then v else .undef, true)

/-- The element loop of `visit`'s array branch:
`copy.push(this.visit(root[i], f, replacer))` for each index in order.  The
replacer is never consulted for array elements. -/
def visitElems (rec : JSVal → EncState → Except EncErr (Encoded × EncState)) :
    List JSVal → List Encoded → EncState → Except EncErr (List Encoded × EncState)
  | [], acc, st => .ok (acc, st)
  | v :: rest, acc, st => do
      let (e, st') ← rec v st
      visitElems rec rest (acc ++ [e]) st'

/-- The field loop of `visit`'s object branch, iterating the node's own
enumerable fields in for-in order.  With a replacer active and a value that
is not undefined, the (wrapped) replacer is consulted and a replaced value of
undefined omits the field; an undefined-valued field bypasses the replacer
entirely.  Each replacer invocation is recorded in the log. -/
def visitFields (rec : JSVal → EncState → Except EncErr (Encoded × EncState))
    (erp : Option (String → JSVal → JSVal × Bool)) (a : Addr) :
    List (String × JSVal) → List (String × Encoded) → EncState →
    Except EncErr (List (String × Encoded) × EncState)
  | [], acc, st => .ok (acc, st)
  | (k, v) :: rest, acc, st =>
      match erp with
      | some f =>
          if v = .undef then do
            let (e, st') ← rec v st
            visitFields rec erp a rest (setKV acc k e) st'
          else
            let rv := f k v
            let st1 : EncState := { st with calls := st.calls ++ [⟨a, k, v, rv.2⟩] }
            if rv.1 = .undef then
              visitFields rec erp a rest acc st1
            else do
              let (e, st') ← rec rv.1 st1
              visitFields rec erp a rest (setKV acc k e) st'
      | none => do
          let (e, st') ← rec v st
          visitFields rec erp a rest (setKV acc k e) st'

/-- `visit(root, f, replacer)`, with fuel bounding recursion depth.  Atoms go
through `handleAtom` (the `f` that `stringify` always passes).  An untagged
composite is tagged pre-order — refcode stamped on the original, entry slot
pushed so later identifiers stay dense — then its children are visited and
the finished copy replaces the slot; a tagged composite immediately yields a
reference record carrying its existing identifier.  The object branch
iterates the fields as they stand after the stamp, so the scratch refcode key
itself is copied too (and deleted again during cleanup), exactly as the
source's for-in loop does. -/
def visit (cfg : Config) (erp : Option (String → JSVal → JSVal × Bool)) :
    Nat → JSVal → EncState → Except EncErr (Encoded × EncState)
  | 0, _, _ => .error .outOfFuel
  | fuel + 1, v, st =>
      match v with
      | .ptr a =>
          match st.heap[a]? with
          | none => .error .danglingPtr
          | some node =>
              if isTagged cfg st.heap a then
                match getRefcode cfg st.heap a with
                | some (.num i) => .ok (.refRec i, st)
                | _ => .error .badRefcode
              else
                match node with
                | .arr elems _ => do
                    let id := st.table.length
                    let copy0 : Copy := .arr [] [(cfg.refcode, .atom (.num id))]
                    let st1 : EncState :=
                      { st with
                        heap := setNodeProp st.heap a cfg.refcode (.num id),
                        table := st.table ++ [(copy0, a)] }
                    let (es, st2) ← visitElems (visit cfg erp fuel) elems [] st1
                    .ok (.refRec id,
                         { st2 with table := st2.table.set id (.arr es [(cfg.refcode, .atom (.num id))], a) })
                | .obj _ => do
                    let id := st.table.length
                    let copy0 : Copy := .obj [(cfg.refcode, .atom (.num id))]
                    let h1 := setNodeProp st.heap a cfg.refcode (.num id)
                    let loopFields :=
                      match h1[a]? with
                      | some (.obj fs) => fs
                      | _ => []
                    let st1 : EncState := { st with heap := h1, table := st.table ++ [(copy0, a)] }
                    let (fs, st2) ← visitFields (visit cfg erp fuel) erp a loopFields
                        [(cfg.refcode, .atom (.num id))] st1
                    .ok (.refRec id, { st2 with table := st2.table.set id (.obj fs, a) })
      | _ => (handleAtom v).map fun e => (e, st)

/-- The cleanup loop of `stringify`: restore the caller's nodes — delete the
refcode under the cleanup option, tombstone it to null otherwise — and strip
each copy's scratch refcode (the origcode pointer disappears with the copy's
pairing when serialized). -/
def cleanupTable (cfg : Config) :
    List (Copy × Addr) → Heap → (List (Copy × Addr) × Heap)
  | [], h => ([], h)
  | (c, a) :: rest, h =>
      let h1 := if cfg.cleanup then delNodeProp h a cfg.refcode
                else setNodeProp h a cfg.refcode .null
      let c1 := match c with
        | .obj fs => Copy.obj (delKV fs cfg.refcode)
        | .arr es ps => Copy.arr es (delKV ps cfg.refcode)
      let r := cleanupTable cfg rest h1
      ((c1, a) :: r.1, r.2)

/-- The wire tree: what `JSON.parse` yields of the serialized text. -/
inductive JValue where
  | null
  | bool (b : Bool)
  | num (n : Int)
  | str (s : String)
  | arr (elems : List JValue)
  | obj (fields : List (String × JValue))

/-- JSON image of a plain atom.  Only null, booleans, finite numbers and
strings reach serialization inline (handleAtom encodes everything else). -/
def jOfAtom : JSVal → JValue
  | .null => .null
  | .bool b => .bool b
  | .num n => .num n
  | .str s => .str s
  | _ => .null

/-- JSON image of an encoded child slot. -/
def jOfEncoded (cfg : Config) : Encoded → JValue
  | .atom v => jOfAtom v
  | .refRec i => .obj [(cfg.mark, .num i)]
  | .buildRec name args =>
      .obj [(cfg.buildcode, .str name), (cfg.valuecode, .arr (args.map jOfAtom))]

/-- JSON image of a cleaned table entry; JSON.stringify does not serialize an
array's string properties. -/
def jOfCopy (cfg : Config) : Copy → JValue
  | .obj fs => .obj (fs.map fun kv => (kv.1, jOfEncoded cfg kv.2))
  | .arr es _ => .arr (es.map (jOfEncoded cfg))

/-- `stringify(object, replacer, space)`: an atom root is encoded directly
with no table; a composite root is traversed into a fresh table, serialized
after the cleanup loop with `JSON.stringify(table, null, space)` — no
replacer.  Returns the wire value with the final state (the caller-visible
heap, the cleaned table, the replacer log).  `space` only affects whitespace
and is not modelled.  For an atom root with a replacer present the source
instead returns `JSON.stringify(this.handleAtom(object), replacer, space)`,
handing the function-converted replacer to the platform serializer, which
consults it for the root under the key "" and for each own key of the
emitted record; that behavior leaves the model's value universe (see
`EncErr.atomRootReplacer`), so the model marks the case with the boundary
error instead of asserting anything about it. -/
def stringify (cfg : Config) (h : Heap) (root : JSVal) (rp : Replacer) :
    Except EncErr (JValue × EncState) :=
  match root with
  | .ptr a => do
      let st0 : EncState := { heap := h, table := [], calls := [] }
      let (_, st) ← visit cfg (effRepl cfg rp) (h.length + 1) (.ptr a) st0
      let r := cleanupTable cfg st.table st.heap
      .ok (.arr (r.1.map fun ca => jOfCopy cfg ca.1),
           { heap := r.2, table := r.1, calls := st.calls })
  | v =>
      match rp with
      | .noRepl => (handleAtom v).map fun e =>
          (jOfEncoded cfg e, { heap := h, table := [], calls := [] })
      | _ => .error .atomRootReplacer

/-- Decode-time failures. -/
inductive DecErr where
  | unknownEncoding
  | unknownConstructor
  | inOnPrimitive
  | buildFailed
deriving DecidableEq

/-- `Resurrect.isAtom` on a parsed JSON value. -/
def jIsAtom : JValue → Bool
  | .arr _ => false
  | .obj _ => false
  | _ => true

/-- A parsed JSON atom as a JavaScript value. -/
def jvalToAtom : JValue → JSVal
  | .null => .null
  | .bool b => .bool b
  | .num n => .num n
  | .str s => .str s
  | _ => .null

/-- The Number constructor applied to one string argument and unwrapped
(`isPrimitive` → `valueOf`). -/
def numberOfString (s : String) : JSVal :=
  if s = "NaN" then .nan
  else if s = "Infinity" then .inf
  else if s = "-Infinity" then .ninf
  else match parseDecInt s with
  | some n => .num n
  | none => .nan

/-- Valid RegExp flag characters. -/
def isFlagChar (c : Char) : Bool :=
  c = 'd' || c = 'g' || c = 'i' || c = 'm' || c = 's' || c = 'u' || c = 'v' || c = 'y'

def nodupB : List Char → Bool
  | [] => true
  | c :: rest => !rest.contains c && nodupB rest

/-- The RegExp constructor rejects unknown or repeated flags. -/
def flagsOK (flags : String) : Bool :=
  flags.toList.all isFlagChar && nodupB flags.toList

/-- `build(ref)`: resolve the builder name in the global scope, apply the
constructor to the recorded arguments, and unwrap boxed primitives.  The
model provides the closed set of constructors the encoder emits; an unknown
dotted path fails (the source throws a TypeError calling bind on undefined).
The DOM Resurrect.Node builder lies outside the model's value universe, and
argument shapes the encoder never produces (extra Date arguments, missing
RegExp arguments) are approximated as noted. -/
def build (name : String) (args : List JValue) : Except DecErr JSVal :=
  match name, args with
  | "Date", [.str s] =>
      .ok (match msOfIso s with
           | some ms => .date ms
           | none => .invalidDate)
  | "Date", [.num n] => .ok (.date n)
  | "Date", _ => .ok .invalidDate
  | "RegExp", [.str src, .str flags] =>
      if flagsOK flags then .ok (.regexp src flags) else .error .buildFailed
  | "RegExp", _ => .error .buildFailed
  | "Number", [.str s] => .ok (numberOfString s)
  | "Number", [.num n] => .ok (.num n)
  | "Number", _ => .ok .nan
  | "BigInt", [.str s] =>
      (match parseDecInt s with
       | some i => .ok (.bigint i)
       | none => .error .buildFailed)
  | "BigInt", [.num n] => .ok (.bigint n)
  | _, _ => .error .buildFailed

/-- `decode(ref)` on a non-atom child of a table entry: a record carrying the
marker key is dereferenced, a record carrying the buildcode key is built, and
anything else is an unknown encoding.  `deref` is the unchecked JavaScript
indexing `this.table[id]`: an id that is not a position of the table — in
particular the reserved -1 — yields undefined rather than an error. -/
def decodeChild (cfg : Config) (tableLen : Nat) : JValue → Except DecErr JSVal
  | .obj fs =>
      match getKV fs cfg.mark with
      | some tag =>
          .ok (match tag with
               | .num i => if 0 ≤ i ∧ i.toNat < tableLen then .ptr i.toNat else .undef
               | _ => .undef)
      | none =>
          match getKV fs cfg.buildcode with
          | some (.str name) =>
              build name
                (match getKV fs cfg.valuecode with
                 | some (.arr l) => l
                 | some v => [v]
                 | none => [])
          | some _ => .error .buildFailed
          | none => .error .unknownEncoding
  | _ => .error .unknownEncoding

/-- `fixPrototype`: when an entry carries the marker key, resolve its
constructor name and reattach the prototype (attachment has no further
observable effect in the model; an unresolvable name throws).  Array entries
never carry the marker; on a primitive entry the in operator throws a
TypeError. -/
def fixPrototype (cfg : Config) (resolver : String → Bool) : JValue → Except DecErr JValue
  | .obj fs =>
      match getKV fs cfg.mark with
      | none => .ok (.obj fs)
      | some (.str name) =>
          if resolver name then .ok (.obj fs) else .error .unknownConstructor
      | some _ => .error .unknownConstructor
  | .arr es => .ok (.arr es)
  | _ => .error .inOnPrimitive

/-- One field or element of a table entry during pass 2: a plain atom is kept
as it is, a record child is decoded. -/
def decodeSlot (cfg : Config) (tableLen : Nat) (j : JValue) : Except DecErr JSVal :=
  if jIsAtom j then .ok (jvalToAtom j) else decodeChild cfg tableLen j

/-- Pass 2 of `resurrect` for one table entry: for-in over the entry's own
fields (index keys for an array entry), replacing every non-atom child by its
decoded value.  References decode to pointers at table positions, which is
what restores aliasing and cycles.  A primitive entry would iterate zero keys
and remain a primitive; it can only arise from hand-written input with
revival disabled and is out of the model's universe (mapped to an empty
node). -/
def decodeEntry (cfg : Config) (tableLen : Nat) : JValue → Except DecErr HNode
  | .obj fs => do
      let fs' ← fs.mapM fun kv => do
        let v ← decodeSlot cfg tableLen kv.2
        pure (kv.1, v)
      .ok (.obj fs')
  | .arr es => do
      let es' ← es.mapM (decodeSlot cfg tableLen)
      .ok (.arr es' [])
  | _ => .ok (.obj [])

/-- `resurrect(string)`: parse, then for an array treat it as the reference
table — restore prototypes (pass 1, when revival is on), resolve references
and builders one level deep (pass 2) — and return entry 0 (undefined for an
empty table, as `table[0]` then is).  A single record decodes directly
against an empty table; a plain atom is returned unchanged. -/
def resurrect (cfg : Config) (resolver : String → Bool) (data : JValue) :
    Except DecErr (Heap × JSVal) :=
  match data with
  | .arr entries => do
      let entries1 ←
        if cfg.revive then entries.mapM (fixPrototype cfg resolver) else .ok entries
      let nodes ← entries1.mapM (decodeEntry cfg entries1.length)
      .ok (nodes, if nodes.length = 0 then .undef else .ptr 0)
  | .obj fs => do
      let v ← decodeChild cfg 0 (.obj fs)
      .ok ([], v)
  | v => .ok ([], jvalToAtom v)

/-- A path step: object field access or array index access. -/
inductive Step where
  | fld (k : String)
  | idx (i : Nat)
deriving DecidableEq

/-- One access step starting from a value. -/
def step (h : Heap) (v : JSVal) : Step → Option JSVal
  | .fld k =>
      match v with
      | .ptr a => (h[a]?).bind fun n =>
          match n with
          | .obj fs => getKV fs k
          | .arr _ ps => getKV ps k
      | _ => none
  | .idx i =>
      match v with
      | .ptr a => (h[a]?).bind fun n =>
          match n with
          | .arr es _ => es[i]?
          | .obj _ => none
      | _ => none

/-- Follow a path of accesses from a value. -/
def resolvePath (h : Heap) : JSVal → List Step → Option JSVal
  | v, [] => some v
  | v, s :: rest => (step h v s).bind fun v' => resolvePath h v' rest

/-- Atoms that round-trip exactly: plain atoms, undefined, the non-finite
numbers, BigInts, in-range dates, and RegExps whose (necessarily valid and
nonempty-source) flag set lies inside the g, i, m, y alphabet that the
source's recovery pattern preserves. -/
def isRoundAtom : JSVal → Bool
  | .null | .undef | .bool _ | .num _ | .str _ => true
  | .nan | .inf | .ninf => true
  | .bigint _ => true
  | .date ms => ms.natAbs ≤ maxDateMs
  | .regexp src flags => src != "" && flags.toList.all isGimy && nodupB flags.toList
  | _ => false

/-- Plain atoms only: the value universe of claim C1. -/
def isPlainAtom : JSVal → Bool
  | .null | .bool _ | .num _ | .str _ => true
  | _ => false

/-- A value a well-formed graph may contain: a round-tripping atom or a
pointer to an existing node. -/
def wfVal (len : Nat) (v : JSVal) : Bool :=
  isRoundAtom v ||
    match v with
    | .ptr a => decide (a < len)
    | _ => false

def nodupKeys {α : Type} : List (String × α) → Bool
  | [] => true
  | (k, _) :: rest => !(rest.map Prod.fst).contains k && nodupKeys rest

/-- A well-formed untouched node: unique own keys, none colliding with the
marker namespace, all values well formed; arrays carry no stray string
properties. -/
def wfNode (cfg : Config) (len : Nat) : HNode → Bool
  | .obj fs =>
      nodupKeys fs && fs.all fun kv => !strStarts kv.1 cfg.mark && wfVal len kv.2
  | .arr es ps => es.all (wfVal len) && ps.isEmpty

/-- A well-formed caller heap under a nonempty marker string. -/
def wfHeap (cfg : Config) (h : Heap) : Bool :=
  cfg.mark != "" && h.all (wfNode cfg h.length)

/-- Values restricted to plain atoms and pointers (claim C1). -/
def plainVal (len : Nat) (v : JSVal) : Bool :=
  isPlainAtom v ||
    match v with
    | .ptr a => decide (a < len)
    | _ => false

def plainNode (cfg : Config) (len : Nat) : HNode → Bool
  | .obj fs =>
      nodupKeys fs && fs.all fun kv => !strStarts kv.1 cfg.mark && plainVal len kv.2
  | .arr es ps => es.all (plainVal len) && ps.isEmpty

/-- A heap built only of plain objects, arrays and plain atoms. -/
def plainHeap (cfg : Config) (h : Heap) : Bool :=
  cfg.mark != "" && h.all (plainNode cfg h.length)

/-- The total companion of `handleAtom` on the atoms it accepts. -/
def atomEnc : JSVal → Encoded
  | .date ms => .buildRec "Date" [.str (isoOfMs ms)]
  | .regexp src flags => .buildRec "RegExp" [.str src, .str (capturedFlags flags)]
  | .undef => .refRec (-1)
  | .nan => .buildRec "Number" [.str "NaN"]
  | .inf => .buildRec "Number" [.str "Infinity"]
  | .ninf => .buildRec "Number" [.str "-Infinity"]
  | .bigint i => .buildRec "BigInt" [.str (decimalOfInt i)]
  | v => .atom v

/-- A node with the scratch refcode appended: what tagging an untouched node
produces, since the key is then fresh and the write appends it at the end. -/
def addRk (cfg : Config) (n : HNode) (v : JSVal) : HNode :=
  match n with
  | .obj fs => .obj (fs ++ [(cfg.refcode, v)])
  | .arr es ps => .arr es (ps ++ [(cfg.refcode, v)])

/-- The identifier stamped on address `a`, if any. -/
def idOf (cfg : Config) (h : Heap) (a : Addr) : Option Nat :=
  match getRefcode cfg h a with
  | some (.num i) => some i.toNat
  | _ => none

/-- Encoder state invariant relative to the pristine heap: the heap is the
pristine one except that visited nodes carry a trailing refcode stamp equal
to their table position, and each table position points back at its
original. -/
structure Inv (cfg : Config) (h₀ : Heap) (s : EncState) : Prop where
  len : s.heap.length = h₀.length
  node : ∀ a, a < h₀.length →
    s.heap[a]? = h₀[a]? ∨
    ∃ i : Nat, i < s.table.length ∧ ((s.table[i]?).map Prod.snd) = some a ∧
      s.heap[a]? = (h₀[a]?).map fun n => addRk cfg n (.num i)
  orig : ∀ i, i < s.table.length →
    ∃ a, a < h₀.length ∧ ((s.table[i]?).map Prod.snd) = some a ∧
      s.heap[a]? = (h₀[a]?).map fun n => addRk cfg n (.num i)

/-- Relation between a visited child value and the slot recorded for it, read
against a heap carrying the identifier stamps. -/
def SlotM (cfg : Config) (h : Heap) (v : JSVal) (e : Encoded) : Prop :=
  (∃ b i, v = .ptr b ∧ idOf cfg h b = some i ∧ e = .refRec i) ∨
  (isRoundAtom v = true ∧ e = atomEnc v)

/-- The value `visit` passes on for field (k, v) of an object node, or none
when the replacer omits the field. -/
def effValue (erp : Option (String → JSVal → JSVal × Bool)) (k : String) (v : JSVal) :
    Option JSVal :=
  match erp with
  | none => some v
  | some f =>
      if v = .undef then some v
      else if (f k v).1 = .undef then none else some (f k v).1

/-- Relation between an object node's fields and the slots of its entry. -/
inductive FieldsM (cfg : Config) (erp : Option (String → JSVal → JSVal × Bool))
    (h : Heap) : List (String × JSVal) → List (String × Encoded) → Prop where
  | nil : FieldsM cfg erp h [] []
  | keep {k v v' e rest out} : effValue erp k v = some v' → SlotM cfg h v' e →
      FieldsM cfg erp h rest out → FieldsM cfg erp h ((k, v) :: rest) ((k, e) :: out)
  | drop {k v rest out} : effValue erp k v = none →
      FieldsM cfg erp h rest out → FieldsM cfg erp h ((k, v) :: rest) out

/-- Entry `i` of the table is a finished copy of its original node. -/
def EntryM (cfg : Config) (erp : Option (String → JSVal → JSVal × Bool))
    (h h₀ : Heap) (t : List (Copy × Addr)) (i : Nat) : Prop :=
  ∃ c a, t[i]? = some (c, a) ∧
    ((∃ fs erk out, h₀[a]? = some (.obj fs) ∧ FieldsM cfg erp h fs out ∧
        c = .obj ((cfg.refcode, erk) :: out)) ∨
     (∃ es ps out eps, h₀[a]? = some (.arr es ps) ∧
        List.Forall₂ (SlotM cfg h) es out ∧ c = .arr out eps))

/-- The replacer invocations the field loop of one object node generates: one
per iterated field whose value is not undefined, carrying the user-visibility
flag the effective replacer reports. -/
def callsOfFields (erp : Option (String → JSVal → JSVal × Bool)) (a : Addr)
    (l : List (String × JSVal)) : List RCall :=
  match erp with
  | none => []
  | some f => l.filterMap fun kv =>
      if kv.2 = .undef then none else some ⟨a, kv.1, kv.2, (f kv.1 kv.2).2⟩

/-- The calls logged for a node the traversal just encoded. -/
def CallsAt (cfg : Config) (h₀ : Heap) (erp : Option (String → JSVal → JSVal × Bool))
    (s' : EncState) (b : Addr) (cs : List RCall) : Prop :=
  (∃ fs i, h₀[b]? = some (.obj fs) ∧ idOf cfg s'.heap b = some i ∧
      cs = callsOfFields erp b (fs ++ [(cfg.refcode, .num i)])) ∨
  (∃ es ps, h₀[b]? = some (.arr es ps) ∧ cs = [])

/-- How many heap nodes still lack an identifier (drives the fuel bound). -/
def untaggedCount (cfg : Config) (h : Heap) : Nat :=
  (List.range h.length).countP fun a => !(isTagged cfg h a)

/-- The state-evolution part of the traversal postcondition. -/
structure SPost (cfg : Config) (h₀ : Heap)
    (erp : Option (String → JSVal → JSVal × Bool)) (s s' : EncState) : Prop where
  inv : Inv cfg h₀ s'
  tpre : ∃ tnew, s'.table = s.table ++ tnew
  stable : ∀ b, b < h₀.length → isTagged cfg s.heap b = true → s'.heap[b]? = s.heap[b]?
  entries : ∀ i, s.table.length ≤ i → i < s'.table.length →
    EntryM cfg erp s'.heap h₀ s'.table i

/-- The call-log part of the traversal postcondition: the log grows by calls
for nodes this call newly encoded, each matching its node's field list. -/
def CallsPost (cfg : Config) (h₀ : Heap)
    (erp : Option (String → JSVal → JSVal × Bool)) (s s' : EncState) : Prop :=
  ∃ Δ, s'.calls = s.calls ++ Δ ∧
    (∀ c ∈ Δ, c.val ≠ .undef ∧ c.node < h₀.length ∧
      isTagged cfg s.heap c.node = false ∧ isTagged cfg s'.heap c.node = true) ∧
    ∀ b, b < h₀.length → isTagged cfg s.heap b = false →
      isTagged cfg s'.heap b = true →
      CallsAt cfg h₀ erp s' b (Δ.filter fun c => c.node == b)

/-- The calls-log postcondition of the field loop of node `a` over fields
`l`: besides calls for newly encoded descendants, the loop itself logs one
call per iterated field with a defined value. -/
def LoopCalls (cfg : Config) (h₀ : Heap)
    (erp : Option (String → JSVal → JSVal × Bool)) (a : Addr)
    (l : List (String × JSVal)) (s s' : EncState) : Prop :=
  ∃ Δ, s'.calls = s.calls ++ Δ ∧
    (∀ c ∈ Δ, c.val ≠ .undef ∧ (c.node = a ∨ (c.node < h₀.length ∧
        isTagged cfg s.heap c.node = false ∧ isTagged cfg s'.heap c.node = true))) ∧
    (Δ.filter fun c => c.node == a) = callsOfFields erp a l ∧
    ∀ b, b < h₀.length → b ≠ a → isTagged cfg s.heap b = false →
      isTagged cfg s'.heap b = true →
      CallsAt cfg h₀ erp s' b (Δ.filter fun c => c.node == b)

/-- Full postcondition of `visit`. -/
structure VPost (cfg : Config) (h₀ : Heap)
    (erp : Option (String → JSVal → JSVal × Bool))
    (v : JSVal) (s : EncState) (e : Encoded) (s' : EncState) : Prop where
  sp : SPost cfg h₀ erp s s'
  cp : CallsPost cfg h₀ erp s s'
  slot : SlotM cfg s'.heap v e
  fresh : ∀ b, v = .ptr b → isTagged cfg s.heap b = false →
    e = .refRec (s.table.length)

/-- Well-behavedness of the effective replacer: on well-formed values it
returns a well-formed value or undefined. -/
def ErpWf (len : Nat) (erp : Option (String → JSVal → JSVal × Bool)) : Prop :=
  ∀ f, erp = some f → ∀ k v, wfVal len v = true →
    wfVal len (f k v).1 = true ∨ (f k v).1 = JSVal.undef

/-- Specification of the recursive call available to the traversal loops. -/
def RecSpec (cfg : Config) (h₀ : Heap) (erp : Option (String → JSVal → JSVal × Bool))
    (F : Nat) (rec : JSVal → EncState → Except EncErr (Encoded × EncState)) : Prop :=
  ∀ v s, Inv cfg h₀ s → wfVal h₀.length v = true →
    untaggedCount cfg s.heap < F →
    ∃ e s', rec v s = .ok (e, s') ∧ VPost cfg h₀ erp v s e s'

/-- One step of the cleanup loop's heap restoration for one visited node:
delete the scratch refcode under the cleanup option, tombstone it to null
otherwise (`_setRefcodeNull`). -/
def cleanNode (cfg : Config) (h : Heap) (b : Addr) : Heap :=
  if cfg.cleanup then delNodeProp h b cfg.refcode
  else setNodeProp h b cfg.refcode .null

/-- Strip the scratch refcode from a table copy (the cleanup loop's delete on
the copy). -/
def stripRk (cfg : Config) : Copy → Copy
  | .obj fs => .obj (delKV fs cfg.refcode)
  | .arr es ps => .arr es (delKV ps cfg.refcode)

/-- Renaming of values along an address-to-identifier map: a pointer moves to
the decoded node at the pointee's identifier, an atom stays itself. -/
def renameVal (f : Addr → Nat) : JSVal → JSVal
  | .ptr b => .ptr (f b)
  | v => v

/-- Heap `h₂` is `h₁` with null refcode tombstones on some refcode-free
nodes — the caller-visible residue a cleanup-less `stringify` leaves. -/
def RelHeap (cfg : Config) (h₁ h₂ : Heap) : Prop :=
  h₂.length = h₁.length ∧
  ∀ b : Addr, h₂[b]? = h₁[b]? ∨
    ∃ n, h₁[b]? = some n ∧ n.getProp cfg.refcode = none ∧
      h₂[b]? = some (addRk cfg n .null)

/-- Relating the results of one traversal step run on two `RelHeap`-related
states: same error, or same payload with equal tables and logs and related
heaps. -/
def ResultRelP {α : Type} (cfg : Config)
    (r₁ r₂ : Except EncErr (α × EncState)) : Prop :=
  (∃ e, r₁ = .error e ∧ r₂ = .error e) ∨
  (∃ x s₁ s₂, r₁ = .ok (x, s₁) ∧ r₂ = .ok (x, s₂) ∧
    s₁.table = s₂.table ∧ s₁.calls = s₂.calls ∧ RelHeap cfg s₁.heap s₂.heap)

/-- Relational specification of the recursive call for the two-run
comparison. -/
def RelRec (cfg : Config)
    (rec : JSVal → EncState → Except EncErr (Encoded × EncState)) : Prop :=
  ∀ v s₁ s₂, s₁.table = s₂.table → s₁.calls = s₂.calls →
    RelHeap cfg s₁.heap s₂.heap → ResultRelP cfg (rec v s₁) (rec v s₂)

/-! ### Ordered property lists -/

theorem getKV_eq_none_iff {α : Type} (l : List (String × α)) (k : String) :
    getKV l k = none ↔ ∀ kv ∈ l, kv.1 ≠ k := by
  induction l with
  | nil => simp [getKV]
  | cons kv rest ih =>
      obtain ⟨k', v⟩ := kv
      by_cases h : k' = k <;> simp [getKV, h, ih]

theorem getKV_append_none {α : Type} {l1 : List (String × α)} {k : String}
    (l2 : List (String × α)) (h : getKV l1 k = none) :
    getKV (l1 ++ l2) k = getKV l2 k := by
  induction l1 with
  | nil => simp
  | cons kv rest ih =>
      obtain ⟨k', v⟩ := kv
      by_cases hk : k' = k
      · simp [getKV, hk] at h
      · simp only [getKV, hk, if_false, List.cons_append] at h ⊢
        exact ih h

theorem getKV_append_some {α : Type} {l1 : List (String × α)} {k : String} {v : α}
    (l2 : List (String × α)) (h : getKV l1 k = some v) :
    getKV (l1 ++ l2) k = some v := by
  induction l1 with
  | nil => simp [getKV] at h
  | cons kv rest ih =>
      obtain ⟨k', v'⟩ := kv
      by_cases hk : k' = k
      · simp only [getKV, hk, if_true] at h ⊢
        simpa using h
      · simp only [getKV, hk, if_false, List.cons_append] at h ⊢
        exact ih h

theorem setKV_fresh {α : Type} {l : List (String × α)} {k : String}
    (v : α) (h : getKV l k = none) : setKV l k v = l ++ [(k, v)] := by
  induction l with
  | nil => simp [setKV]
  | cons kv rest ih =>
      obtain ⟨k', v'⟩ := kv
      by_cases hk : k' = k
      · simp [getKV, hk] at h
      · simp only [getKV, hk, if_false] at h
        simp [setKV, hk, ih h]

theorem getKV_setKV_self {α : Type} (l : List (String × α)) (k : String) (v : α) :
    getKV (setKV l k v) k = some v := by
  induction l with
  | nil => simp [setKV, getKV]
  | cons kv rest ih =>
      obtain ⟨k', v'⟩ := kv
      by_cases hk : k' = k <;> simp [setKV, getKV, hk, ih]

theorem getKV_setKV_ne {α : Type} (l : List (String × α)) {k k' : String} (v : α)
    (h : k ≠ k') : getKV (setKV l k v) k' = getKV l k' := by
  induction l with
  | nil => simp [setKV, getKV, h]
  | cons kv rest ih =>
      obtain ⟨k₀, v₀⟩ := kv
      by_cases hk : k₀ = k
      · subst hk
        simp [setKV, getKV, h]
      · simp only [setKV, hk, if_false]
        by_cases hk' : k₀ = k' <;> simp [getKV, hk', ih]

theorem delKV_of_none {α : Type} {l : List (String × α)} {k : String}
    (h : getKV l k = none) : delKV l k = l := by
  rw [getKV_eq_none_iff] at h
  simpa [delKV, List.filter_eq_self] using h

theorem delKV_append {α : Type} (l1 l2 : List (String × α)) (k : String) :
    delKV (l1 ++ l2) k = delKV l1 k ++ delKV l2 k := by
  simp [delKV]

theorem delKV_singleton_self {α : Type} (k : String) (v : α) :
    delKV [(k, v)] k = [] := by
  simp [delKV]

theorem getKV_map {α β : Type} (f : α → β) (l : List (String × α)) (k : String) :
    getKV (l.map fun kv => (kv.1, f kv.2)) k = (getKV l k).map f := by
  induction l with
  | nil => simp [getKV]
  | cons kv rest ih =>
      obtain ⟨k', v⟩ := kv
      by_cases hk : k' = k <;> simp [getKV, hk, ih]

theorem setKV_last {α : Type} (l : List (String × α)) (k : String) (v v' : α)
    (h : getKV l k = none) : setKV (l ++ [(k, v)]) k v' = l ++ [(k, v')] := by
  induction l with
  | nil => simp [setKV]
  | cons kv rest ih =>
      obtain ⟨k₀, v₀⟩ := kv
      by_cases hk : k₀ = k
      · simp [getKV, hk] at h
      · simp only [getKV, hk, if_false] at h
        simp [setKV, hk, ih h]

/-! ### String facts -/

theorem listStarts_append {α : Type} [DecidableEq α] (p t : List α) :
    listStarts (p ++ t) p = true := by
  induction p with
  | nil => simp [listStarts]
  | cons a rest ih => simp [listStarts, ih]

theorem listStarts_refl {α : Type} [DecidableEq α] (l : List α) : listStarts l l = true := by
  have h := listStarts_append l []
  simpa using h

theorem strStarts_refl (s : String) : strStarts s s = true := listStarts_refl s.toList

theorem toList_append (s t : String) : (s ++ t).toList = s.toList ++ t.toList := by
  simp [String.toList, String.data_append]

theorem strStarts_append (p s : String) : strStarts (p ++ s) p = true := by
  simp [strStarts, toList_append, listStarts_append]

theorem ne_append_of_not_strStarts {k m : String} (s : String)
    (h : strStarts k m = false) : k ≠ m ++ s := by
  intro hk
  rw [hk, strStarts_append] at h
  simp at h

/-- Appending a nonempty string changes a string. -/
theorem self_ne_append {s : String} (t : String) (h : t.data ≠ []) : s ≠ s ++ t := by
  intro he
  have h2 := congrArg String.data he
  rw [String.data_append] at h2
  have h3 := congrArg List.length h2
  simp only [List.length_append] at h3
  have h4 : 0 < t.data.length := List.length_pos.mpr h
  omega

theorem mark_ne_refcode (cfg : Config) : cfg.mark ≠ cfg.refcode :=
  self_ne_append "id" (by decide)

theorem mark_ne_buildcode (cfg : Config) : cfg.mark ≠ cfg.buildcode :=
  self_ne_append "." (by decide)

theorem mark_ne_valuecode (cfg : Config) : cfg.mark ≠ cfg.valuecode :=
  self_ne_append "v" (by decide)

theorem buildcode_ne_valuecode (cfg : Config) : cfg.buildcode ≠ cfg.valuecode := by
  intro h
  have := congrArg String.data h
  simp [Config.buildcode, Config.valuecode, String.data_append] at this

theorem buildcode_ne_mark (cfg : Config) : cfg.buildcode ≠ cfg.mark :=
  fun h => mark_ne_buildcode cfg h.symm

theorem refcode_ne_mark (cfg : Config) : cfg.refcode ≠ cfg.mark :=
  fun h => mark_ne_refcode cfg h.symm

theorem valuecode_ne_refcode (cfg : Config) : cfg.valuecode ≠ cfg.refcode := by
  intro h
  have := congrArg String.data h
  simp [Config.valuecode, Config.refcode, String.data_append] at this

theorem buildcode_ne_refcode (cfg : Config) : cfg.buildcode ≠ cfg.refcode := by
  intro h
  have := congrArg String.data h
  simp [Config.buildcode, Config.refcode, String.data_append] at this

/-- A key that does not start with the marker is none of the marker keys. -/
theorem notMark_ne_refcode {cfg : Config} {k : String}
    (h : strStarts k cfg.mark = false) : k ≠ cfg.refcode :=
  ne_append_of_not_strStarts "id" h

theorem notMark_ne_mark {cfg : Config} {k : String}
    (h : strStarts k cfg.mark = false) : k ≠ cfg.mark := by
  intro hk
  subst hk
  rw [strStarts_refl] at h
  simp at h

theorem notMark_ne_buildcode {cfg : Config} {k : String}
    (h : strStarts k cfg.mark = false) : k ≠ cfg.buildcode :=
  ne_append_of_not_strStarts "." h

theorem notMark_ne_valuecode {cfg : Config} {k : String}
    (h : strStarts k cfg.mark = false) : k ≠ cfg.valuecode :=
  ne_append_of_not_strStarts "v" h

theorem strStarts_refcode (cfg : Config) : strStarts cfg.refcode cfg.mark = true :=
  strStarts_append cfg.mark "id"

/-! ### The decimal codec round-trips -/

theorem digitVal_digitChar {d : Nat} (h : d < 10) : digitVal (Nat.digitChar d) = d := by
  interval_cases d <;> decide

theorem isDigitChar_digitChar {d : Nat} (h : d < 10) :
    isDigitChar (Nat.digitChar d) = true := by
  interval_cases d <;> decide

theorem not_isDigitChar_neg : isDigitChar '-' = false := by decide

theorem decimalOfNat_toList (n : Nat) (h : n ≠ 0) :
    (decimalOfNat n).toList = ((Nat.digits 10 n).map Nat.digitChar).reverse := by
  rw [decimalOfNat, if_neg h]
  rfl

theorem parseDecNatL_decimal (n : Nat) :
    parseDecNatL (decimalOfNat n).toList = some n := by
  by_cases h0 : n = 0
  · subst h0
    decide
  · have hne : Nat.digits 10 n ≠ [] := Nat.digits_ne_nil_iff_ne_zero.mpr h0
    rw [decimalOfNat_toList n h0]
    have hdig : ∀ c ∈ ((Nat.digits 10 n).map Nat.digitChar).reverse, isDigitChar c = true := by
      intro c hc
      simp only [List.mem_reverse, List.mem_map] at hc
      obtain ⟨d, hd, rfl⟩ := hc
      exact isDigitChar_digitChar (Nat.digits_lt_base (by norm_num) hd)
    have hne2 : ((Nat.digits 10 n).map Nat.digitChar).reverse ≠ [] := by
      simp [hne]
    rw [parseDecNatL, if_pos ⟨hne2, List.all_eq_true.mpr hdig⟩]
    congr 1
    rw [List.reverse_reverse, List.map_map]
    have heq : (Nat.digits 10 n).map (digitVal ∘ Nat.digitChar) = Nat.digits 10 n := by
      refine (List.map_congr_left ?_).trans (List.map_id _)
      intro d hd
      exact digitVal_digitChar (Nat.digits_lt_base (by norm_num) hd)
    rw [heq, Nat.ofDigits_digits]

theorem decimalOfNat_toList_digits (n : Nat) :
    ∀ c ∈ (decimalOfNat n).toList, isDigitChar c = true := by
  by_cases h0 : n = 0
  · subst h0
    decide
  · intro c hc
    rw [decimalOfNat_toList n h0] at hc
    simp only [List.mem_reverse, List.mem_map] at hc
    obtain ⟨d, hd, rfl⟩ := hc
    exact isDigitChar_digitChar (Nat.digits_lt_base (by norm_num) hd)

theorem decimalOfNat_ne_nil (n : Nat) : (decimalOfNat n).toList ≠ [] := by
  by_cases h0 : n = 0
  · subst h0
    decide
  · have hne : Nat.digits 10 n ≠ [] := Nat.digits_ne_nil_iff_ne_zero.mpr h0
    rw [decimalOfNat_toList n h0]
    simp [hne]

theorem decimalOfInt_neg (i : Int) (h : i < 0) :
    (decimalOfInt i).toList = '-' :: (decimalOfNat i.natAbs).toList := by
  rw [decimalOfInt, if_pos h, toList_append]
  rfl

theorem parseDecInt_decimalOfInt (i : Int) : parseDecInt (decimalOfInt i) = some i := by
  unfold parseDecInt
  split
  · next rest heq =>
      by_cases hneg : i < 0
      · have h2 := decimalOfInt_neg i hneg
        rw [heq] at h2
        have hrest : rest = (decimalOfNat i.natAbs).toList := (List.cons.injEq _ _ _ _ ▸ h2).2
        rw [hrest, parseDecNatL_decimal]
        simp only [Option.map_some', Int.ofNat_eq_natCast, Option.some.injEq]
        omega
      · exfalso
        have h1 : decimalOfInt i = decimalOfNat i.natAbs := by
          rw [decimalOfInt, if_neg hneg]
        have hmem : isDigitChar '-' = true := by
          apply decimalOfNat_toList_digits i.natAbs
          rw [← h1, heq]
          exact List.mem_cons_self _ _
        exact absurd hmem (by decide)
  · next hne =>
      by_cases hneg : i < 0
      · exfalso
        exact hne _ (decimalOfInt_neg i hneg)
      · have h1 : decimalOfInt i = decimalOfNat i.natAbs := by
          rw [decimalOfInt, if_neg hneg]
        rw [h1, parseDecNat, parseDecNatL_decimal]
        simp only [Option.map_some', Int.ofNat_eq_natCast, Option.some.injEq]
        omega

/-! ### Atom slot encoding and its decoding -/

theorem handleAtom_round {v : JSVal} (h : isRoundAtom v = true) :
    handleAtom v = .ok (atomEnc v) := by
  cases v <;> simp_all [isRoundAtom, handleAtom, atomEnc]

theorem takeWhile_of_all {α : Type} {p : α → Bool} {l : List α}
    (h : l.all p = true) : l.takeWhile p = l := by
  induction l with
  | nil => rfl
  | cons a rest ih =>
      simp only [List.all_cons, Bool.and_eq_true] at h
      simp [List.takeWhile_cons, h.1, ih h.2]

theorem valuecode_ne_mark (cfg : Config) : cfg.valuecode ≠ cfg.mark :=
  fun h => mark_ne_valuecode cfg h.symm

theorem isFlagChar_of_isGimy {c : Char} (h : isGimy c = true) : isFlagChar c = true := by
  simp only [isGimy, Bool.or_eq_true, decide_eq_true_eq] at h
  rcases h with ((h | h) | h) | h <;> subst h <;> decide

theorem flagsOK_of_gimy {flags : String}
    (hall : flags.toList.all isGimy = true) (hnd : nodupB flags.toList = true) :
    flagsOK flags = true := by
  rw [flagsOK, Bool.and_eq_true]
  refine ⟨?_, hnd⟩
  rw [List.all_eq_true] at hall ⊢
  exact fun c hc => isFlagChar_of_isGimy (hall c hc)

/-- What a builder slot decodes through. -/
theorem decodeChild_buildRec (cfg : Config) (tableLen : Nat)
    (name : String) (args : List JSVal) :
    decodeChild cfg tableLen (jOfEncoded cfg (.buildRec name args)) =
      build name (args.map jOfAtom) := by
  simp [decodeChild, jOfEncoded, getKV, buildcode_ne_mark cfg,
    valuecode_ne_mark cfg, buildcode_ne_valuecode cfg]

theorem build_number (s : String) :
    build "Number" [.str s] = .ok (numberOfString s) := rfl

theorem build_bigint (s : String) :
    build "BigInt" [.str s] =
      (match parseDecInt s with
       | some i => .ok (.bigint i)
       | none => .error .buildFailed) := rfl

theorem build_date (s : String) :
    build "Date" [.str s] =
      .ok (match msOfIso s with
           | some ms => JSVal.date ms
           | none => JSVal.invalidDate) := rfl

theorem build_regexp (src flags : String) :
    build "RegExp" [.str src, .str flags] =
      if flagsOK flags = true then .ok (.regexp src flags)
      else .error .buildFailed := rfl

/-- A reference slot decodes to the pointer at its identifier. -/
theorem decodeSlot_refRec (cfg : Config) (tableLen : Nat) (i : Nat)
    (h : i < tableLen) :
    decodeSlot cfg tableLen (jOfEncoded cfg (.refRec i)) = .ok (.ptr i) := by
  have hcond : 0 ≤ (i : Int) ∧ (i : Int).toNat < tableLen := by
    constructor
    · exact Int.natCast_nonneg i
    · simpa using h
  simp [decodeSlot, jOfEncoded, jIsAtom, decodeChild, getKV, hcond, h]

/-- Every round-tripping atom's encoded slot decodes back to the atom. -/
theorem decodeSlot_atomEnc (cfg : Config) (tableLen : Nat) {v : JSVal}
    (h : isRoundAtom v = true) :
    decodeSlot cfg tableLen (jOfEncoded cfg (atomEnc v)) = .ok v := by
  cases v with
  | null => rfl
  | bool b => rfl
  | num n => rfl
  | str s => rfl
  | undef =>
      simp [decodeSlot, atomEnc, jOfEncoded, jIsAtom, decodeChild, getKV]
  | nan =>
      show decodeChild cfg tableLen (jOfEncoded cfg (.buildRec "Number" [.str "NaN"])) = _
      rw [decodeChild_buildRec]
      rfl
  | inf =>
      show decodeChild cfg tableLen (jOfEncoded cfg (.buildRec "Number" [.str "Infinity"])) = _
      rw [decodeChild_buildRec]
      rfl
  | ninf =>
      show decodeChild cfg tableLen
        (jOfEncoded cfg (.buildRec "Number" [.str "-Infinity"])) = _
      rw [decodeChild_buildRec]
      rfl
  | bigint i =>
      show decodeChild cfg tableLen
        (jOfEncoded cfg (.buildRec "BigInt" [.str (decimalOfInt i)])) = _
      rw [decodeChild_buildRec]
      show build "BigInt" [.str (decimalOfInt i)] = _
      rw [build_bigint, parseDecInt_decimalOfInt i]
  | date ms =>
      show decodeChild cfg tableLen
        (jOfEncoded cfg (.buildRec "Date" [.str (isoOfMs ms)])) = _
      rw [decodeChild_buildRec]
      show build "Date" [.str (isoOfMs ms)] = _
      rw [build_date]
      rw [show msOfIso (isoOfMs ms) = some ms from parseDecInt_decimalOfInt ms]
  | invalidDate => simp [isRoundAtom] at h
  | func => simp [isRoundAtom] at h
  | ptr a => simp [isRoundAtom] at h
  | regexp src flags =>
      simp only [isRoundAtom, Bool.and_eq_true] at h
      obtain ⟨⟨hsrc, hall⟩, hnd⟩ := h
      have hcap : capturedFlags flags = flags := by
        rw [capturedFlags, takeWhile_of_all hall]
        rfl
      show decodeChild cfg tableLen
        (jOfEncoded cfg (.buildRec "RegExp" [.str src, .str (capturedFlags flags)])) = _
      rw [decodeChild_buildRec]
      show build "RegExp" [.str src, .str (capturedFlags flags)] = _
      rw [hcap, build_regexp, if_pos (flagsOK_of_gimy hall hnd)]

/-! ### Extracting well-formedness facts -/

theorem wfHeap_mark {cfg : Config} {h : Heap} (hw : wfHeap cfg h = true) :
    cfg.mark ≠ "" := by
  rw [wfHeap, Bool.and_eq_true] at hw
  simpa using hw.1

theorem wfHeap_node {cfg : Config} {h : Heap} (hw : wfHeap cfg h = true)
    {a : Addr} {n : HNode} (ha : h[a]? = some n) : wfNode cfg h.length n = true := by
  rw [wfHeap, Bool.and_eq_true, List.all_eq_true] at hw
  exact hw.2 n (List.getElem?_mem ha)

theorem wfNode_obj_keys {cfg : Config} {len : Nat} {fs : List (String × JSVal)}
    (hw : wfNode cfg len (.obj fs) = true) :
    ∀ kv ∈ fs, strStarts kv.1 cfg.mark = false ∧ wfVal len kv.2 = true := by
  rw [wfNode, Bool.and_eq_true, List.all_eq_true] at hw
  intro kv hkv
  have h2 := hw.2 kv hkv
  rw [Bool.and_eq_true] at h2
  exact ⟨by simpa using h2.1, h2.2⟩

theorem wfNode_obj_nodup {cfg : Config} {len : Nat} {fs : List (String × JSVal)}
    (hw : wfNode cfg len (.obj fs) = true) : nodupKeys fs = true := by
  rw [wfNode, Bool.and_eq_true] at hw
  exact hw.1

theorem wfNode_arr {cfg : Config} {len : Nat} {es : List JSVal}
    {ps : List (String × JSVal)} (hw : wfNode cfg len (.arr es ps) = true) :
    (∀ v ∈ es, wfVal len v = true) ∧ ps = [] := by
  rw [wfNode, Bool.and_eq_true, List.all_eq_true] at hw
  exact ⟨hw.1, by simpa using hw.2⟩

theorem wfNode_rkFree {cfg : Config} {len : Nat} {n : HNode}
    (hw : wfNode cfg len n = true) : n.getProp cfg.refcode = none := by
  cases n with
  | obj fs =>
      rw [HNode.getProp, getKV_eq_none_iff]
      intro kv hkv
      exact notMark_ne_refcode (wfNode_obj_keys hw kv hkv).1
  | arr es ps =>
      have hps := (wfNode_arr hw).2
      simp [HNode.getProp, hps, getKV]

/-! ### Nodes with a trailing refcode stamp -/

theorem addRk_getProp_self {cfg : Config} {n : HNode} (v : JSVal)
    (hf : n.getProp cfg.refcode = none) :
    (addRk cfg n v).getProp cfg.refcode = some v := by
  cases n with
  | obj fs =>
      simp only [HNode.getProp] at hf
      simp only [addRk, HNode.getProp]
      rw [getKV_append_none _ hf]
      simp [getKV]
  | arr es ps =>
      simp only [HNode.getProp] at hf
      simp only [addRk, HNode.getProp]
      rw [getKV_append_none _ hf]
      simp [getKV]

theorem addRk_getProp_ne {cfg : Config} (n : HNode) (v : JSVal) {k : String}
    (hk : k ≠ cfg.refcode) : (addRk cfg n v).getProp k = n.getProp k := by
  have hstep : ∀ l : List (String × JSVal),
      getKV (l ++ [(cfg.refcode, v)]) k = getKV l k := by
    intro l
    cases hg : getKV l k with
    | some w => rw [getKV_append_some _ hg]
    | none =>
        rw [getKV_append_none _ hg]
        simp only [getKV]
        rw [if_neg fun h : cfg.refcode = k => hk h.symm]
  cases n with
  | obj fs => simpa only [addRk, HNode.getProp] using hstep fs
  | arr es ps => simpa only [addRk, HNode.getProp] using hstep ps

theorem setProp_eq_addRk {cfg : Config} {n : HNode} (v : JSVal)
    (hf : n.getProp cfg.refcode = none) :
    n.setProp cfg.refcode v = addRk cfg n v := by
  cases n with
  | obj fs =>
      simp only [HNode.getProp] at hf
      simp only [HNode.setProp, addRk]
      rw [setKV_fresh v hf]
  | arr es ps =>
      simp only [HNode.getProp] at hf
      simp only [HNode.setProp, addRk]
      rw [setKV_fresh v hf]

theorem addRk_ne {cfg : Config} (n : HNode) (v : JSVal) : addRk cfg n v ≠ n := by
  cases n with
  | obj fs =>
      simp only [addRk, ne_eq, HNode.obj.injEq]
      intro h
      have h2 := congrArg List.length h
      simp at h2
  | arr es ps =>
      simp only [addRk, ne_eq, HNode.arr.injEq]
      rintro ⟨-, h⟩
      have h2 := congrArg List.length h
      simp at h2

/-! ### Heap updates -/

theorem length_setNodeProp (h : Heap) (a : Addr) (k : String) (v : JSVal) :
    (setNodeProp h a k v).length = h.length := by
  rw [setNodeProp]
  cases hg : h[a]? <;> simp

theorem getElem?_setNodeProp_ne (h : Heap) {a b : Addr} (k : String) (v : JSVal)
    (hne : b ≠ a) : (setNodeProp h a k v)[b]? = h[b]? := by
  rw [setNodeProp]
  cases hg : h[a]? with
  | none => rfl
  | some n =>
      rw [List.getElem?_set, if_neg fun hh : a = b => hne hh.symm]

theorem getElem?_setNodeProp_self {h : Heap} {a : Addr} {n : HNode}
    (k : String) (v : JSVal) (hg : h[a]? = some n) :
    (setNodeProp h a k v)[a]? = some (n.setProp k v) := by
  have hlt : a < h.length := by
    by_contra hcon
    rw [List.getElem?_eq_none (Nat.le_of_not_lt hcon)] at hg
    exact Option.noConfusion hg
  rw [setNodeProp, hg, List.getElem?_set]
  simp [hlt]

theorem isTagged_congr {cfg : Config} {h h' : Heap} {b : Addr}
    (he : h'[b]? = h[b]?) : isTagged cfg h' b = isTagged cfg h b := by
  rw [isTagged, isTagged, getRefcode, getRefcode, he]

theorem idOf_congr {cfg : Config} {h h' : Heap} {b : Addr}
    (he : h'[b]? = h[b]?) : idOf cfg h' b = idOf cfg h b := by
  rw [idOf, idOf, getRefcode, getRefcode, he]

/-! ### Consequences of the invariant -/

theorem getElem?_some_of_lt {α : Type} {l : List α} {a : Nat} (h : a < l.length) :
    ∃ x, l[a]? = some x := ⟨l[a], List.getElem?_eq_getElem h⟩

theorem isTagged_eq_match {cfg : Config} {h : Heap} {a : Addr} {n : HNode}
    (hn : h[a]? = some n) :
    isTagged cfg h a =
      (match n.getProp cfg.refcode with
       | none => false
       | some .null => false
       | some .undef => false
       | some _ => true) := by
  rw [isTagged, getRefcode, hn]
  rfl

theorem idOf_eq_match {cfg : Config} {h : Heap} {a : Addr} {n : HNode}
    (hn : h[a]? = some n) :
    idOf cfg h a =
      (match n.getProp cfg.refcode with
       | some (.num i) => some i.toNat
       | _ => none) := by
  rw [idOf, getRefcode, hn]
  rfl

theorem isTagged_of_num {cfg : Config} {h : Heap} {a : Addr} {n : HNode} {i : Int}
    (hn : h[a]? = some n) (hp : n.getProp cfg.refcode = some (.num i)) :
    isTagged cfg h a = true := by
  rw [isTagged_eq_match hn, hp]

theorem idOf_of_num {cfg : Config} {h : Heap} {a : Addr} {n : HNode} {i : Int}
    (hn : h[a]? = some n) (hp : n.getProp cfg.refcode = some (.num i)) :
    idOf cfg h a = some i.toNat := by
  rw [idOf_eq_match hn, hp]

theorem isTagged_false_of_rkFree {cfg : Config} {h : Heap} {a : Addr} {n : HNode}
    (hn : h[a]? = some n) (hp : n.getProp cfg.refcode = none) :
    isTagged cfg h a = false := by
  rw [isTagged_eq_match hn, hp]

theorem isTagged_lt_length {cfg : Config} {h : Heap} {a : Addr}
    (ht : isTagged cfg h a = true) : a < h.length := by
  by_contra hcon
  rw [isTagged, getRefcode, List.getElem?_eq_none (Nat.le_of_not_lt hcon)] at ht
  exact Bool.noConfusion ht

theorem idOf_lt_length {cfg : Config} {h : Heap} {b : Addr} {i : Nat}
    (hid : idOf cfg h b = some i) : b < h.length := by
  by_contra hcon
  rw [idOf, getRefcode, List.getElem?_eq_none (Nat.le_of_not_lt hcon)] at hid
  exact Option.noConfusion hid

theorem idOf_some_tagged {cfg : Config} {h : Heap} {b : Addr} {i : Nat}
    (hid : idOf cfg h b = some i) : isTagged cfg h b = true := by
  unfold idOf at hid
  split at hid
  · next j heq =>
      unfold isTagged
      rw [heq]
  · exact Option.noConfusion hid

theorem Inv.untagged_eq {cfg : Config} {h₀ : Heap} {s : EncState}
    (hI : Inv cfg h₀ s) (hw : wfHeap cfg h₀ = true) {a : Addr} (ha : a < h₀.length)
    (ht : isTagged cfg s.heap a = false) : s.heap[a]? = h₀[a]? := by
  rcases hI.node a ha with h | ⟨i, _, _, hheap⟩
  · exact h
  · exfalso
    obtain ⟨n, hn⟩ := getElem?_some_of_lt ha
    rw [hn] at hheap
    simp only [Option.map_some'] at hheap
    have hrk := @addRk_getProp_self cfg n (.num (i : Int))
      (wfNode_rkFree (wfHeap_node hw hn))
    rw [isTagged_of_num hheap hrk] at ht
    exact Bool.noConfusion ht

theorem Inv.tagged_stamp {cfg : Config} {h₀ : Heap} {s : EncState}
    (hI : Inv cfg h₀ s) (hw : wfHeap cfg h₀ = true) {a : Addr} (ha : a < h₀.length)
    (ht : isTagged cfg s.heap a = true) :
    ∃ i n, i < s.table.length ∧ ((s.table[i]?).map Prod.snd) = some a ∧
      h₀[a]? = some n ∧ s.heap[a]? = some (addRk cfg n (.num i)) ∧
      idOf cfg s.heap a = some i := by
  rcases hI.node a ha with h | ⟨i, hi, hsnd, hheap⟩
  · exfalso
    obtain ⟨n, hn⟩ := getElem?_some_of_lt ha
    rw [isTagged_false_of_rkFree (h.trans hn) (wfNode_rkFree (wfHeap_node hw hn))] at ht
    exact Bool.noConfusion ht
  · obtain ⟨n, hn⟩ := getElem?_some_of_lt ha
    rw [hn] at hheap
    simp only [Option.map_some'] at hheap
    have hrk := @addRk_getProp_self cfg n (.num (i : Int))
      (wfNode_rkFree (wfHeap_node hw hn))
    refine ⟨i, n, hi, hsnd, hn, hheap, ?_⟩
    rw [idOf_of_num hheap hrk]
    simp

/-! ### Counting untagged nodes -/

theorem countP_mono_of_imp {l : List Nat} {p q : Nat → Bool}
    (h : ∀ b ∈ l, q b = true → p b = true) : l.countP q ≤ l.countP p := by
  induction l with
  | nil => simp
  | cons a t ih =>
      rw [List.countP_cons, List.countP_cons]
      have hih : t.countP q ≤ t.countP p :=
        ih fun b hb => h b (List.mem_cons_of_mem _ hb)
      have hline : (if q a = true then 1 else 0) ≤ (if p a = true then 1 else 0) := by
        by_cases hq : q a = true
        · rw [if_pos hq, if_pos (h a (List.mem_cons_self _ _) hq)]
        · rw [if_neg hq]
          split <;> omega
      omega

theorem countP_succ_of_flip {l : List Nat} {p q : Nat → Bool} {a : Nat}
    (hnd : l.Nodup) (hmem : a ∈ l) (hpa : p a = true) (hqa : q a = false)
    (hagree : ∀ b ∈ l, b ≠ a → p b = q b) : l.countP p = l.countP q + 1 := by
  induction l with
  | nil => cases hmem
  | cons x t ih =>
      rw [List.countP_cons, List.countP_cons]
      by_cases hxa : x = a
      · subst hxa
        have hnotin : x ∉ t := (List.nodup_cons.mp hnd).1
        have heq : t.countP p = t.countP q := by
          apply List.countP_congr
          intro b hb
          rw [hagree b (List.mem_cons_of_mem _ hb) fun hh => hnotin (hh ▸ hb)]
        rw [heq, hpa, hqa]
        simp
      · have hmem' : a ∈ t := by
          rcases List.mem_cons.mp hmem with hh | hh
          · exact absurd hh.symm hxa
          · exact hh
        have hx := hagree x (List.mem_cons_self _ _) hxa
        rw [hx]
        have := ih (List.nodup_cons.mp hnd).2 hmem'
          fun b hb => hagree b (List.mem_cons_of_mem _ hb)
        omega

theorem untaggedCount_le {cfg : Config} {h h' : Heap} (hlen : h'.length = h.length)
    (hmono : ∀ b, b < h.length → isTagged cfg h b = true → isTagged cfg h' b = true) :
    untaggedCount cfg h' ≤ untaggedCount cfg h := by
  rw [untaggedCount, untaggedCount, hlen]
  apply countP_mono_of_imp
  intro b hb hq
  rw [List.mem_range] at hb
  cases hx : isTagged cfg h b
  · simp
  · rw [hmono b hb hx] at hq
    exact absurd hq (by simp)

theorem untaggedCount_tag {cfg : Config} {h h' : Heap} {a : Addr}
    (hlen : h'.length = h.length) (ha : a < h.length)
    (hx : isTagged cfg h a = false) (hx' : isTagged cfg h' a = true)
    (hsame : ∀ b, b < h.length → b ≠ a → isTagged cfg h' b = isTagged cfg h b) :
    untaggedCount cfg h = untaggedCount cfg h' + 1 := by
  rw [untaggedCount, untaggedCount, hlen]
  apply countP_succ_of_flip (List.nodup_range _) (List.mem_range.mpr ha)
  · rw [hx]
    rfl
  · rw [hx']
    rfl
  · intro b hb hbne
    rw [List.mem_range] at hb
    rw [hsame b hb hbne]

/-! ### Monotonicity under later stamps -/

theorem slotM_mono {cfg : Config} {h h' : Heap} {v : JSVal} {e : Encoded}
    (hm : ∀ b i, idOf cfg h b = some i → idOf cfg h' b = some i) :
    SlotM cfg h v e → SlotM cfg h' v e := by
  rintro (⟨b, i, rfl, hid, rfl⟩ | hat)
  · exact Or.inl ⟨b, i, rfl, hm b i hid, rfl⟩
  · exact Or.inr hat

theorem fieldsM_mono {cfg : Config} {erp : Option (String → JSVal → JSVal × Bool)}
    {h h' : Heap} {l : List (String × JSVal)} {out : List (String × Encoded)}
    (hm : ∀ b i, idOf cfg h b = some i → idOf cfg h' b = some i) :
    FieldsM cfg erp h l out → FieldsM cfg erp h' l out := by
  intro hf
  induction hf with
  | nil => exact .nil
  | keep he hs _ ih => exact .keep he (slotM_mono hm hs) ih
  | drop he _ ih => exact .drop he ih

theorem entryM_mono {cfg : Config} {erp : Option (String → JSVal → JSVal × Bool)}
    {h h' h₀ : Heap} {t t' : List (Copy × Addr)} {i : Nat}
    (hm : ∀ b j, idOf cfg h b = some j → idOf cfg h' b = some j)
    (ht : t'[i]? = t[i]?) :
    EntryM cfg erp h h₀ t i → EntryM cfg erp h' h₀ t' i := by
  rintro ⟨c, a, hti, hrest⟩
  refine ⟨c, a, ht ▸ hti, ?_⟩
  rcases hrest with ⟨fs, erk, out, hfa, hfm, rfl⟩ | ⟨es, ps, out, eps, hfa, hf2, rfl⟩
  · exact Or.inl ⟨fs, erk, out, hfa, fieldsM_mono hm hfm, rfl⟩
  · exact Or.inr ⟨es, ps, out, eps, hfa, hf2.imp fun v e hs => slotM_mono hm hs, rfl⟩

theorem callsAt_mono {cfg : Config} {h₀ : Heap}
    {erp : Option (String → JSVal → JSVal × Bool)} {sA sB : EncState}
    {b : Addr} {cs : List RCall}
    (hm : ∀ x j, idOf cfg sA.heap x = some j → idOf cfg sB.heap x = some j) :
    CallsAt cfg h₀ erp sA b cs → CallsAt cfg h₀ erp sB b cs := by
  rintro (⟨fs, i, hfa, hid, rfl⟩ | h)
  · exact Or.inl ⟨fs, i, hfa, hm b i hid, rfl⟩
  · exact Or.inr h

/-! ### Composing traversal postconditions -/

theorem getElem?_append_left {α : Type} {l1 l2 : List α} {i : Nat}
    (h : i < l1.length) : (l1 ++ l2)[i]? = l1[i]? := by
  rw [List.getElem?_append, if_pos h]

theorem filter_node_eq_nil {Δ : List RCall} {b : Addr}
    (h : ∀ c ∈ Δ, c.node ≠ b) : Δ.filter (fun c => c.node == b) = [] := by
  induction Δ with
  | nil => rfl
  | cons c t ih =>
      rw [List.filter_cons, if_neg (by simp [h c (List.mem_cons_self _ _)])]
      exact ih fun x hx => h x (List.mem_cons_of_mem _ hx)

theorem SPost.tagMono {cfg : Config} {h₀ : Heap}
    {erp : Option (String → JSVal → JSVal × Bool)} {s s' : EncState}
    (hsp : SPost cfg h₀ erp s s') {b : Addr} (hb : b < h₀.length)
    (ht : isTagged cfg s.heap b = true) : isTagged cfg s'.heap b = true := by
  rw [isTagged_congr (hsp.stable b hb ht)]
  exact ht

theorem SPost.untaggedBack {cfg : Config} {h₀ : Heap}
    {erp : Option (String → JSVal → JSVal × Bool)} {s s' : EncState}
    (hsp : SPost cfg h₀ erp s s') {b : Addr} (hb : b < h₀.length)
    (ht : isTagged cfg s'.heap b = false) : isTagged cfg s.heap b = false := by
  cases hx : isTagged cfg s.heap b
  · rfl
  · rw [hsp.tagMono hb hx] at ht
    exact Bool.noConfusion ht

theorem SPost.idMono {cfg : Config} {h₀ : Heap}
    {erp : Option (String → JSVal → JSVal × Bool)} {s s' : EncState}
    (hsp : SPost cfg h₀ erp s s') (hI : Inv cfg h₀ s) :
    ∀ b i, idOf cfg s.heap b = some i → idOf cfg s'.heap b = some i := by
  intro b i hid
  have hb : b < h₀.length := by
    have hlt := idOf_lt_length hid
    rw [hI.len] at hlt
    exact hlt
  have ht := idOf_some_tagged hid
  rw [idOf_congr (hsp.stable b hb ht)]
  exact hid

theorem SPost.ucLE {cfg : Config} {h₀ : Heap}
    {erp : Option (String → JSVal → JSVal × Bool)} {s s' : EncState}
    (hsp : SPost cfg h₀ erp s s') (hI : Inv cfg h₀ s) :
    untaggedCount cfg s'.heap ≤ untaggedCount cfg s.heap := by
  apply untaggedCount_le
  · rw [hsp.inv.len, hI.len]
  · intro b hb ht
    rw [hI.len] at hb
    exact hsp.tagMono hb ht

theorem sPost_refl {cfg : Config} {h₀ : Heap}
    {erp : Option (String → JSVal → JSVal × Bool)} {s : EncState}
    (hI : Inv cfg h₀ s) : SPost cfg h₀ erp s s where
  inv := hI
  tpre := ⟨[], (List.append_nil _).symm⟩
  stable := fun _ _ _ => rfl
  entries := fun _ h1 h2 => absurd h2 (by omega)

theorem callsPost_refl {cfg : Config} {h₀ : Heap}
    {erp : Option (String → JSVal → JSVal × Bool)} {s : EncState} :
    CallsPost cfg h₀ erp s s := by
  refine ⟨[], (List.append_nil _).symm, by simp, ?_⟩
  intro b _ h1 h2
  rw [h1] at h2
  exact Bool.noConfusion h2

theorem sPost_trans {cfg : Config} {h₀ : Heap}
    {erp : Option (String → JSVal → JSVal × Bool)} {s s' s'' : EncState}
    (h1 : SPost cfg h₀ erp s s') (h2 : SPost cfg h₀ erp s' s'') :
    SPost cfg h₀ erp s s'' where
  inv := h2.inv
  tpre := by
    obtain ⟨t1, e1⟩ := h1.tpre
    obtain ⟨t2, e2⟩ := h2.tpre
    exact ⟨t1 ++ t2, by rw [e2, e1, List.append_assoc]⟩
  stable := by
    intro b hb ht
    have h1s := h1.stable b hb ht
    have ht' : isTagged cfg s'.heap b = true := by
      rw [isTagged_congr h1s]
      exact ht
    rw [h2.stable b hb ht', h1s]
  entries := by
    intro i hi1 hi2
    by_cases hmid : i < s'.table.length
    · have hE := h1.entries i hi1 hmid
      have htab : s''.table[i]? = s'.table[i]? := by
        obtain ⟨t2, e2⟩ := h2.tpre
        rw [e2, getElem?_append_left hmid]
      exact entryM_mono (h2.idMono h1.inv) htab hE
    · exact h2.entries i (Nat.le_of_not_lt hmid) hi2

theorem callsPost_trans {cfg : Config} {h₀ : Heap}
    {erp : Option (String → JSVal → JSVal × Bool)} {s s' s'' : EncState}
    (h1 : SPost cfg h₀ erp s s') (h2 : SPost cfg h₀ erp s' s'')
    (hc1 : CallsPost cfg h₀ erp s s') (hc2 : CallsPost cfg h₀ erp s' s'') :
    CallsPost cfg h₀ erp s s'' := by
  obtain ⟨Δ1, he1, hall1, hat1⟩ := hc1
  obtain ⟨Δ2, he2, hall2, hat2⟩ := hc2
  refine ⟨Δ1 ++ Δ2, by rw [he2, he1, List.append_assoc], ?_, ?_⟩
  · intro c hc
    rcases List.mem_append.mp hc with hc | hc
    · obtain ⟨hv, hblen, hun, hta⟩ := hall1 c hc
      exact ⟨hv, hblen, hun, h2.tagMono hblen hta⟩
    · obtain ⟨hv, hblen, hun, hta⟩ := hall2 c hc
      exact ⟨hv, hblen, h1.untaggedBack hblen hun, hta⟩
  · intro b hb hbs hbs''
    by_cases hmid : isTagged cfg s'.heap b = true
    · have hA := hat1 b hb hbs hmid
      have hflt2 : Δ2.filter (fun c => c.node == b) = [] := by
        apply filter_node_eq_nil
        intro c hc
        intro hcb
        have hun := (hall2 c hc).2.2.1
        rw [hcb, hmid] at hun
        exact Bool.noConfusion hun
      rw [List.filter_append, hflt2, List.append_nil]
      exact callsAt_mono (h2.idMono h1.inv) hA
    · have hmid' : isTagged cfg s'.heap b = false := by
        cases hx : isTagged cfg s'.heap b
        · rfl
        · exact absurd hx hmid
      have hflt1 : Δ1.filter (fun c => c.node == b) = [] := by
        apply filter_node_eq_nil
        intro c hc
        intro hcb
        have hta := (hall1 c hc).2.2.2
        rw [hcb, hmid'] at hta
        exact Bool.noConfusion hta
      rw [List.filter_append, hflt1, List.nil_append]
      exact hat2 b hb hmid' hbs''

/-! ### Small steps of the traversal -/

theorem setKV_head {α : Type} (k : String) (x v : α) (l : List (String × α)) :
    setKV ((k, x) :: l) k v = (k, v) :: l := by
  simp [setKV]

theorem callsOfFields_nil {erp : Option (String → JSVal → JSVal × Bool)} {a : Addr} :
    callsOfFields erp a [] = [] := by
  cases erp <;> rfl

theorem callsOfFields_append {erp : Option (String → JSVal → JSVal × Bool)}
    {a : Addr} (l1 l2 : List (String × JSVal)) :
    callsOfFields erp a (l1 ++ l2) = callsOfFields erp a l1 ++ callsOfFields erp a l2 := by
  cases erp <;> simp [callsOfFields, List.filterMap_append]

theorem wfVal_ptr {len : Nat} {a : Addr} (h : wfVal len (.ptr a) = true) : a < len := by
  rw [wfVal] at h
  simpa [isRoundAtom] using h

theorem wfVal_undef {len : Nat} : wfVal len .undef = true := rfl

theorem SPost.ofEq {cfg : Config} {h₀ : Heap}
    {erp : Option (String → JSVal → JSVal × Bool)} {s s' : EncState}
    (hI : Inv cfg h₀ s) (hh : s'.heap = s.heap) (ht : s'.table = s.table) :
    SPost cfg h₀ erp s s' where
  inv := by
    refine ⟨?_, ?_, ?_⟩
    · rw [hh]
      exact hI.len
    · intro a ha
      simp only [hh, ht]
      exact hI.node a ha
    · intro i hi
      rw [ht] at hi
      simp only [hh, ht]
      exact hI.orig i hi
  tpre := ⟨[], by rw [ht, List.append_nil]⟩
  stable := fun b hb htg => by rw [hh]
  entries := fun i h1 h2 => by
    rw [ht] at h2
    exact absurd h2 (by omega)

theorem visit_round_atom {cfg : Config} {h₀ : Heap}
    {erp : Option (String → JSVal → JSVal × Bool)} {fuel : Nat} {v : JSVal}
    {s : EncState} (hI : Inv cfg h₀ s) (hround : isRoundAtom v = true) :
    visit cfg erp (fuel + 1) v s = .ok (atomEnc v, s) ∧
      VPost cfg h₀ erp v s (atomEnc v) s := by
  constructor
  · have hA := handleAtom_round hround
    cases v <;>
      first
      | (simp_all [visit, Except.map]; done)
      | exact absurd hround (by simp [isRoundAtom])
  · exact { sp := sPost_refl hI
            cp := callsPost_refl
            slot := Or.inr ⟨hround, rfl⟩
            fresh := fun b hb => by
              subst hb
              simp [isRoundAtom] at hround }

theorem visit_tagged {cfg : Config} {h₀ : Heap}
    {erp : Option (String → JSVal → JSVal × Bool)} {fuel : Nat} {s : EncState}
    {a : Addr} (hw : wfHeap cfg h₀ = true) (hI : Inv cfg h₀ s) (ha : a < h₀.length)
    (ht : isTagged cfg s.heap a = true) :
    ∃ i : Nat, idOf cfg s.heap a = some i ∧
      visit cfg erp (fuel + 1) (.ptr a) s = .ok (.refRec i, s) ∧
      VPost cfg h₀ erp (.ptr a) s (.refRec i) s := by
  obtain ⟨i, n, hi, hsnd, hn0, hheap, hid⟩ := hI.tagged_stamp hw ha ht
  have hg : getRefcode cfg s.heap a = some (.num i) := by
    rw [getRefcode, hheap]
    exact addRk_getProp_self _ (wfNode_rkFree (wfHeap_node hw hn0))
  refine ⟨i, hid, ?_, ?_⟩
  · simp only [visit]
    rw [hheap]
    simp [ht, hg]
  · exact { sp := sPost_refl hI
            cp := callsPost_refl
            slot := Or.inl ⟨a, i, rfl, hid, rfl⟩
            fresh := fun b hb hun => by
              cases hb
              rw [ht] at hun
              exact Bool.noConfusion hun }

/-! ### The field loop -/

theorem callsOfFields_none {a : Addr} {l : List (String × JSVal)} :
    callsOfFields none a l = [] := rfl

theorem callsOfFields_undef {erp : Option (String → JSVal → JSVal × Bool)}
    {a : Addr} {k : String} : callsOfFields erp a [(k, .undef)] = [] := by
  cases erp <;> simp [callsOfFields]

theorem callsOfFields_single {f : String → JSVal → JSVal × Bool} {a : Addr}
    {k : String} {v : JSVal} (hv : v ≠ .undef) :
    callsOfFields (some f) a [(k, v)] = [⟨a, k, v, (f k v).2⟩] := by
  simp [callsOfFields, hv]

theorem nodupKeys_cons {α : Type} {k : String} {v : α} {t : List (String × α)}
    (h : nodupKeys ((k, v) :: t) = true) :
    k ∉ t.map Prod.fst ∧ nodupKeys t = true := by
  rw [nodupKeys, Bool.and_eq_true] at h
  exact ⟨by simpa using h.1, h.2⟩

theorem loopCalls_of_callsPost {cfg : Config} {h₀ : Heap}
    {erp : Option (String → JSVal → JSVal × Bool)} {a : Addr}
    {l : List (String × JSVal)} {s s' : EncState}
    (hta : isTagged cfg s.heap a = true)
    (hnil : callsOfFields erp a l = [])
    (hcp : CallsPost cfg h₀ erp s s') : LoopCalls cfg h₀ erp a l s s' := by
  obtain ⟨Δ, he, hall, hat⟩ := hcp
  refine ⟨Δ, he, ?_, ?_, ?_⟩
  · intro c hc
    obtain ⟨hv, hblen, hun, htg⟩ := hall c hc
    exact ⟨hv, Or.inr ⟨hblen, hun, htg⟩⟩
  · rw [hnil]
    apply filter_node_eq_nil
    intro c hc hca
    have hun := (hall c hc).2.2.1
    rw [hca, hta] at hun
    exact Bool.noConfusion hun
  · intro b hb _ hbs hbs'
    exact hat b hb hbs hbs'

theorem loopCalls_own {cfg : Config} {h₀ : Heap}
    {f : String → JSVal → JSVal × Bool} {a : Addr} {k : String} {v : JSVal}
    {s s' : EncState} (hv : v ≠ .undef)
    (hcalls : s'.calls = s.calls ++ [⟨a, k, v, (f k v).2⟩])
    (hheap : s'.heap = s.heap) :
    LoopCalls cfg h₀ (some f) a [(k, v)] s s' := by
  refine ⟨[⟨a, k, v, (f k v).2⟩], hcalls, ?_, ?_, ?_⟩
  · intro c hc
    rw [List.mem_singleton] at hc
    subst hc
    exact ⟨hv, Or.inl rfl⟩
  · rw [callsOfFields_single hv]
    simp [List.filter]
  · intro b hb hbne hbs hbs'
    rw [hheap, hbs] at hbs'
    exact Bool.noConfusion hbs'

theorem loopCalls_trans {cfg : Config} {h₀ : Heap}
    {erp : Option (String → JSVal → JSVal × Bool)} {a : Addr}
    {l1 l2 : List (String × JSVal)} {s s' s'' : EncState}
    (h1 : SPost cfg h₀ erp s s') (h2 : SPost cfg h₀ erp s' s'')
    (hlc1 : LoopCalls cfg h₀ erp a l1 s s')
    (hlc2 : LoopCalls cfg h₀ erp a l2 s' s'') :
    LoopCalls cfg h₀ erp a (l1 ++ l2) s s'' := by
  obtain ⟨Δ1, he1, hall1, hfa1, hat1⟩ := hlc1
  obtain ⟨Δ2, he2, hall2, hfa2, hat2⟩ := hlc2
  refine ⟨Δ1 ++ Δ2, by rw [he2, he1, List.append_assoc], ?_, ?_, ?_⟩
  · intro c hc
    rcases List.mem_append.mp hc with hc | hc
    · obtain ⟨hv, hrest⟩ := hall1 c hc
      refine ⟨hv, ?_⟩
      rcases hrest with h | ⟨hblen, hun, htg⟩
      · exact Or.inl h
      · exact Or.inr ⟨hblen, hun, h2.tagMono hblen htg⟩
    · obtain ⟨hv, hrest⟩ := hall2 c hc
      refine ⟨hv, ?_⟩
      rcases hrest with h | ⟨hblen, hun, htg⟩
      · exact Or.inl h
      · exact Or.inr ⟨hblen, h1.untaggedBack hblen hun, htg⟩
  · rw [List.filter_append, hfa1, hfa2, callsOfFields_append]
  · intro b hb hbne hbs hbs''
    rw [List.filter_append]
    by_cases hmid : isTagged cfg s'.heap b = true
    · have hA := hat1 b hb hbne hbs hmid
      have hflt2 : Δ2.filter (fun c => c.node == b) = [] := by
        apply filter_node_eq_nil
        intro c hc hcb
        obtain ⟨_, hrest⟩ := hall2 c hc
        rcases hrest with h | ⟨_, hun, _⟩
        · rw [hcb] at h
          exact hbne h
        · rw [hcb, hmid] at hun
          exact Bool.noConfusion hun
      rw [hflt2, List.append_nil]
      exact callsAt_mono (h2.idMono h1.inv) hA
    · have hmid' : isTagged cfg s'.heap b = false := by
        cases hx : isTagged cfg s'.heap b
        · rfl
        · exact absurd hx hmid
      have hflt1 : Δ1.filter (fun c => c.node == b) = [] := by
        apply filter_node_eq_nil
        intro c hc hcb
        obtain ⟨_, hrest⟩ := hall1 c hc
        rcases hrest with h | ⟨_, _, htg⟩
        · rw [hcb] at h
          exact hbne h
        · rw [hcb, hmid'] at htg
          exact Bool.noConfusion htg
      rw [hflt1, List.nil_append]
      exact hat2 b hb hbne hmid' hbs''

/-- One iteration of the field loop, on a singleton field list. -/
theorem visitFields_one {cfg : Config} {h₀ : Heap}
    {erp : Option (String → JSVal → JSVal × Bool)} {F : Nat}
    {rec : JSVal → EncState → Except EncErr (Encoded × EncState)}
    (herp : ErpWf h₀.length erp) (hrec : RecSpec cfg h₀ erp F rec) (a : Addr)
    (k : String) (v : JSVal) (acc : List (String × Encoded)) (s : EncState)
    (hI : Inv cfg h₀ s) (hv : wfVal h₀.length v = true)
    (huc : untaggedCount cfg s.heap < F) (hta : isTagged cfg s.heap a = true) :
    ∃ res s', visitFields rec erp a [(k, v)] acc s = .ok (res, s') ∧
      ((∃ v' e, effValue erp k v = some v' ∧ SlotM cfg s'.heap v' e ∧
          res = setKV acc k e) ∨
        (effValue erp k v = none ∧ res = acc)) ∧
      SPost cfg h₀ erp s s' ∧ LoopCalls cfg h₀ erp a [(k, v)] s s' := by
  cases erp with
  | none =>
      obtain ⟨e, s1, hrun, hpost⟩ := hrec v s hI hv huc
      refine ⟨setKV acc k e, s1, ?_, Or.inl ⟨v, e, rfl, hpost.slot, rfl⟩,
        hpost.sp, loopCalls_of_callsPost hta callsOfFields_none hpost.cp⟩
      simp only [visitFields]
      rw [hrun]
      rfl
  | some f =>
      by_cases hvu : v = .undef
      · subst hvu
        obtain ⟨e, s1, hrun, hpost⟩ := hrec .undef s hI wfVal_undef huc
        refine ⟨setKV acc k e, s1, ?_,
          Or.inl ⟨.undef, e, by simp [effValue], hpost.slot, rfl⟩,
          hpost.sp, loopCalls_of_callsPost hta callsOfFields_undef hpost.cp⟩
        simp only [visitFields, if_pos]
        rw [hrun]
        rfl
      · have hI1 : Inv cfg h₀
            { s with calls := s.calls ++ [⟨a, k, v, (f k v).2⟩] } :=
          ⟨hI.len, hI.node, hI.orig⟩
        have hsp0 : SPost cfg h₀ (some f) s
            { s with calls := s.calls ++ [⟨a, k, v, (f k v).2⟩] } :=
          SPost.ofEq hI rfl rfl
        have hlc0 : LoopCalls cfg h₀ (some f) a [(k, v)] s
            { s with calls := s.calls ++ [⟨a, k, v, (f k v).2⟩] } :=
          loopCalls_own hvu rfl rfl
        by_cases hdrop : (f k v).1 = .undef
        · refine ⟨acc, _, ?_, Or.inr ⟨by simp [effValue, hvu, hdrop], rfl⟩, hsp0, hlc0⟩
          simp only [visitFields, if_neg hvu, if_pos hdrop]
        · have hwf1 : wfVal h₀.length (f k v).1 = true := by
            rcases herp f rfl k v hv with h | h
            · exact h
            · exact absurd h hdrop
          obtain ⟨e, s1, hrun, hpost⟩ :=
            hrec (f k v).1 { s with calls := s.calls ++ [⟨a, k, v, (f k v).2⟩] }
              hI1 hwf1 huc
          have hlc1 : LoopCalls cfg h₀ (some f) a []
              { s with calls := s.calls ++ [⟨a, k, v, (f k v).2⟩] } s1 :=
            loopCalls_of_callsPost hta callsOfFields_nil hpost.cp
          refine ⟨setKV acc k e, s1, ?_,
            Or.inl ⟨(f k v).1, e, by simp [effValue, hvu, hdrop], hpost.slot, rfl⟩,
            sPost_trans hsp0 hpost.sp, ?_⟩
          · simp only [visitFields, if_neg hvu, if_neg hdrop]
            rw [hrun]
            rfl
          · have := loopCalls_trans hsp0 hpost.sp hlc0 hlc1
            simpa using this

/-- The field loop splits along list append. -/
theorem visitFields_append
    {rec : JSVal → EncState → Except EncErr (Encoded × EncState)}
    {erp : Option (String → JSVal → JSVal × Bool)} {a : Addr} :
    ∀ (l1 l2 : List (String × JSVal)) (acc : List (String × Encoded)) (s : EncState),
      visitFields rec erp a (l1 ++ l2) acc s =
        match visitFields rec erp a l1 acc s with
        | .ok pr => visitFields rec erp a l2 pr.1 pr.2
        | .error e => .error e := by
  intro l1
  induction l1 with
  | nil =>
      intro l2 acc s
      simp [visitFields]
  | cons kv t ih =>
      intro l2 acc s
      obtain ⟨k, v⟩ := kv
      rw [List.cons_append]
      cases erp with
      | none =>
          simp only [visitFields]
          cases hr : rec v s with
          | error e => rfl
          | ok pr =>
              obtain ⟨e1, s1⟩ := pr
              exact ih l2 (setKV acc k e1) s1
      | some f =>
          by_cases hvu : v = .undef
          · simp only [visitFields, if_pos hvu]
            cases hr : rec v s with
            | error e => rfl
            | ok pr =>
                obtain ⟨e1, s1⟩ := pr
                exact ih l2 (setKV acc k e1) s1
          · by_cases hdrop : (f k v).1 = .undef
            · simp only [visitFields, if_neg hvu, if_pos hdrop]
              exact ih l2 acc _
            · simp only [visitFields, if_neg hvu, if_neg hdrop]
              cases hr : rec (f k v).1
                  { s with calls := s.calls ++ [⟨a, k, v, (f k v).2⟩] } with
              | error e => rfl
              | ok pr =>
                  obtain ⟨e1, s1⟩ := pr
                  exact ih l2 (setKV acc k e1) s1

/-- The field loop over a fresh, duplicate-free field list. -/
theorem visitFields_many {cfg : Config} {h₀ : Heap}
    {erp : Option (String → JSVal → JSVal × Bool)} {F : Nat}
    {rec : JSVal → EncState → Except EncErr (Encoded × EncState)}
    (herp : ErpWf h₀.length erp) (hrec : RecSpec cfg h₀ erp F rec) (a : Addr) :
    ∀ (l : List (String × JSVal)) (acc : List (String × Encoded)) (s : EncState),
      Inv cfg h₀ s → (∀ kv ∈ l, wfVal h₀.length kv.2 = true) →
      (∀ kv ∈ l, getKV acc kv.1 = none) → nodupKeys l = true →
      untaggedCount cfg s.heap < F → isTagged cfg s.heap a = true →
      ∃ out s', visitFields rec erp a l acc s = .ok (acc ++ out, s') ∧
        FieldsM cfg erp s'.heap l out ∧ SPost cfg h₀ erp s s' ∧
        LoopCalls cfg h₀ erp a l s s' := by
  intro l
  induction l with
  | nil =>
      intro acc s hI _ _ _ _ hta
      exact ⟨[], s, by simp [visitFields], .nil, sPost_refl hI,
        loopCalls_of_callsPost hta callsOfFields_nil callsPost_refl⟩
  | cons kv t ih =>
      intro acc s hI hwl hfresh hnd huc hta
      obtain ⟨k, v⟩ := kv
      obtain ⟨hknot, hndt⟩ := nodupKeys_cons hnd
      obtain ⟨res, s1, hrun1, hres, hsp1, hlc1⟩ :=
        visitFields_one herp hrec a k v acc s hI (hwl (k, v) (by simp)) huc hta
      have hta1 : isTagged cfg s1.heap a = true := by
        have halen : a < h₀.length := by
          have hl := isTagged_lt_length hta
          rwa [hI.len] at hl
        exact hsp1.tagMono halen hta
      have huc1 : untaggedCount cfg s1.heap < F :=
        lt_of_le_of_lt (hsp1.ucLE hI) huc
      have hsplit : visitFields rec erp a ((k, v) :: t) acc s =
          match visitFields rec erp a [(k, v)] acc s with
          | .ok pr => visitFields rec erp a t pr.1 pr.2
          | .error e => .error e := visitFields_append [(k, v)] t acc s
      rcases hres with ⟨v', e, heff, hslot, hresk⟩ | ⟨heff, hresk⟩
      · have hkfresh : getKV acc k = none := hfresh (k, v) (by simp)
        have hset : res = acc ++ [(k, e)] := by
          rw [hresk, setKV_fresh e hkfresh]
        have hfresh1 : ∀ kv ∈ t, getKV (acc ++ [(k, e)]) kv.1 = none := by
          intro kv hkv
          rw [getKV_append_none _ (hfresh kv (List.mem_cons_of_mem _ hkv))]
          have hne : k ≠ kv.1 := by
            intro hh
            exact hknot (hh ▸ List.mem_map_of_mem Prod.fst hkv)
          simp [getKV, hne]
        obtain ⟨out, s', hrun2, hfm, hsp2, hlc2⟩ :=
          ih (acc ++ [(k, e)]) s1 hsp1.inv
            (fun kv hkv => hwl kv (List.mem_cons_of_mem _ hkv)) hfresh1 hndt huc1 hta1
        refine ⟨(k, e) :: out, s', ?_, ?_, sPost_trans hsp1 hsp2, ?_⟩
        · rw [hsplit, hrun1]
          show visitFields rec erp a t res s1 = _
          rw [hset, hrun2, List.append_assoc]
          rfl
        · exact .keep heff (slotM_mono (hsp2.idMono hsp1.inv) hslot) hfm
        · have := loopCalls_trans hsp1 hsp2 hlc1 hlc2
          simpa using this
      · subst hresk
        obtain ⟨out, s', hrun2, hfm, hsp2, hlc2⟩ :=
          ih res s1 hsp1.inv
            (fun kv hkv => hwl kv (List.mem_cons_of_mem _ hkv))
            (fun kv hkv => hfresh kv (List.mem_cons_of_mem _ hkv)) hndt huc1 hta1
        refine ⟨out, s', ?_, .drop heff hfm, sPost_trans hsp1 hsp2, ?_⟩
        · rw [hsplit, hrun1]
          show visitFields rec erp a t res s1 = _
          exact hrun2
        · have := loopCalls_trans hsp1 hsp2 hlc1 hlc2
          simpa using this

/-- The element loop of the array branch. -/
theorem visitElems_spec {cfg : Config} {h₀ : Heap}
    {erp : Option (String → JSVal → JSVal × Bool)} {F : Nat}
    {rec : JSVal → EncState → Except EncErr (Encoded × EncState)}
    (hrec : RecSpec cfg h₀ erp F rec) :
    ∀ (l : List JSVal) (acc : List Encoded) (s : EncState),
      Inv cfg h₀ s → (∀ v ∈ l, wfVal h₀.length v = true) →
      untaggedCount cfg s.heap < F →
      ∃ out s', visitElems rec l acc s = .ok (acc ++ out, s') ∧
        List.Forall₂ (SlotM cfg s'.heap) l out ∧
        SPost cfg h₀ erp s s' ∧ CallsPost cfg h₀ erp s s' := by
  intro l
  induction l with
  | nil =>
      intro acc s hI _ _
      exact ⟨[], s, by simp [visitElems], .nil, sPost_refl hI, callsPost_refl⟩
  | cons v t ih =>
      intro acc s hI hwl huc
      obtain ⟨e, s1, hrun, hpost⟩ := hrec v s hI (hwl v (by simp)) huc
      have huc1 : untaggedCount cfg s1.heap < F :=
        lt_of_le_of_lt (hpost.sp.ucLE hI) huc
      obtain ⟨out, s', hrun2, hf2, hsp2, hcp2⟩ :=
        ih (acc ++ [e]) s1 hpost.sp.inv (fun w hw => hwl w (List.mem_cons_of_mem _ hw)) huc1
      refine ⟨e :: out, s', ?_, ?_, sPost_trans hpost.sp hsp2,
        callsPost_trans hpost.sp hsp2 hpost.cp hcp2⟩
      · simp only [visitElems]
        rw [hrun]
        show visitElems rec t (acc ++ [e]) s1 = _
        rw [hrun2, List.append_assoc]
        rfl
      · exact List.Forall₂.cons (slotM_mono (hsp2.idMono hpost.sp.inv) hpost.slot) hf2

/-! ### The tagging step of an untagged composite -/

theorem getElem?_append_self {α : Type} (l : List α) (x : α) :
    (l ++ [x])[l.length]? = some x := by
  rw [List.getElem?_append]
  simp

theorem set_append_len {α : Type} (l1 : List α) (x y : α) (l2 : List α) :
    (l1 ++ x :: l2).set l1.length y = l1 ++ y :: l2 := by
  induction l1 with
  | nil => simp
  | cons a t ih => simp [List.set, ih]

theorem isRoundAtom_of_wfVal_not_ptr {len : Nat} {v : JSVal}
    (hv : wfVal len v = true) (hnp : ∀ a, v ≠ .ptr a) : isRoundAtom v = true := by
  cases v <;> simp_all [wfVal]

theorem Inv_set_table {cfg : Config} {h₀ : Heap} {s : EncState} {i₀ : Nat}
    {c' : Copy} {a₀ : Addr} (hI : Inv cfg h₀ s)
    (hsnd : (s.table[i₀]?).map Prod.snd = some a₀) :
    Inv cfg h₀ { s with table := s.table.set i₀ (c', a₀) } where
  len := hI.len
  node := by
    intro b hb
    have hsndP : ∀ i : Nat, (((s.table.set i₀ (c', a₀))[i]?).map Prod.snd) =
        ((s.table[i]?).map Prod.snd) := by
      intro i
      by_cases hii : i₀ = i
      · subst hii
        have hlt : i₀ < s.table.length := by
          by_contra hcon
          rw [List.getElem?_eq_none (Nat.le_of_not_lt hcon)] at hsnd
          exact Option.noConfusion hsnd
        rw [List.getElem?_set_self hlt, hsnd]
        rfl
      · rw [List.getElem?_set, if_neg hii]
    rcases hI.node b hb with h | ⟨i, hi, hsnd2, hh⟩
    · exact Or.inl h
    · exact Or.inr ⟨i, by simpa using hi, by rw [hsndP i]; exact hsnd2, hh⟩
  orig := by
    intro i hi
    simp only [List.length_set] at hi
    obtain ⟨b, hb, hsnd2, hh⟩ := hI.orig i hi
    refine ⟨b, hb, ?_, hh⟩
    rw [List.getElem?_set]
    by_cases hii : i₀ = i
    · subst hii
      rw [if_pos rfl, if_pos hi]
      rw [hsnd] at hsnd2
      simp only [Option.map_some'] at hsnd2 ⊢
      simpa using hsnd2
    · rw [if_neg hii]
      exact hsnd2

theorem tagStep {cfg : Config} {h₀ : Heap} {s : EncState} {a : Addr} {n₀ : HNode}
    (hw : wfHeap cfg h₀ = true) (hI : Inv cfg h₀ s) (halen : a < h₀.length)
    (hn₀ : h₀[a]? = some n₀) (hsheap : s.heap[a]? = some n₀)
    (ht' : isTagged cfg s.heap a = false) (copy0 : Copy) :
    Inv cfg h₀ ⟨setNodeProp s.heap a cfg.refcode (.num s.table.length),
      s.table ++ [(copy0, a)], s.calls⟩ ∧
    (setNodeProp s.heap a cfg.refcode (.num s.table.length))[a]? =
        some (addRk cfg n₀ (.num s.table.length)) ∧
    (∀ b, b ≠ a →
        (setNodeProp s.heap a cfg.refcode (.num s.table.length))[b]? = s.heap[b]?) ∧
    isTagged cfg (setNodeProp s.heap a cfg.refcode (.num s.table.length)) a = true ∧
    idOf cfg (setNodeProp s.heap a cfg.refcode (.num s.table.length)) a =
        some s.table.length ∧
    untaggedCount cfg s.heap =
        untaggedCount cfg (setNodeProp s.heap a cfg.refcode (.num s.table.length)) + 1 := by
  have hwfn : wfNode cfg h₀.length n₀ = true := by
    have := wfHeap_node hw hn₀
    exact this
  have hfree := wfNode_rkFree hwfn
  have hT1 : (setNodeProp s.heap a cfg.refcode (.num s.table.length))[a]? =
      some (addRk cfg n₀ (.num s.table.length)) := by
    rw [getElem?_setNodeProp_self _ _ hsheap, setProp_eq_addRk _ hfree]
  have hT2 : ∀ b, b ≠ a →
      (setNodeProp s.heap a cfg.refcode (.num s.table.length))[b]? = s.heap[b]? :=
    fun b hb => getElem?_setNodeProp_ne s.heap _ _ hb
  have hrk := @addRk_getProp_self cfg n₀
    (JSVal.num (s.table.length : Int)) hfree
  have hT4 : isTagged cfg (setNodeProp s.heap a cfg.refcode (.num s.table.length)) a
      = true := isTagged_of_num hT1 hrk
  have hT5 : idOf cfg (setNodeProp s.heap a cfg.refcode (.num s.table.length)) a
      = some s.table.length := by
    rw [idOf_of_num hT1 hrk]
    simp
  refine ⟨?_, hT1, hT2, hT4, hT5, ?_⟩
  · refine ⟨?_, ?_, ?_⟩
    · rw [length_setNodeProp]
      exact hI.len
    · intro b hb
      by_cases hba : b = a
      · subst hba
        refine Or.inr ⟨s.table.length, by simp, ?_, ?_⟩
        · rw [getElem?_append_self]
          rfl
        · rw [hT1, hn₀]
          rfl
      · rcases hI.node b hb with h | ⟨i, hi, hsnd2, hh⟩
        · exact Or.inl (by rw [hT2 b hba]; exact h)
        · refine Or.inr ⟨i, by simp; omega, ?_, by rw [hT2 b hba]; exact hh⟩
          rw [getElem?_append_left hi]
          exact hsnd2
    · intro i hi
      simp only [List.length_append, List.length_cons, List.length_nil] at hi
      by_cases hii : i < s.table.length
      · obtain ⟨b, hb, hsnd2, hh⟩ := hI.orig i hii
        have hba : b ≠ a := by
          intro hba
          subst hba
          obtain ⟨n, hn⟩ := getElem?_some_of_lt hb
          rw [hn] at hh
          simp only [Option.map_some'] at hh
          have := isTagged_of_num hh
            (addRk_getProp_self _ (wfNode_rkFree (wfHeap_node hw hn)))
          rw [this] at ht'
          exact Bool.noConfusion ht'
        refine ⟨b, hb, ?_, by rw [hT2 b hba]; exact hh⟩
        rw [getElem?_append_left hii]
        exact hsnd2
      · have hieq : i = s.table.length := by omega
        subst hieq
        refine ⟨a, halen, ?_, ?_⟩
        · rw [getElem?_append_self]
          rfl
        · rw [hT1, hn₀]
          rfl
  · apply untaggedCount_tag (by rw [length_setNodeProp]) ?_ ht' hT4 ?_
    · rw [hI.len]
      exact halen
    · intro b _ hbne
      exact isTagged_congr (hT2 b hbne)

/-- Unfolding `visit` on an untagged object node. -/
theorem visit_obj_eq {cfg : Config} {erp : Option (String → JSVal → JSVal × Bool)}
    {n : Nat} {s : EncState} {a : Addr} {fs₀ : List (String × JSVal)}
    (hnode : s.heap[a]? = some (.obj fs₀)) (ht' : isTagged cfg s.heap a = false) :
    visit cfg erp (n + 1) (.ptr a) s =
      (do
        let pr ← visitFields (visit cfg erp n) erp a
          (match (setNodeProp s.heap a cfg.refcode (.num s.table.length))[a]? with
           | some (.obj fs) => fs
           | _ => [])
          [(cfg.refcode, .atom (.num s.table.length))]
          ⟨setNodeProp s.heap a cfg.refcode (.num s.table.length),
           s.table ++ [(.obj [(cfg.refcode, .atom (.num s.table.length))], a)],
           s.calls⟩
        Except.ok (.refRec s.table.length,
          { pr.2 with table := pr.2.table.set s.table.length (.obj pr.1, a) })) := by
  simp only [visit]
  rw [hnode]
  simp only [ht', Bool.false_eq_true, if_false]

/-- Unfolding `visit` on an untagged array node. -/
theorem visit_arr_eq {cfg : Config} {erp : Option (String → JSVal → JSVal × Bool)}
    {n : Nat} {s : EncState} {a : Addr} {elems : List JSVal}
    {ps : List (String × JSVal)}
    (hnode : s.heap[a]? = some (.arr elems ps)) (ht' : isTagged cfg s.heap a = false) :
    visit cfg erp (n + 1) (.ptr a) s =
      (do
        let pr ← visitElems (visit cfg erp n) elems []
          ⟨setNodeProp s.heap a cfg.refcode (.num s.table.length),
           s.table ++ [(.arr [] [(cfg.refcode, .atom (.num s.table.length))], a)],
           s.calls⟩
        Except.ok (.refRec s.table.length,
          ⟨pr.2.heap,
           pr.2.table.set s.table.length
             (.arr pr.1 [(cfg.refcode, .atom (.num s.table.length))], a),
           pr.2.calls⟩)) := by
  simp only [visit]
  rw [hnode]
  simp only [ht', Bool.false_eq_true, if_false]

theorem getElem?_append_cons {α : Type} (l : List α) (x : α) (t : List α) :
    (l ++ x :: t)[l.length]? = some x := by
  rw [List.getElem?_append]
  simp

theorem getKV_singleton_ne {α : Type} {k k' : String} (v : α) (h : ¬ k = k') :
    getKV [(k, v)] k' = none := by
  simp [getKV, h]

/-- The main induction: with fuel exceeding the number of still-untagged
nodes, `visit` succeeds and satisfies the full traversal postcondition. -/
theorem visit_spec {cfg : Config} {h₀ : Heap}
    {erp : Option (String → JSVal → JSVal × Bool)}
    (hw : wfHeap cfg h₀ = true) (herp : ErpWf h₀.length erp) :
    ∀ fuel, RecSpec cfg h₀ erp fuel (visit cfg erp fuel) := by
  intro fuel
  induction fuel with
  | zero =>
      intro v s hI hv huc
      exact absurd huc (Nat.not_lt_zero _)
  | succ n ih =>
      intro v s hI hv huc
      by_cases hptr : ∃ a, v = .ptr a
      · obtain ⟨a, rfl⟩ := hptr
        have halen : a < h₀.length := wfVal_ptr hv
        cases ht : isTagged cfg s.heap a with
        | true =>
            obtain ⟨i, hid, hrun, hpost⟩ := @visit_tagged cfg h₀ erp n s a hw hI halen ht
            exact ⟨.refRec i, s, hrun, hpost⟩
        | false =>
            have hsh : s.heap[a]? = h₀[a]? := hI.untagged_eq hw halen ht
            obtain ⟨n₀, hn₀⟩ := getElem?_some_of_lt halen
            have hsheap : s.heap[a]? = some n₀ := hsh.trans hn₀
            have hwfn : wfNode cfg h₀.length n₀ = true := wfHeap_node hw hn₀
            cases n₀ with
            | obj fs₀ =>
                obtain ⟨hI1, hT1, hT2, hT4, hT5, hUC⟩ :=
                  tagStep hw hI halen hn₀ hsheap ht
                    (Copy.obj [(cfg.refcode, Encoded.atom (JSVal.num s.table.length))])
                have huc1 : untaggedCount cfg
                    (setNodeProp s.heap a cfg.refcode (JSVal.num s.table.length)) < n := by
                  omega
                have hfreshA : ∀ kv ∈ fs₀,
                    getKV ([(cfg.refcode, Encoded.atom (JSVal.num s.table.length))] :
                      List (String × Encoded)) kv.1 = none := by
                  intro kv hkv
                  have hne : kv.1 ≠ cfg.refcode :=
                    notMark_ne_refcode (wfNode_obj_keys hwfn kv hkv).1
                  exact getKV_singleton_ne _ fun h => hne h.symm
                obtain ⟨outA, s2, hrunA, hfmA, hspA, hlcA⟩ :=
                  visitFields_many herp ih a fs₀
                    [(cfg.refcode, Encoded.atom (JSVal.num s.table.length))]
                    ⟨setNodeProp s.heap a cfg.refcode (JSVal.num s.table.length),
                     s.table ++ [(Copy.obj
                        [(cfg.refcode, Encoded.atom (JSVal.num s.table.length))], a)],
                     s.calls⟩
                    hI1 (fun kv hkv => (wfNode_obj_keys hwfn kv hkv).2) hfreshA
                    (wfNode_obj_nodup hwfn) huc1 hT4
                have huc2 : untaggedCount cfg s2.heap < n :=
                  lt_of_le_of_lt (hspA.ucLE hI1) huc1
                have hta2 : isTagged cfg s2.heap a = true := hspA.tagMono halen hT4
                obtain ⟨resB, s3, hrunB, hresB, hspB, hlcB⟩ :=
                  visitFields_one herp ih a cfg.refcode (JSVal.num s.table.length)
                    ([(cfg.refcode, Encoded.atom (JSVal.num s.table.length))] ++ outA)
                    s2 hspA.inv rfl huc2 hta2
                have hrunAll : visitFields (visit cfg erp n) erp a
                    (fs₀ ++ [(cfg.refcode, JSVal.num s.table.length)])
                    [(cfg.refcode, Encoded.atom (JSVal.num s.table.length))]
                    ⟨setNodeProp s.heap a cfg.refcode (JSVal.num s.table.length),
                     s.table ++ [(Copy.obj
                        [(cfg.refcode, Encoded.atom (JSVal.num s.table.length))], a)],
                     s.calls⟩ = .ok (resB, s3) := by
                  rw [visitFields_append, hrunA]
                  exact hrunB
                have hLF : (match (setNodeProp s.heap a cfg.refcode
                      (JSVal.num s.table.length))[a]? with
                    | some (.obj fs) => fs
                    | _ => []) = fs₀ ++ [(cfg.refcode, JSVal.num s.table.length)] := by
                  rw [hT1]
                  rfl
                have hrunV : visit cfg erp (n + 1) (.ptr a) s =
                    .ok (.refRec s.table.length,
                      ⟨s3.heap, s3.table.set s.table.length (Copy.obj resB, a),
                       s3.calls⟩) := by
                  rw [visit_obj_eq hsheap ht, hLF, hrunAll]
                  rfl
                obtain ⟨erk, hresEq⟩ : ∃ erk, resB = (cfg.refcode, erk) :: outA := by
                  rcases hresB with ⟨v', e, -, -, hres⟩ | ⟨-, hres⟩
                  · exact ⟨e, by rw [hres, List.singleton_append, setKV_head]⟩
                  · exact ⟨Encoded.atom (JSVal.num s.table.length),
                      by rw [hres, List.singleton_append]⟩
                have spFull : SPost cfg h₀ erp
                    ⟨setNodeProp s.heap a cfg.refcode (JSVal.num s.table.length),
                     s.table ++ [(Copy.obj
                        [(cfg.refcode, Encoded.atom (JSVal.num s.table.length))], a)],
                     s.calls⟩ s3 := sPost_trans hspA hspB
                obtain ⟨Δ, hΔeq, hΔall, hΔfa, hΔat⟩ :
                    LoopCalls cfg h₀ erp a
                      (fs₀ ++ [(cfg.refcode, JSVal.num s.table.length)])
                      ⟨setNodeProp s.heap a cfg.refcode (JSVal.num s.table.length),
                       s.table ++ [(Copy.obj
                          [(cfg.refcode, Encoded.atom (JSVal.num s.table.length))], a)],
                       s.calls⟩ s3 := loopCalls_trans hspA hspB hlcA hlcB
                obtain ⟨tnew, htnew⟩ := spFull.tpre
                have htshape : s3.table = s.table ++
                    (Copy.obj [(cfg.refcode, Encoded.atom (JSVal.num s.table.length))], a)
                      :: tnew := by
                  rw [htnew]
                  show (s.table ++ [(Copy.obj
                      [(cfg.refcode, Encoded.atom (JSVal.num s.table.length))], a)])
                      ++ tnew = _
                  rw [List.append_assoc]
                  rfl
                have hsettab : s3.table.set s.table.length (Copy.obj resB, a) =
                    s.table ++ (Copy.obj resB, a) :: tnew := by
                  rw [htshape]
                  exact set_append_len _ _ _ _
                have hsnd : (s3.table[s.table.length]?).map Prod.snd = some a := by
                  rw [htshape, getElem?_append_cons]
                  rfl
                have hida : idOf cfg s3.heap a = some s.table.length :=
                  spFull.idMono hI1 a s.table.length hT5
                have hspFin : SPost cfg h₀ erp s
                    ⟨s3.heap, s3.table.set s.table.length (Copy.obj resB, a),
                     s3.calls⟩ := by
                  refine ⟨?_, ⟨(Copy.obj resB, a) :: tnew, hsettab⟩, ?_, ?_⟩
                  · exact Inv_set_table spFull.inv hsnd
                  · intro b hb htb
                    have hbna : b ≠ a := by
                      intro hba
                      rw [hba, ht] at htb
                      exact Bool.noConfusion htb
                    have ht1b : isTagged cfg (setNodeProp s.heap a cfg.refcode
                        (JSVal.num s.table.length)) b = true := by
                      rw [isTagged_congr (hT2 b hbna)]
                      exact htb
                    show s3.heap[b]? = s.heap[b]?
                    rw [spFull.stable b hb ht1b]
                    exact hT2 b hbna
                  · intro i hi1 hi2
                    by_cases hieq : i = s.table.length
                    · subst hieq
                      refine ⟨Copy.obj resB, a, ?_, Or.inl ⟨fs₀, erk, outA, hn₀, ?_, ?_⟩⟩
                      · show (s3.table.set s.table.length
                            (Copy.obj resB, a))[s.table.length]? = _
                        rw [hsettab]
                        exact getElem?_append_cons _ _ _
                      · exact fieldsM_mono (hspB.idMono hspA.inv) hfmA
                      · rw [hresEq]
                    · have hi1' : (s.table ++ [(Copy.obj
                          [(cfg.refcode, Encoded.atom (JSVal.num s.table.length))],
                            a)]).length ≤ i := by
                        simp only [List.length_append, List.length_cons,
                          List.length_nil]
                        omega
                      have hi2' : i < s3.table.length := by simpa using hi2
                      refine entryM_mono (fun b j hj => hj) ?_ (spFull.entries i hi1' hi2')
                      show (s3.table.set s.table.length (Copy.obj resB, a))[i]? =
                        s3.table[i]?
                      rw [List.getElem?_set, if_neg fun h => hieq h.symm]
                have hcpFin : CallsPost cfg h₀ erp s
                    ⟨s3.heap, s3.table.set s.table.length (Copy.obj resB, a),
                     s3.calls⟩ := by
                  refine ⟨Δ, hΔeq, ?_, ?_⟩
                  · intro c hc
                    obtain ⟨hv', hrest⟩ := hΔall c hc
                    rcases hrest with hcna | ⟨hblen, hun1, htg3⟩
                    · refine ⟨hv', ?_, ?_, ?_⟩
                      · rw [hcna]
                        exact halen
                      · rw [hcna]
                        exact ht
                      · rw [hcna]
                        exact spFull.tagMono halen hT4
                    · refine ⟨hv', hblen, ?_, htg3⟩
                      have hcna : c.node ≠ a := by
                        intro hh
                        rw [hh, hT4] at hun1
                        exact Bool.noConfusion hun1
                      rw [← isTagged_congr (hT2 c.node hcna)]
                      exact hun1
                  · intro b hb hbs hbs'
                    by_cases hba : b = a
                    · subst hba
                      exact Or.inl ⟨fs₀, s.table.length, hn₀, hida, hΔfa⟩
                    · have hun1 : isTagged cfg (setNodeProp s.heap a cfg.refcode
                          (JSVal.num s.table.length)) b = false := by
                        rw [isTagged_congr (hT2 b hba)]
                        exact hbs
                      exact hΔat b hb hba hun1 hbs'
                refine ⟨.refRec s.table.length,
                  ⟨s3.heap, s3.table.set s.table.length (Copy.obj resB, a), s3.calls⟩,
                  hrunV, hspFin, hcpFin,
                  Or.inl ⟨a, s.table.length, rfl, hida, rfl⟩,
                  fun b hb hun => rfl⟩
            | arr elems ps₀ =>
                obtain ⟨hI1, hT1, hT2, hT4, hT5, hUC⟩ :=
                  tagStep hw hI halen hn₀ hsheap ht
                    (Copy.arr [] [(cfg.refcode, Encoded.atom (JSVal.num s.table.length))])
                have huc1 : untaggedCount cfg
                    (setNodeProp s.heap a cfg.refcode (JSVal.num s.table.length)) < n := by
                  omega
                obtain ⟨out, s2, hrun2, hf2, hsp2, hcp2⟩ :=
                  visitElems_spec ih elems []
                    ⟨setNodeProp s.heap a cfg.refcode (JSVal.num s.table.length),
                     s.table ++ [(Copy.arr []
                        [(cfg.refcode, Encoded.atom (JSVal.num s.table.length))], a)],
                     s.calls⟩
                    hI1 (wfNode_arr hwfn).1 huc1
                rw [List.nil_append] at hrun2
                have hrunV : visit cfg erp (n + 1) (.ptr a) s =
                    .ok (.refRec s.table.length,
                      ⟨s2.heap, s2.table.set s.table.length
                        (Copy.arr out
                          [(cfg.refcode, Encoded.atom (JSVal.num s.table.length))], a),
                       s2.calls⟩) := by
                  rw [visit_arr_eq hsheap ht, hrun2]
                  rfl
                obtain ⟨tnew, htnew⟩ := hsp2.tpre
                have htshape : s2.table = s.table ++
                    (Copy.arr [] [(cfg.refcode, Encoded.atom (JSVal.num s.table.length))],
                      a) :: tnew := by
                  rw [htnew]
                  show (s.table ++ [(Copy.arr []
                      [(cfg.refcode, Encoded.atom (JSVal.num s.table.length))], a)])
                      ++ tnew = _
                  rw [List.append_assoc]
                  rfl
                have hsettab : s2.table.set s.table.length
                    (Copy.arr out
                      [(cfg.refcode, Encoded.atom (JSVal.num s.table.length))], a) =
                    s.table ++ (Copy.arr out
                      [(cfg.refcode, Encoded.atom (JSVal.num s.table.length))], a)
                      :: tnew := by
                  rw [htshape]
                  exact set_append_len _ _ _ _
                have hsnd : (s2.table[s.table.length]?).map Prod.snd = some a := by
                  rw [htshape, getElem?_append_cons]
                  rfl
                have hida : idOf cfg s2.heap a = some s.table.length :=
                  hsp2.idMono hI1 a s.table.length hT5
                have hspFin : SPost cfg h₀ erp s
                    ⟨s2.heap, s2.table.set s.table.length
                      (Copy.arr out
                        [(cfg.refcode, Encoded.atom (JSVal.num s.table.length))], a),
                     s2.calls⟩ := by
                  refine ⟨?_, ⟨(Copy.arr out
                      [(cfg.refcode, Encoded.atom (JSVal.num s.table.length))], a)
                      :: tnew, hsettab⟩, ?_, ?_⟩
                  · exact Inv_set_table hsp2.inv hsnd
                  · intro b hb htb
                    have hbna : b ≠ a := by
                      intro hba
                      rw [hba, ht] at htb
                      exact Bool.noConfusion htb
                    have ht1b : isTagged cfg (setNodeProp s.heap a cfg.refcode
                        (JSVal.num s.table.length)) b = true := by
                      rw [isTagged_congr (hT2 b hbna)]
                      exact htb
                    show s2.heap[b]? = s.heap[b]?
                    rw [hsp2.stable b hb ht1b]
                    exact hT2 b hbna
                  · intro i hi1 hi2
                    by_cases hieq : i = s.table.length
                    · subst hieq
                      refine ⟨Copy.arr out
                          [(cfg.refcode, Encoded.atom (JSVal.num s.table.length))], a,
                        ?_, Or.inr ⟨elems, ps₀, out,
                          [(cfg.refcode, Encoded.atom (JSVal.num s.table.length))],
                          hn₀, hf2, rfl⟩⟩
                      show (s2.table.set s.table.length
                          (Copy.arr out
                            [(cfg.refcode, Encoded.atom (JSVal.num s.table.length))],
                              a))[s.table.length]? = _
                      rw [hsettab]
                      exact getElem?_append_cons _ _ _
                    · have hi1' : (s.table ++ [(Copy.arr []
                          [(cfg.refcode, Encoded.atom (JSVal.num s.table.length))],
                            a)]).length ≤ i := by
                        simp only [List.length_append, List.length_cons,
                          List.length_nil]
                        omega
                      have hi2' : i < s2.table.length := by simpa using hi2
                      refine entryM_mono (fun b j hj => hj) ?_ (hsp2.entries i hi1' hi2')
                      show (s2.table.set s.table.length
                          (Copy.arr out
                            [(cfg.refcode, Encoded.atom (JSVal.num s.table.length))],
                              a))[i]? = s2.table[i]?
                      rw [List.getElem?_set, if_neg fun h => hieq h.symm]
                have hcpFin : CallsPost cfg h₀ erp s
                    ⟨s2.heap, s2.table.set s.table.length
                      (Copy.arr out
                        [(cfg.refcode, Encoded.atom (JSVal.num s.table.length))], a),
                     s2.calls⟩ := by
                  obtain ⟨Δ, hΔeq, hΔall, hΔat⟩ := hcp2
                  have hnotown : ∀ c ∈ Δ, c.node ≠ a := by
                    intro c hc hh
                    have hun1 := (hΔall c hc).2.2.1
                    rw [hh, hT4] at hun1
                    exact Bool.noConfusion hun1
                  refine ⟨Δ, hΔeq, ?_, ?_⟩
                  · intro c hc
                    obtain ⟨hv', hblen, hun1, htg2⟩ := hΔall c hc
                    refine ⟨hv', hblen, ?_, htg2⟩
                    rw [← isTagged_congr (hT2 c.node (hnotown c hc))]
                    exact hun1
                  · intro b hb hbs hbs'
                    by_cases hba : b = a
                    · subst hba
                      refine Or.inr ⟨elems, ps₀, hn₀, ?_⟩
                      exact filter_node_eq_nil hnotown
                    · have hun1 : isTagged cfg (setNodeProp s.heap a cfg.refcode
                          (JSVal.num s.table.length)) b = false := by
                        rw [isTagged_congr (hT2 b hba)]
                        exact hbs
                      exact hΔat b hb hun1 hbs'
                refine ⟨.refRec s.table.length,
                  ⟨s2.heap, s2.table.set s.table.length
                    (Copy.arr out
                      [(cfg.refcode, Encoded.atom (JSVal.num s.table.length))], a),
                   s2.calls⟩,
                  hrunV, hspFin, hcpFin,
                  Or.inl ⟨a, s.table.length, rfl, hida, rfl⟩,
                  fun b hb hun => rfl⟩
      · have hround : isRoundAtom v = true :=
          isRoundAtom_of_wfVal_not_ptr hv fun b hb => hptr ⟨b, hb⟩
        obtain ⟨hrun, hpost⟩ := @visit_round_atom cfg h₀ erp n v s hI hround
        exact ⟨atomEnc v, s, hrun, hpost⟩

/-! ### The cleanup loop -/

theorem cleanupTable_fst (cfg : Config) :
    ∀ (t : List (Copy × Addr)) (hp : Heap),
      (cleanupTable cfg t hp).1 = t.map fun ca => (stripRk cfg ca.1, ca.2) := by
  intro t
  induction t with
  | nil => intro hp; rfl
  | cons ca rest ih =>
      intro hp
      obtain ⟨c, a⟩ := ca
      simp only [cleanupTable, List.map_cons]
      rw [ih]
      cases c <;> rfl

theorem cleanupTable_snd (cfg : Config) :
    ∀ (t : List (Copy × Addr)) (hp : Heap),
      (cleanupTable cfg t hp).2 =
        t.foldl (fun h ca => cleanNode cfg h ca.2) hp := by
  intro t
  induction t with
  | nil => intro hp; rfl
  | cons ca rest ih =>
      intro hp
      obtain ⟨c, a⟩ := ca
      simp only [cleanupTable, List.foldl_cons]
      rw [ih]
      rfl

theorem length_delNodeProp (h : Heap) (a : Addr) (k : String) :
    (delNodeProp h a k).length = h.length := by
  rw [delNodeProp]
  cases hg : h[a]? <;> simp

theorem getElem?_delNodeProp_ne (h : Heap) {a b : Addr} (k : String)
    (hne : b ≠ a) : (delNodeProp h a k)[b]? = h[b]? := by
  rw [delNodeProp]
  cases hg : h[a]? with
  | none => rfl
  | some n => rw [List.getElem?_set, if_neg fun hh : a = b => hne hh.symm]

theorem getElem?_delNodeProp_self {h : Heap} {a : Addr} {n : HNode}
    (k : String) (hg : h[a]? = some n) :
    (delNodeProp h a k)[a]? = some (n.delProp k) := by
  have hlt : a < h.length := by
    by_contra hcon
    rw [List.getElem?_eq_none (Nat.le_of_not_lt hcon)] at hg
    exact Option.noConfusion hg
  rw [delNodeProp, hg, List.getElem?_set]
  simp [hlt]

theorem length_cleanNode (cfg : Config) (h : Heap) (b : Addr) :
    (cleanNode cfg h b).length = h.length := by
  rw [cleanNode]
  split
  · exact length_delNodeProp h b _
  · exact length_setNodeProp h b _ _

theorem getElem?_cleanNode_ne (cfg : Config) (h : Heap) {a b : Addr}
    (hne : b ≠ a) : (cleanNode cfg h a)[b]? = h[b]? := by
  rw [cleanNode]
  split
  · exact getElem?_delNodeProp_ne h _ hne
  · exact getElem?_setNodeProp_ne h _ _ hne

theorem getElem?_cleanNode_self {cfg : Config} {h : Heap} {b : Addr} {n : HNode}
    (hg : h[b]? = some n) :
    (cleanNode cfg h b)[b]? =
      some (if cfg.cleanup then n.delProp cfg.refcode
            else n.setProp cfg.refcode .null) := by
  by_cases hc : cfg.cleanup
  · rw [cleanNode, if_pos hc, if_pos hc, getElem?_delNodeProp_self _ hg]
  · rw [cleanNode, if_neg hc, if_neg hc, getElem?_setNodeProp_self _ _ hg]

theorem getElem?_cleanNode_none {cfg : Config} {h : Heap} {b : Addr}
    (hg : h[b]? = none) : (cleanNode cfg h b)[b]? = none := by
  rw [cleanNode]
  split
  · rw [delNodeProp, hg]
    exact hg
  · rw [setNodeProp, hg]
    exact hg

theorem getElem?_cleanNode_congr {cfg : Config} {h h' : Heap} {b : Addr}
    (he : h'[b]? = h[b]?) :
    (cleanNode cfg h' b)[b]? = (cleanNode cfg h b)[b]? := by
  cases hg : h[b]? with
  | none => rw [getElem?_cleanNode_none (he.trans hg), getElem?_cleanNode_none hg]
  | some n => rw [getElem?_cleanNode_self (he.trans hg), getElem?_cleanNode_self hg]

theorem foldl_clean_notmem (cfg : Config) :
    ∀ (t : List (Copy × Addr)) (hp : Heap) (b : Addr),
      b ∉ t.map Prod.snd →
      (t.foldl (fun h ca => cleanNode cfg h ca.2) hp)[b]? = hp[b]? := by
  intro t
  induction t with
  | nil => intro hp b _; rfl
  | cons ca rest ih =>
      intro hp b hb
      rw [List.map_cons, List.mem_cons] at hb
      push_neg at hb
      rw [List.foldl_cons, ih _ b hb.2, getElem?_cleanNode_ne cfg hp hb.1]

theorem foldl_clean_mem (cfg : Config) :
    ∀ (t : List (Copy × Addr)) (hp : Heap) (b : Addr),
      (t.map Prod.snd).Nodup → b ∈ t.map Prod.snd →
      (t.foldl (fun h ca => cleanNode cfg h ca.2) hp)[b]? =
        (cleanNode cfg hp b)[b]? := by
  intro t
  induction t with
  | nil => intro hp b _ hb; cases hb
  | cons ca rest ih =>
      intro hp b hnd hb
      rw [List.map_cons] at hnd hb
      have hnd' := List.nodup_cons.mp hnd
      rw [List.foldl_cons]
      rcases List.mem_cons.mp hb with hb1 | hb2
      · subst hb1
        rw [foldl_clean_notmem cfg rest _ _ hnd'.1]
      · have hbne : b ≠ ca.2 := fun hh => hnd'.1 (hh ▸ hb2)
        rw [ih _ b hnd'.2 hb2]
        exact getElem?_cleanNode_congr (getElem?_cleanNode_ne cfg hp hbne)

theorem length_foldl_clean (cfg : Config) :
    ∀ (t : List (Copy × Addr)) (hp : Heap),
      (t.foldl (fun h ca => cleanNode cfg h ca.2) hp).length = hp.length := by
  intro t
  induction t with
  | nil => intro hp; rfl
  | cons ca rest ih =>
      intro hp
      rw [List.foldl_cons, ih, length_cleanNode]

theorem delProp_addRk {cfg : Config} {n : HNode} (v : JSVal)
    (hf : n.getProp cfg.refcode = none) :
    (addRk cfg n v).delProp cfg.refcode = n := by
  cases n with
  | obj fs =>
      simp only [HNode.getProp] at hf
      simp only [addRk, HNode.delProp]
      rw [delKV_append, delKV_of_none hf, delKV_singleton_self, List.append_nil]
  | arr es ps =>
      simp only [HNode.getProp] at hf
      simp only [addRk, HNode.delProp]
      rw [delKV_append, delKV_of_none hf, delKV_singleton_self, List.append_nil]

theorem setProp_addRk {cfg : Config} {n : HNode} (v v' : JSVal)
    (hf : n.getProp cfg.refcode = none) :
    (addRk cfg n v).setProp cfg.refcode v' = addRk cfg n v' := by
  cases n with
  | obj fs =>
      simp only [HNode.getProp] at hf
      simp only [addRk, HNode.setProp]
      rw [setKV_last _ _ _ _ hf]
  | arr es ps =>
      simp only [HNode.getProp] at hf
      simp only [addRk, HNode.setProp]
      rw [setKV_last _ _ _ _ hf]

theorem nodup_of_getElem?_inj {α : Type} :
    ∀ {l : List α},
      (∀ (i j : Nat) (x : α), l[i]? = some x → l[j]? = some x → i = j) →
      l.Nodup := by
  intro l
  induction l with
  | nil => intro _; exact List.nodup_nil
  | cons a t ih =>
      intro h
      rw [List.nodup_cons]
      constructor
      · intro hmem
        obtain ⟨⟨i, hi⟩, hget⟩ := List.get_of_mem hmem
        have hti : t[i]? = some a := by
          rw [List.getElem?_eq_getElem hi]
          exact congrArg some hget
        have h0 := h 0 (i + 1) a (by simp) (by simpa using hti)
        exact Nat.noConfusion h0
      · apply ih
        intro i j x hxi hxj
        have := h (i + 1) (j + 1) x (by simpa using hxi) (by simpa using hxj)
        omega

theorem table_snd_nodup {cfg : Config} {h₀ : Heap} {s : EncState}
    (hw : wfHeap cfg h₀ = true) (hI : Inv cfg h₀ s) :
    (s.table.map Prod.snd).Nodup := by
  apply nodup_of_getElem?_inj
  intro i j b hbi hbj
  rw [List.getElem?_map] at hbi hbj
  have hi : i < s.table.length := by
    by_contra hcon
    rw [List.getElem?_eq_none (Nat.le_of_not_lt hcon)] at hbi
    exact Option.noConfusion hbi
  have hj : j < s.table.length := by
    by_contra hcon
    rw [List.getElem?_eq_none (Nat.le_of_not_lt hcon)] at hbj
    exact Option.noConfusion hbj
  obtain ⟨bi, hbi1, hbi2, hbi3⟩ := hI.orig i hi
  obtain ⟨bj, hbj1, hbj2, hbj3⟩ := hI.orig j hj
  rw [hbi2] at hbi
  rw [hbj2] at hbj
  have hbieq : bi = b := Option.some.inj hbi
  have hbjeq : bj = b := Option.some.inj hbj
  rw [hbieq] at hbi1 hbi3
  rw [hbjeq] at hbj3
  obtain ⟨n, hn⟩ := getElem?_some_of_lt hbi1
  rw [hn] at hbi3 hbj3
  simp only [Option.map_some'] at hbi3 hbj3
  have hfree := wfNode_rkFree (wfHeap_node hw hn)
  have hid_i : idOf cfg s.heap b = some i := by
    rw [idOf_of_num hbi3 (@addRk_getProp_self cfg n _ hfree)]
    simp
  have hid_j : idOf cfg s.heap b = some j := by
    rw [idOf_of_num hbj3 (@addRk_getProp_self cfg n _ hfree)]
    simp
  rw [hid_i] at hid_j
  exact Option.some.inj hid_j

theorem idOf_lt_table {cfg : Config} {h₀ : Heap} {s : EncState} {b : Addr} {i : Nat}
    (hw : wfHeap cfg h₀ = true) (hI : Inv cfg h₀ s)
    (hid : idOf cfg s.heap b = some i) :
    i < s.table.length ∧ ((s.table[i]?).map Prod.snd) = some b := by
  have hb : b < h₀.length := by
    have := idOf_lt_length hid
    rwa [hI.len] at this
  obtain ⟨i', n, hi', hsnd, hn, hheap, hid'⟩ :=
    hI.tagged_stamp hw hb (idOf_some_tagged hid)
  have : i' = i := by
    rw [hid] at hid'
    exact (Option.some.inj hid').symm
  subst this
  exact ⟨hi', hsnd⟩

theorem Inv_init {cfg : Config} {h₀ : Heap} : Inv cfg h₀ ⟨h₀, [], []⟩ where
  len := rfl
  node := fun a _ => Or.inl rfl
  orig := fun i hi => absurd hi (by simp)

theorem untaggedCount_le_length (cfg : Config) (h : Heap) :
    untaggedCount cfg h ≤ h.length := by
  rw [untaggedCount]
  calc (List.range h.length).countP _ ≤ (List.range h.length).length :=
        List.countP_le_length _
    _ = h.length := List.length_range _

/-- Pointwise effect of the cleanup loop on the caller's heap, relative to
the pristine heap: every node is restored, exactly (cleanup on) or up to a
null tombstone in the refcode slot (cleanup off). -/
theorem cleaned_heap_char {cfg : Config} {h₀ : Heap} {s : EncState}
    (hw : wfHeap cfg h₀ = true) (hI : Inv cfg h₀ s) :
    ∀ b, ((cleanupTable cfg s.table s.heap).2)[b]? = h₀[b]? ∨
      (cfg.cleanup = false ∧ ∃ n i, h₀[b]? = some n ∧
        idOf cfg s.heap b = some i ∧
        ((cleanupTable cfg s.table s.heap).2)[b]? = some (addRk cfg n .null)) := by
  intro b
  rw [cleanupTable_snd]
  by_cases hmem : b ∈ s.table.map Prod.snd
  · obtain ⟨⟨i0, hi0⟩, hget⟩ := List.get_of_mem hmem
    have hi : i0 < s.table.length := by simpa using hi0
    have hsnd0 : ((s.table.map Prod.snd)[i0]?) = some b := by
      rw [List.getElem?_eq_getElem hi0]
      exact congrArg some hget
    rw [List.getElem?_map] at hsnd0
    obtain ⟨b', hb', hsnd, hheap⟩ := hI.orig i0 hi
    rw [hsnd] at hsnd0
    have hbeq : b' = b := Option.some.inj hsnd0
    rw [hbeq] at hb' hheap
    obtain ⟨n, hn⟩ := getElem?_some_of_lt hb'
    rw [hn] at hheap
    simp only [Option.map_some'] at hheap
    have hfree := wfNode_rkFree (wfHeap_node hw hn)
    have hfold : (s.table.foldl (fun h ca => cleanNode cfg h ca.2) s.heap)[b]? =
        (cleanNode cfg s.heap b)[b]? :=
      foldl_clean_mem cfg _ _ _ (table_snd_nodup hw hI) hmem
    rw [hfold, getElem?_cleanNode_self hheap]
    by_cases hc : cfg.cleanup
    · rw [if_pos hc, delProp_addRk _ hfree, hn]
      exact Or.inl rfl
    · rw [if_neg hc, setProp_addRk _ _ hfree]
      refine Or.inr ⟨by simpa using hc, n, i0, hn, ?_, rfl⟩
      rw [idOf_of_num hheap (@addRk_getProp_self cfg n _ hfree)]
      simp
  · rw [foldl_clean_notmem cfg _ _ _ hmem]
    by_cases hb : b < h₀.length
    · rcases hI.node b hb with h | ⟨i, hi, hsnd, hheap⟩
      · exact Or.inl h
      · exfalso
        apply hmem
        have : ((s.table.map Prod.snd)[i]?) = some b := by
          rw [List.getElem?_map]
          exact hsnd
        exact List.getElem?_mem this
    · refine Or.inl ?_
      have h1 : s.heap[b]? = none := List.getElem?_eq_none
        (by rw [hI.len]; exact Nat.le_of_not_lt hb)
      have h2 : h₀[b]? = none := List.getElem?_eq_none (Nat.le_of_not_lt hb)
      rw [h1, h2]

theorem cleaned_heap_len {cfg : Config} {h₀ : Heap} {s : EncState}
    (hI : Inv cfg h₀ s) :
    ((cleanupTable cfg s.table s.heap).2).length = h₀.length := by
  rw [cleanupTable_snd, length_foldl_clean, hI.len]

/-! ### Running stringify on a composite root -/

theorem wfVal_ptr_intro {len : Nat} {a : Addr} (h : a < len) :
    wfVal len (.ptr a) = true := by
  simp [wfVal, isRoundAtom, h]

theorem stringify_ptr_run {cfg : Config} {h₀ : Heap} {rp : Replacer} {a : Addr}
    (hw : wfHeap cfg h₀ = true) (herp : ErpWf h₀.length (effRepl cfg rp))
    (ha : a < h₀.length) :
    ∃ stV : EncState,
      visit cfg (effRepl cfg rp) (h₀.length + 1) (.ptr a) ⟨h₀, [], []⟩ =
        .ok (.refRec 0, stV) ∧
      VPost cfg h₀ (effRepl cfg rp) (.ptr a) ⟨h₀, [], []⟩ (.refRec 0) stV ∧
      idOf cfg stV.heap a = some 0 ∧
      stringify cfg h₀ (.ptr a) rp =
        .ok (.arr (stV.table.map fun ca => jOfCopy cfg (stripRk cfg ca.1)),
             ⟨(cleanupTable cfg stV.table stV.heap).2,
              stV.table.map fun ca => (stripRk cfg ca.1, ca.2),
              stV.calls⟩) := by
  have hbound : untaggedCount cfg h₀ < h₀.length + 1 :=
    Nat.lt_succ_of_le (untaggedCount_le_length cfg h₀)
  obtain ⟨e, stV, hrun, hpost⟩ :=
    visit_spec hw herp (h₀.length + 1) (.ptr a) ⟨h₀, [], []⟩ Inv_init
      (wfVal_ptr_intro ha) hbound
  have hun : isTagged cfg h₀ a = false := by
    obtain ⟨n, hn⟩ := getElem?_some_of_lt ha
    exact isTagged_false_of_rkFree hn (wfNode_rkFree (wfHeap_node hw hn))
  have he0 : e = .refRec 0 := hpost.fresh a rfl hun
  subst he0
  have hid0 : idOf cfg stV.heap a = some 0 := by
    rcases hpost.slot with ⟨b, i, hb, hid, he⟩ | ⟨hat, -⟩
    · have hba : b = a := by
        injection hb with hh
        exact hh.symm
      subst hba
      have hi0 : (i : Int) = 0 := by
        injection he with hh
        exact hh.symm
      have : i = 0 := by exact_mod_cast hi0
      subst this
      exact hid
    · simp [isRoundAtom] at hat
  refine ⟨stV, hrun, hpost, hid0, ?_⟩
  simp only [stringify]
  rw [hrun]
  show Except.ok
      ((JValue.arr ((cleanupTable cfg stV.table stV.heap).1.map
          fun ca => jOfCopy cfg ca.1) : JValue),
       ({ heap := (cleanupTable cfg stV.table stV.heap).2,
          table := (cleanupTable cfg stV.table stV.heap).1,
          calls := stV.calls } : EncState)) = _
  rw [cleanupTable_fst, List.map_map]
  rfl

/-! ### Monadic map and pointwise-relation helpers -/

theorem mapM_ok_exists {α β : Type} {g : α → Except DecErr β} :
    ∀ {l : List α}, (∀ x ∈ l, ∃ y, g x = .ok y) →
      ∃ m, l.mapM g = .ok m ∧ List.Forall₂ (fun x y => g x = .ok y) l m := by
  intro l
  induction l with
  | nil => intro _; exact ⟨[], rfl, .nil⟩
  | cons x t ih =>
      intro h
      obtain ⟨y, hy⟩ := h x (List.mem_cons_self _ _)
      obtain ⟨m, hm, hf⟩ := ih fun z hz => h z (List.mem_cons_of_mem _ hz)
      refine ⟨y :: m, ?_, .cons hy hf⟩
      rw [List.mapM_cons, hy, hm]
      rfl

theorem mapM_id_of_ok {α : Type} {g : α → Except DecErr α} :
    ∀ {l : List α}, (∀ x ∈ l, g x = .ok x) → l.mapM g = .ok l := by
  intro l
  induction l with
  | nil => intro _; rfl
  | cons x t ih =>
      intro h
      rw [List.mapM_cons, h x (List.mem_cons_self _ _),
        ih fun z hz => h z (List.mem_cons_of_mem _ hz)]
      rfl

theorem forall₂_getElem? {α β : Type} {R : α → β → Prop} :
    ∀ {l : List α} {m : List β}, List.Forall₂ R l m →
      ∀ (i : Nat) (x : α), l[i]? = some x → ∃ y, m[i]? = some y ∧ R x y := by
  intro l m hf
  induction hf with
  | nil =>
      intro i x hx
      rw [List.getElem?_nil] at hx
      exact Option.noConfusion hx
  | cons hr hrest ih =>
      intro i x hx
      cases i with
      | zero =>
          rw [List.getElem?_cons_zero] at hx
          exact ⟨_, List.getElem?_cons_zero, (Option.some.inj hx) ▸ hr⟩
      | succ n =>
          rw [List.getElem?_cons_succ] at hx
          obtain ⟨y, hy, hxy⟩ := ih n x hx
          exact ⟨y, by simpa using hy, hxy⟩

theorem forall₂_compose {α β γ : Type} {R : α → β → Prop} {S : β → γ → Prop}
    {T : α → γ → Prop} (h : ∀ a b c, R a b → S b c → T a c) :
    ∀ {l : List α} {m : List β} {k : List γ},
      List.Forall₂ R l m → List.Forall₂ S m k → List.Forall₂ T l k := by
  intro l m k h1
  induction h1 generalizing k with
  | nil =>
      intro h2
      cases h2
      exact .nil
  | cons hr _ ih =>
      intro h2
      cases h2 with
      | cons hs h2' => exact .cons (h _ _ _ hr hs) (ih h2')

theorem forall₂_eq_map {α β : Type} {g : α → β} :
    ∀ {l : List α} {m : List β},
      List.Forall₂ (fun a b => b = g a) l m → m = l.map g := by
  intro l m hf
  induction hf with
  | nil => rfl
  | cons hr _ ih => rw [List.map_cons, hr, ih]

theorem forall₂_mem_right {α β : Type} {R : α → β → Prop} :
    ∀ {l : List α} {m : List β}, List.Forall₂ R l m →
      ∀ y ∈ m, ∃ x ∈ l, R x y := by
  intro l m hf
  induction hf with
  | nil => intro y hy; cases hy
  | cons hr _ ih =>
      intro y hy
      rcases List.mem_cons.mp hy with hy | hy
      · exact ⟨_, List.mem_cons_self _ _, hy ▸ hr⟩
      · obtain ⟨x, hx, hxy⟩ := ih y hy
        exact ⟨x, List.mem_cons_of_mem _ hx, hxy⟩

/-! ### Field-list relations of a finished entry -/

theorem fieldsM_keys {cfg : Config} {erp : Option (String → JSVal → JSVal × Bool)}
    {h : Heap} :
    ∀ {fs : List (String × JSVal)} {out : List (String × Encoded)},
      FieldsM cfg erp h fs out → ∀ ke ∈ out, ∃ kv ∈ fs, ke.1 = kv.1 := by
  intro fs out hf
  induction hf with
  | nil => intro ke hke; cases hke
  | keep heff hs _ ih =>
      intro ke hke
      rcases List.mem_cons.mp hke with hke | hke
      · exact ⟨_, List.mem_cons_self _ _, by rw [hke]⟩
      · obtain ⟨kv, hkv, hk⟩ := ih ke hke
        exact ⟨kv, List.mem_cons_of_mem _ hkv, hk⟩
  | drop heff _ ih =>
      intro ke hke
      obtain ⟨kv, hkv, hk⟩ := ih ke hke
      exact ⟨kv, List.mem_cons_of_mem _ hkv, hk⟩

theorem fieldsM_slotM {cfg : Config} {erp : Option (String → JSVal → JSVal × Bool)}
    {h : Heap} :
    ∀ {fs : List (String × JSVal)} {out : List (String × Encoded)},
      FieldsM cfg erp h fs out → ∀ ke ∈ out, ∃ v, SlotM cfg h v ke.2 := by
  intro fs out hf
  induction hf with
  | nil => intro ke hke; cases hke
  | keep heff hs _ ih =>
      intro ke hke
      rcases List.mem_cons.mp hke with hke | hke
      · exact ⟨_, by rw [hke]; exact hs⟩
      · exact ih ke hke
  | drop heff _ ih => exact ih

theorem fieldsM_none_slots {cfg : Config} {h : Heap} :
    ∀ {fs : List (String × JSVal)} {out : List (String × Encoded)},
      FieldsM cfg none h fs out →
      List.Forall₂ (fun kv ke => ke.1 = kv.1 ∧ SlotM cfg h kv.2 ke.2) fs out := by
  intro fs out hf
  induction hf with
  | nil => exact .nil
  | keep heff hs _ ih =>
      have hv := (Option.some.inj heff).symm
      exact .cons ⟨rfl, hv ▸ hs⟩ ih
  | drop heff _ _ => exact absurd heff (by simp [effValue])

theorem SlotM_decode {cfg : Config} {h : Heap} {v : JSVal} {e : Encoded} {L : Nat}
    (hs : SlotM cfg h v e) (hlt : ∀ b i, idOf cfg h b = some i → i < L) :
    decodeSlot cfg L (jOfEncoded cfg e) =
      .ok (renameVal (fun b => (idOf cfg h b).getD 0) v) := by
  rcases hs with ⟨b, i, rfl, hid, rfl⟩ | ⟨hround, rfl⟩
  · rw [decodeSlot_refRec cfg L i (hlt b i hid)]
    simp [renameVal, hid]
  · rw [decodeSlot_atomEnc cfg L hround]
    cases v <;> first | rfl | simp [isRoundAtom] at hround

theorem slotM_ptr_tagged {cfg : Config} {h : Heap} {c : Addr} {e : Encoded}
    (hs : SlotM cfg h (.ptr c) e) : ∃ j, idOf cfg h c = some j := by
  rcases hs with ⟨b, i, hb, hid, -⟩ | ⟨hround, -⟩
  · injection hb with hb
    exact ⟨i, hb ▸ hid⟩
  · simp [isRoundAtom] at hround

/-! ### Decoding the serialized table -/

theorem decodeEntry_obj (cfg : Config) (L : Nat) (fs : List (String × JValue)) :
    decodeEntry cfg L (.obj fs) =
      (do
        let fs' ← fs.mapM fun kv => do
          let v ← decodeSlot cfg L kv.2
          pure (kv.1, v)
        Except.ok (HNode.obj fs') : Except DecErr HNode) := rfl

theorem decodeEntry_arr (cfg : Config) (L : Nat) (es : List JValue) :
    decodeEntry cfg L (.arr es) =
      (do
        let es' ← es.mapM (decodeSlot cfg L)
        Except.ok (HNode.arr es' []) : Except DecErr HNode) := rfl

theorem resurrect_arr (cfg : Config) (resolver : String → Bool)
    (entries : List JValue) :
    resurrect cfg resolver (.arr entries) =
      (do
        let entries1 ←
          if cfg.revive then entries.mapM (fixPrototype cfg resolver)
          else Except.ok entries
        let nodes ← entries1.mapM (decodeEntry cfg entries1.length)
        Except.ok (nodes, if nodes.length = 0 then JSVal.undef else JSVal.ptr 0) :
        Except DecErr (Heap × JSVal)) := rfl

theorem resurrect_of_visit {cfg : Config} {h₀ : Heap}
    {erp : Option (String → JSVal → JSVal × Bool)} {resolver : String → Bool}
    {stV : EncState} (hw : wfHeap cfg h₀ = true) (hI : Inv cfg h₀ stV)
    (hent : ∀ i, i < stV.table.length → EntryM cfg erp stV.heap h₀ stV.table i)
    (hlen0 : 0 < stV.table.length) :
    ∃ hD : Heap,
      resurrect cfg resolver
        (.arr (stV.table.map fun ca => jOfCopy cfg (stripRk cfg ca.1))) =
        .ok (hD, .ptr 0) ∧
      hD.length = stV.table.length ∧
      ∀ b i, idOf cfg stV.heap b = some i →
        (∃ fs out, h₀[b]? = some (.obj fs) ∧
            FieldsM cfg erp stV.heap fs out ∧
            ∃ dfs, hD[i]? = some (.obj dfs) ∧
              List.Forall₂ (fun ke d => d.1 = ke.1 ∧
                decodeSlot cfg stV.table.length (jOfEncoded cfg ke.2) = .ok d.2)
                out dfs) ∨
        (∃ es ps outE, h₀[b]? = some (.arr es ps) ∧
            List.Forall₂ (SlotM cfg stV.heap) es outE ∧
            ∃ dEs, hD[i]? = some (.arr dEs []) ∧
              List.Forall₂ (fun e d =>
                decodeSlot cfg stV.table.length (jOfEncoded cfg e) = .ok d)
                outE dEs) := by
  have hshape : ∀ i, i < stV.table.length →
      ∃ c b, stV.table[i]? = some (c, b) ∧
        ((∃ fs out, h₀[b]? = some (.obj fs) ∧ FieldsM cfg erp stV.heap fs out ∧
            stripRk cfg c = .obj out) ∨
         (∃ es ps outE eps, h₀[b]? = some (.arr es ps) ∧
            List.Forall₂ (SlotM cfg stV.heap) es outE ∧
            stripRk cfg c = .arr outE (delKV eps cfg.refcode))) := by
    intro i hi
    obtain ⟨c, b, htab, hbr⟩ := hent i hi
    refine ⟨c, b, htab, ?_⟩
    rcases hbr with ⟨fs, erk, out, hfa, hfm, rfl⟩ | ⟨es, ps, outE, eps, hfa, hf2, rfl⟩
    · refine Or.inl ⟨fs, out, hfa, hfm, ?_⟩
      have hkeys : ∀ ke ∈ out, ke.1 ≠ cfg.refcode := by
        intro ke hke
        obtain ⟨kv, hkv, hk⟩ := fieldsM_keys hfm ke hke
        rw [hk]
        exact notMark_ne_refcode (wfNode_obj_keys (wfHeap_node hw hfa) kv hkv).1
      show Copy.obj (delKV ((cfg.refcode, erk) :: out) cfg.refcode) = _
      have hdel : delKV ((cfg.refcode, erk) :: out) cfg.refcode =
          delKV out cfg.refcode := by
        simp [delKV]
      rw [hdel, delKV_of_none (getKV_eq_none_iff out cfg.refcode |>.mpr hkeys)]
    · exact Or.inr ⟨es, ps, outE, eps, hfa, hf2, rfl⟩
  have hmarkfree : ∀ fs out, (∀ kv ∈ fs, strStarts kv.1 cfg.mark = false) →
      FieldsM cfg erp stV.heap fs out → getKV out cfg.mark = none := by
    intro fs out hks hfm
    rw [getKV_eq_none_iff]
    intro ke hke
    obtain ⟨kv, hkv, hk⟩ := fieldsM_keys hfm ke hke
    rw [hk]
    exact notMark_ne_mark (hks kv hkv)
  have hidlt : ∀ b i, idOf cfg stV.heap b = some i → i < stV.table.length :=
    fun b i hid => (idOf_lt_table hw hI hid).1
  have hfix : ∀ j ∈ stV.table.map fun ca => jOfCopy cfg (stripRk cfg ca.1),
      fixPrototype cfg resolver j = .ok j := by
    intro j hj
    obtain ⟨ca, hca, hcaeq⟩ := List.mem_map.mp hj
    obtain ⟨⟨i, hi⟩, hget⟩ := List.get_of_mem hca
    have hi' : i < stV.table.length := by simpa using hi
    have htabi : stV.table[i]? = some ca := by
      rw [List.getElem?_eq_getElem hi]
      exact congrArg some hget
    obtain ⟨c, b, htab, hbr⟩ := hshape i hi'
    rw [htabi] at htab
    have hcab : ca = (c, b) := Option.some.inj htab
    subst hcab
    rcases hbr with ⟨fs, out, hfa, hfm, hstrip⟩ | ⟨es, ps, outE, eps, hfa, hf2, hstrip⟩
    · rw [← hcaeq]
      show fixPrototype cfg resolver (jOfCopy cfg (stripRk cfg c)) = _
      rw [hstrip]
      have hmark : getKV (out.map fun ke => (ke.1, jOfEncoded cfg ke.2)) cfg.mark
          = none := by
        rw [getKV_map, hmarkfree fs out
          (fun kv hkv => (wfNode_obj_keys (wfHeap_node hw hfa) kv hkv).1) hfm]
        rfl
      simp [fixPrototype, jOfCopy, hmark]
    · rw [← hcaeq]
      show fixPrototype cfg resolver (jOfCopy cfg (stripRk cfg c)) = _
      rw [hstrip]
      rfl
  have hdecObj : ∀ out : List (String × Encoded),
      (∀ ke ∈ out, ∃ v, SlotM cfg stV.heap v ke.2) →
      ∃ m, decodeEntry cfg stV.table.length
          (jOfCopy cfg (.obj out)) = .ok (.obj m) ∧
        List.Forall₂ (fun ke d => d.1 = ke.1 ∧
          decodeSlot cfg stV.table.length (jOfEncoded cfg ke.2) = .ok d.2)
          out m := by
    intro out hslots
    have hok : ∀ kv ∈ out.map fun ke => (ke.1, jOfEncoded cfg ke.2),
        ∃ y, (do
          let v ← decodeSlot cfg stV.table.length kv.2
          pure (kv.1, v) : Except DecErr (String × JSVal)) = .ok y := by
      intro kv hkv
      obtain ⟨ke, hke, hkeq⟩ := List.mem_map.mp hkv
      obtain ⟨v, hs⟩ := hslots ke hke
      have h2 : kv.2 = jOfEncoded cfg ke.2 := by rw [← hkeq]
      refine ⟨(kv.1, renameVal (fun b => (idOf cfg stV.heap b).getD 0) v), ?_⟩
      rw [h2, SlotM_decode hs hidlt]
      rfl
    obtain ⟨m, hm, hmF⟩ := mapM_ok_exists hok
    refine ⟨m, ?_, ?_⟩
    · show decodeEntry cfg stV.table.length
        (.obj (out.map fun ke => (ke.1, jOfEncoded cfg ke.2))) = _
      rw [decodeEntry_obj, hm]
      rfl
    · have hmF' := (List.forall₂_map_left_iff).mp hmF
      refine List.Forall₂.imp ?_ hmF'
      intro ke d hked
      have hked' : (decodeSlot cfg stV.table.length (jOfEncoded cfg ke.2)).bind
          (fun v => Except.ok (ke.1, v)) = Except.ok d := hked
      cases hrun : decodeSlot cfg stV.table.length (jOfEncoded cfg ke.2) with
      | error e =>
          rw [hrun] at hked'
          exact Except.noConfusion hked'
      | ok v =>
          rw [hrun] at hked'
          have hd : (ke.1, v) = d := Except.ok.inj hked'
          rw [← hd]
          exact ⟨rfl, rfl⟩
  have hdecArr : ∀ (outE : List Encoded) (eps : List (String × Encoded)),
      (∀ e ∈ outE, ∃ v, SlotM cfg stV.heap v e) →
      ∃ m, decodeEntry cfg stV.table.length
          (jOfCopy cfg (.arr outE eps)) = .ok (.arr m []) ∧
        List.Forall₂ (fun e d =>
          decodeSlot cfg stV.table.length (jOfEncoded cfg e) = .ok d) outE m := by
    intro outE eps hslots
    have hok : ∀ e ∈ outE.map (jOfEncoded cfg),
        ∃ y, decodeSlot cfg stV.table.length e = .ok y := by
      intro e he
      obtain ⟨e0, he0, heq⟩ := List.mem_map.mp he
      obtain ⟨v0, hs⟩ := hslots e0 he0
      exact ⟨_, heq ▸ SlotM_decode hs hidlt⟩
    obtain ⟨m, hm, hmF⟩ := mapM_ok_exists hok
    refine ⟨m, ?_, (List.forall₂_map_left_iff).mp hmF⟩
    show decodeEntry cfg stV.table.length (.arr (outE.map (jOfEncoded cfg))) = _
    rw [decodeEntry_arr, hm]
    rfl
  have hdecAll : ∀ j ∈ stV.table.map fun ca => jOfCopy cfg (stripRk cfg ca.1),
      ∃ nd, decodeEntry cfg stV.table.length j = .ok nd := by
    intro j hj
    obtain ⟨ca, hca, hcaeq⟩ := List.mem_map.mp hj
    obtain ⟨⟨i, hi⟩, hget⟩ := List.get_of_mem hca
    have hi' : i < stV.table.length := by simpa using hi
    have htabi : stV.table[i]? = some ca := by
      rw [List.getElem?_eq_getElem hi]
      exact congrArg some hget
    obtain ⟨c, b, htab, hbr⟩ := hshape i hi'
    rw [htabi] at htab
    have hcab : ca = (c, b) := Option.some.inj htab
    subst hcab
    rw [← hcaeq]
    show ∃ nd, decodeEntry cfg stV.table.length (jOfCopy cfg (stripRk cfg c)) =
      .ok nd
    rcases hbr with ⟨fs, out, hfa, hfm, hstrip⟩ | ⟨es, ps, outE, eps, hfa, hf2, hstrip⟩
    · rw [hstrip]
      obtain ⟨m, hm, -⟩ := hdecObj out (fieldsM_slotM hfm)
      exact ⟨.obj m, hm⟩
    · rw [hstrip]
      obtain ⟨m, hm, -⟩ := hdecArr outE (delKV eps cfg.refcode)
        (fun e he => (forall₂_mem_right hf2 e he).imp fun v hv => hv.2)
      exact ⟨.arr m [], hm⟩
  obtain ⟨nodes, hnodes, hnodesF⟩ := mapM_ok_exists hdecAll
  have hlenJ : (stV.table.map fun ca => jOfCopy cfg (stripRk cfg ca.1)).length =
      stV.table.length := List.length_map _ _
  have hlenN : nodes.length = stV.table.length := by
    rw [← hnodesF.length_eq, hlenJ]
  have hcont : (do
      let nodes ← (stV.table.map fun ca => jOfCopy cfg (stripRk cfg ca.1)).mapM
        (decodeEntry cfg
          (stV.table.map fun ca => jOfCopy cfg (stripRk cfg ca.1)).length)
      Except.ok (nodes, if nodes.length = 0 then JSVal.undef else JSVal.ptr 0) :
      Except DecErr (Heap × JSVal)) = .ok (nodes, .ptr 0) := by
    rw [hlenJ, hnodes]
    show (Except.ok (nodes,
      if nodes.length = 0 then JSVal.undef else JSVal.ptr 0) :
      Except DecErr (Heap × JSVal)) = _
    rw [hlenN, if_neg (show ¬ stV.table.length = 0 by omega)]
  refine ⟨nodes, ?_, hlenN, ?_⟩
  · rw [resurrect_arr]
    cases hrev : cfg.revive with
    | true =>
        show (do
          let entries1 ← (stV.table.map fun ca =>
            jOfCopy cfg (stripRk cfg ca.1)).mapM (fixPrototype cfg resolver)
          let nodes ← entries1.mapM (decodeEntry cfg entries1.length)
          Except.ok (nodes,
            if nodes.length = 0 then JSVal.undef else JSVal.ptr 0) :
          Except DecErr (Heap × JSVal)) = _
        rw [mapM_id_of_ok hfix]
        exact hcont
    | false => exact hcont
  · intro b i hid
    obtain ⟨hi, hsnd⟩ := idOf_lt_table hw hI hid
    obtain ⟨c, b', htab, hbr⟩ := hshape i hi
    have hb' : b' = b := by
      rw [htab] at hsnd
      exact Option.some.inj hsnd
    subst hb'
    have hJ : (stV.table.map fun ca => jOfCopy cfg (stripRk cfg ca.1))[i]? =
        some (jOfCopy cfg (stripRk cfg c)) := by
      rw [List.getElem?_map, htab]
      rfl
    obtain ⟨nd, hnd, hdec⟩ := forall₂_getElem? hnodesF i _ hJ
    rcases hbr with ⟨fs, out, hfa, hfm, hstrip⟩ | ⟨es, ps, outE, eps, hfa, hf2, hstrip⟩
    · refine Or.inl ⟨fs, out, hfa, hfm, ?_⟩
      rw [hstrip] at hdec
      obtain ⟨m, hm, hmF⟩ := hdecObj out (fieldsM_slotM hfm)
      rw [hm] at hdec
      have hndm : nd = .obj m := (Except.ok.inj hdec).symm
      subst hndm
      exact ⟨m, hnd, hmF⟩
    · refine Or.inr ⟨es, ps, outE, hfa, hf2, ?_⟩
      rw [hstrip] at hdec
      obtain ⟨m, hm, hmF⟩ := hdecArr outE (delKV eps cfg.refcode)
        (fun e he => (forall₂_mem_right hf2 e he).imp fun v hv => hv.2)
      rw [hm] at hdec
      have hndm : nd = .arr m [] := (Except.ok.inj hdec).symm
      subst hndm
      exact ⟨m, hnd, hmF⟩

/-! ### Path correspondence through a full round trip -/

theorem getKV_mem {α : Type} :
    ∀ {l : List (String × α)} {k : String} {v : α},
      getKV l k = some v → (k, v) ∈ l := by
  intro l
  induction l with
  | nil => intro k v h; simp [getKV] at h
  | cons kv rest ih =>
      intro k v h
      obtain ⟨k', v'⟩ := kv
      by_cases hk : k' = k
      · simp only [getKV, if_pos hk] at h
        have hv : v' = v := Option.some.inj h
        subst hv
        subst hk
        exact List.mem_cons_self _ _
      · simp only [getKV, if_neg hk] at h
        exact List.mem_cons_of_mem _ (ih h)

theorem forall₂_mem_left {α β : Type} {R : α → β → Prop} :
    ∀ {l : List α} {m : List β}, List.Forall₂ R l m →
      ∀ x ∈ l, ∃ y ∈ m, R x y := by
  intro l m hf
  induction hf with
  | nil => intro x hx; cases hx
  | cons hr _ ih =>
      intro x hx
      rcases List.mem_cons.mp hx with hx | hx
      · exact ⟨_, List.mem_cons_self _ _, hx ▸ hr⟩
      · obtain ⟨y, hy, hxy⟩ := ih x hx
        exact ⟨y, List.mem_cons_of_mem _ hy, hxy⟩

/-- Encoding a well-formed composite root and decoding the wire value yields
a graph whose every path resolves to the renamed image of the original path's
value: atoms come back exactly, pointers come back as the pointee's
identifier.  In particular value-equality and shared-reference topology are
both preserved. -/
theorem roundtrip_paths {cfg : Config} {h₀ : Heap} {a : Addr}
    {resolver : String → Bool}
    (hw : wfHeap cfg h₀ = true) (ha : a < h₀.length) :
    ∃ (w : JValue) (stFin : EncState) (hD : Heap) (f : Addr → Nat),
      stringify cfg h₀ (.ptr a) .noRepl = .ok (w, stFin) ∧
      resurrect cfg resolver w = .ok (hD, .ptr 0) ∧
      f a = 0 ∧
      ∀ p, resolvePath hD (.ptr (f a)) p =
        (resolvePath h₀ (.ptr a) p).map (renameVal f) := by
  have herp : ErpWf h₀.length (effRepl cfg .noRepl) :=
    fun f hf => Option.noConfusion hf
  obtain ⟨stV, hrunV, hpost, hid0, hstr⟩ := stringify_ptr_run hw herp ha
  have hI := hpost.sp.inv
  have hent : ∀ i, i < stV.table.length →
      EntryM cfg (effRepl cfg .noRepl) stV.heap h₀ stV.table i :=
    fun i hi => hpost.sp.entries i (Nat.zero_le i) hi
  have hlen0 : 0 < stV.table.length := (idOf_lt_table hw hI hid0).1
  obtain ⟨hD, hres, hlenD, hcorr⟩ := resurrect_of_visit hw hI hent hlen0
  have hidlt : ∀ b i, idOf cfg stV.heap b = some i → i < stV.table.length :=
    fun b i hid => (idOf_lt_table hw hI hid).1
  have hcomp : ∀ (kv : String × JSVal) (ke : String × Encoded) (d : String × JSVal),
      (ke.1 = kv.1 ∧ SlotM cfg stV.heap kv.2 ke.2) →
      (d.1 = ke.1 ∧
        decodeSlot cfg stV.table.length (jOfEncoded cfg ke.2) = .ok d.2) →
      d = (kv.1, renameVal (fun b => (idOf cfg stV.heap b).getD 0) kv.2) := by
    intro kv ke d h1 h2
    obtain ⟨hk1, hs⟩ := h1
    obtain ⟨hk2, hdec⟩ := h2
    have hsd := SlotM_decode hs hidlt
    rw [hdec] at hsd
    have hv2 : d.2 = renameVal (fun b => (idOf cfg stV.heap b).getD 0) kv.2 :=
      Except.ok.inj hsd
    have hd : d = (d.1, d.2) := rfl
    rw [hd, hk2, hk1, hv2]
  have hcompA : ∀ (v : JSVal) (e : Encoded) (d : JSVal),
      SlotM cfg stV.heap v e →
      decodeSlot cfg stV.table.length (jOfEncoded cfg e) = .ok d →
      d = renameVal (fun b => (idOf cfg stV.heap b).getD 0) v := by
    intro v e d hs hdec
    have hsd := SlotM_decode hs hidlt
    rw [hdec] at hsd
    exact Except.ok.inj hsd
  have hwalk : ∀ (p : List Step) (v : JSVal),
      wfVal h₀.length v = true →
      (∀ c, v = .ptr c → ∃ j, idOf cfg stV.heap c = some j) →
      resolvePath hD (renameVal (fun b => (idOf cfg stV.heap b).getD 0) v) p =
        (resolvePath h₀ v p).map
          (renameVal (fun b => (idOf cfg stV.heap b).getD 0)) := by
    intro p
    induction p with
    | nil => intro v _ _; rfl
    | cons st rest ih =>
        intro v hwf hptr
        by_cases hvp : ∃ c, v = .ptr c
        · obtain ⟨c, rfl⟩ := hvp
          obtain ⟨j, hj⟩ := hptr c rfl
          have hfc : renameVal (fun b => (idOf cfg stV.heap b).getD 0) (.ptr c) =
              .ptr j := by
            show JSVal.ptr ((idOf cfg stV.heap c).getD 0) = _
            rw [hj]
            rfl
          rcases hcorr c j hj with
            ⟨fs, out, hfa, hfm, dfs, hDj, hF⟩ |
            ⟨es, ps, outE, hfa, hf2, dEs, hDj, hF⟩
          · have hfm' : FieldsM cfg none stV.heap fs out := hfm
            have hdfs : dfs = fs.map fun kv =>
                (kv.1, renameVal (fun b => (idOf cfg stV.heap b).getD 0) kv.2) := by
              apply forall₂_eq_map
              refine forall₂_compose hcomp ?_ hF
              exact fieldsM_none_slots hfm'
            rw [hfc]
            cases st with
            | fld k =>
                have hstep0 : step h₀ (JSVal.ptr c) (.fld k) = getKV fs k := by
                  simp only [step]
                  rw [hfa]
                  rfl
                have hstepD : step hD (JSVal.ptr j) (.fld k) = getKV dfs k := by
                  simp only [step]
                  rw [hDj]
                  rfl
                simp only [resolvePath]
                rw [hstep0, hstepD, hdfs, getKV_map]
                cases hkv : getKV fs k with
                | none => rfl
                | some v' =>
                    have hmem := getKV_mem hkv
                    have hwf' : wfVal h₀.length v' = true :=
                      (wfNode_obj_keys (wfHeap_node hw hfa) (k, v') hmem).2
                    have hptr' : ∀ c', v' = .ptr c' →
                        ∃ j', idOf cfg stV.heap c' = some j' := by
                      intro c' hc'
                      obtain ⟨ke, -, hrel⟩ :=
                        forall₂_mem_left (fieldsM_none_slots hfm') (k, v') hmem
                      exact slotM_ptr_tagged (hc' ▸ hrel.2)
                    show resolvePath hD
                        (renameVal (fun b => (idOf cfg stV.heap b).getD 0) v') rest =
                      (resolvePath h₀ v' rest).map
                        (renameVal (fun b => (idOf cfg stV.heap b).getD 0))
                    exact ih v' hwf' hptr'
            | idx i =>
                have hstep0 : step h₀ (JSVal.ptr c) (.idx i) = none := by
                  simp only [step]
                  rw [hfa]
                  rfl
                have hstepD : step hD (JSVal.ptr j) (.idx i) = none := by
                  simp only [step]
                  rw [hDj]
                  rfl
                simp only [resolvePath]
                rw [hstep0, hstepD]
                rfl
          · have hps : ps = [] := (wfNode_arr (wfHeap_node hw hfa)).2
            have hdEs : dEs = es.map
                (renameVal (fun b => (idOf cfg stV.heap b).getD 0)) := by
              apply forall₂_eq_map
              exact forall₂_compose hcompA hf2 hF
            rw [hfc]
            cases st with
            | fld k =>
                have hstep0 : step h₀ (JSVal.ptr c) (.fld k) = getKV ps k := by
                  simp only [step]
                  rw [hfa]
                  rfl
                have hstepD : step hD (JSVal.ptr j) (.fld k) =
                    getKV ([] : List (String × JSVal)) k := by
                  simp only [step]
                  rw [hDj]
                  rfl
                simp only [resolvePath]
                rw [hstep0, hstepD, hps]
                rfl
            | idx i =>
                have hstep0 : step h₀ (JSVal.ptr c) (.idx i) = es[i]? := by
                  simp only [step]
                  rw [hfa]
                  rfl
                have hstepD : step hD (JSVal.ptr j) (.idx i) = dEs[i]? := by
                  simp only [step]
                  rw [hDj]
                  rfl
                simp only [resolvePath]
                rw [hstep0, hstepD, hdEs, List.getElem?_map]
                cases hkv : es[i]? with
                | none => rfl
                | some v' =>
                    have hmem : v' ∈ es := List.getElem?_mem hkv
                    have hwf' : wfVal h₀.length v' = true :=
                      (wfNode_arr (wfHeap_node hw hfa)).1 v' hmem
                    have hptr' : ∀ c', v' = .ptr c' →
                        ∃ j', idOf cfg stV.heap c' = some j' := by
                      intro c' hc'
                      obtain ⟨e0, -, hrel⟩ := forall₂_mem_left hf2 v' hmem
                      exact slotM_ptr_tagged (hc' ▸ hrel)
                    show resolvePath hD
                        (renameVal (fun b => (idOf cfg stV.heap b).getD 0) v') rest =
                      (resolvePath h₀ v' rest).map
                        (renameVal (fun b => (idOf cfg stV.heap b).getD 0))
                    exact ih v' hwf' hptr'
        · have hrn : renameVal (fun b => (idOf cfg stV.heap b).getD 0) v = v := by
            cases v
            case ptr c => exact absurd ⟨c, rfl⟩ hvp
            all_goals rfl
          have hs0 : step h₀ v st = none := by
            cases st <;> cases v <;> first | rfl | exact absurd ⟨_, rfl⟩ hvp
          have hsD : step hD v st = none := by
            cases st <;> cases v <;> first | rfl | exact absurd ⟨_, rfl⟩ hvp
          rw [hrn]
          simp only [resolvePath]
          rw [hs0, hsD]
          rfl
  refine ⟨_, _, hD, fun b => (idOf cfg stV.heap b).getD 0, hstr, hres, ?_, ?_⟩
  · show (idOf cfg stV.heap a).getD 0 = 0
    rw [hid0]
    rfl
  · intro p
    refine hwalk p (.ptr a) (wfVal_ptr_intro ha) ?_
    intro c hc
    refine ⟨0, ?_⟩
    injection hc with h
    rw [← h]
    exact hid0

/-! ### Two traversal runs on tombstone-related heaps -/

theorem relHeap_isTagged {cfg : Config} {h₁ h₂ : Heap} (hh : RelHeap cfg h₁ h₂)
    (b : Addr) : isTagged cfg h₂ b = isTagged cfg h₁ b := by
  rcases hh.2 b with heq | ⟨n, hn1, hfree, hn2⟩
  · exact isTagged_congr heq
  · rw [isTagged_false_of_rkFree hn1 hfree]
    rw [isTagged_eq_match hn2, addRk_getProp_self _ hfree]

theorem relHeap_eq_of_tagged {cfg : Config} {h₁ h₂ : Heap} {a : Addr}
    (hh : RelHeap cfg h₁ h₂) (ht : isTagged cfg h₁ a = true) :
    h₂[a]? = h₁[a]? := by
  rcases hh.2 a with heq | ⟨n, hn1, hfree, -⟩
  · exact heq
  · rw [isTagged_false_of_rkFree hn1 hfree] at ht
    exact Bool.noConfusion ht

theorem relHeap_stamp {cfg : Config} {h₁ h₂ : Heap} {a : Addr} {n₁ : HNode}
    (hh : RelHeap cfg h₁ h₂) (hga : h₁[a]? = some n₁) (v : JSVal) :
    (setNodeProp h₁ a cfg.refcode v)[a]? = some (n₁.setProp cfg.refcode v) ∧
    (setNodeProp h₂ a cfg.refcode v)[a]? = some (n₁.setProp cfg.refcode v) ∧
    RelHeap cfg (setNodeProp h₁ a cfg.refcode v)
      (setNodeProp h₂ a cfg.refcode v) := by
  have hS1 : (setNodeProp h₁ a cfg.refcode v)[a]? =
      some (n₁.setProp cfg.refcode v) := getElem?_setNodeProp_self _ _ hga
  have hS2 : (setNodeProp h₂ a cfg.refcode v)[a]? =
      some (n₁.setProp cfg.refcode v) := by
    rcases hh.2 a with heq | ⟨n, hn1, hfree, hn2⟩
    · rw [getElem?_setNodeProp_self _ _ (heq.trans hga)]
    · rw [hga] at hn1
      have hn : n = n₁ := (Option.some.inj hn1).symm
      subst hn
      rw [getElem?_setNodeProp_self _ _ hn2, setProp_addRk _ _ hfree,
        setProp_eq_addRk _ hfree]
  refine ⟨hS1, hS2, ⟨?_, ?_⟩⟩
  · rw [length_setNodeProp, length_setNodeProp, hh.1]
  · intro b
    by_cases hba : b = a
    · subst hba
      exact Or.inl (hS2.trans hS1.symm)
    · rw [getElem?_setNodeProp_ne _ _ _ hba, getElem?_setNodeProp_ne _ _ _ hba]
      exact hh.2 b

theorem visitElems_rel {cfg : Config}
    {rec : JSVal → EncState → Except EncErr (Encoded × EncState)}
    (hrec : RelRec cfg rec) :
    ∀ (l : List JSVal) (acc : List Encoded) (s₁ s₂ : EncState),
      s₁.table = s₂.table → s₁.calls = s₂.calls → RelHeap cfg s₁.heap s₂.heap →
      ResultRelP cfg (visitElems rec l acc s₁) (visitElems rec l acc s₂) := by
  intro l
  induction l with
  | nil =>
      intro acc s₁ s₂ ht hc hh
      exact Or.inr ⟨acc, s₁, s₂, rfl, rfl, ht, hc, hh⟩
  | cons v t ih =>
      intro acc s₁ s₂ ht hc hh
      rcases hrec v s₁ s₂ ht hc hh with ⟨e, h1, h2⟩ |
        ⟨x, s₁', s₂', h1, h2, ht', hc', hh'⟩
      · refine Or.inl ⟨e, ?_, ?_⟩
        · simp only [visitElems]
          rw [h1]
          rfl
        · simp only [visitElems]
          rw [h2]
          rfl
      · have e1 : visitElems rec (v :: t) acc s₁ =
            visitElems rec t (acc ++ [x]) s₁' := by
          simp only [visitElems]
          rw [h1]
          rfl
        have e2 : visitElems rec (v :: t) acc s₂ =
            visitElems rec t (acc ++ [x]) s₂' := by
          simp only [visitElems]
          rw [h2]
          rfl
        rw [e1, e2]
        exact ih (acc ++ [x]) s₁' s₂' ht' hc' hh'

theorem visitFields_rel {cfg : Config}
    {rec : JSVal → EncState → Except EncErr (Encoded × EncState)}
    {erp : Option (String → JSVal → JSVal × Bool)} {a : Addr}
    (hrec : RelRec cfg rec) :
    ∀ (l : List (String × JSVal)) (acc : List (String × Encoded))
      (s₁ s₂ : EncState),
      s₁.table = s₂.table → s₁.calls = s₂.calls → RelHeap cfg s₁.heap s₂.heap →
      ResultRelP cfg (visitFields rec erp a l acc s₁)
        (visitFields rec erp a l acc s₂) := by
  intro l
  induction l with
  | nil =>
      intro acc s₁ s₂ ht hc hh
      exact Or.inr ⟨acc, s₁, s₂, rfl, rfl, ht, hc, hh⟩
  | cons kv t ih =>
      intro acc s₁ s₂ ht hc hh
      obtain ⟨k, v⟩ := kv
      cases erp with
      | none =>
          rcases hrec v s₁ s₂ ht hc hh with ⟨e, h1, h2⟩ |
            ⟨x, s₁', s₂', h1, h2, ht', hc', hh'⟩
          · refine Or.inl ⟨e, ?_, ?_⟩
            · simp only [visitFields]
              rw [h1]
              rfl
            · simp only [visitFields]
              rw [h2]
              rfl
          · have e1 : visitFields rec none a ((k, v) :: t) acc s₁ =
                visitFields rec none a t (setKV acc k x) s₁' := by
              simp only [visitFields]
              rw [h1]
              rfl
            have e2 : visitFields rec none a ((k, v) :: t) acc s₂ =
                visitFields rec none a t (setKV acc k x) s₂' := by
              simp only [visitFields]
              rw [h2]
              rfl
            rw [e1, e2]
            exact ih (setKV acc k x) s₁' s₂' ht' hc' hh'
      | some f =>
          by_cases hvu : v = .undef
          · rcases hrec v s₁ s₂ ht hc hh with ⟨e, h1, h2⟩ |
              ⟨x, s₁', s₂', h1, h2, ht', hc', hh'⟩
            · refine Or.inl ⟨e, ?_, ?_⟩
              · simp only [visitFields, if_pos hvu]
                rw [h1]
                rfl
              · simp only [visitFields, if_pos hvu]
                rw [h2]
                rfl
            · have e1 : visitFields rec (some f) a ((k, v) :: t) acc s₁ =
                  visitFields rec (some f) a t (setKV acc k x) s₁' := by
                simp only [visitFields, if_pos hvu]
                rw [h1]
                rfl
              have e2 : visitFields rec (some f) a ((k, v) :: t) acc s₂ =
                  visitFields rec (some f) a t (setKV acc k x) s₂' := by
                simp only [visitFields, if_pos hvu]
                rw [h2]
                rfl
              rw [e1, e2]
              exact ih (setKV acc k x) s₁' s₂' ht' hc' hh'
          · by_cases hdrop : (f k v).1 = .undef
            · have e1 : visitFields rec (some f) a ((k, v) :: t) acc s₁ =
                  visitFields rec (some f) a t acc
                    { s₁ with calls := s₁.calls ++ [⟨a, k, v, (f k v).2⟩] } := by
                simp only [visitFields, if_neg hvu, if_pos hdrop]
              have e2 : visitFields rec (some f) a ((k, v) :: t) acc s₂ =
                  visitFields rec (some f) a t acc
                    { s₂ with calls := s₂.calls ++ [⟨a, k, v, (f k v).2⟩] } := by
                simp only [visitFields, if_neg hvu, if_pos hdrop]
              rw [e1, e2]
              exact ih acc _ _ ht (by rw [hc]) hh
            · rcases hrec (f k v).1
                  { s₁ with calls := s₁.calls ++ [⟨a, k, v, (f k v).2⟩] }
                  { s₂ with calls := s₂.calls ++ [⟨a, k, v, (f k v).2⟩] }
                  ht (by rw [hc]) hh with
                ⟨e, h1, h2⟩ | ⟨x, s₁', s₂', h1, h2, ht', hc', hh'⟩
              · refine Or.inl ⟨e, ?_, ?_⟩
                · simp only [visitFields, if_neg hvu, if_neg hdrop]
                  rw [h1]
                  rfl
                · simp only [visitFields, if_neg hvu, if_neg hdrop]
                  rw [h2]
                  rfl
              · have e1 : visitFields rec (some f) a ((k, v) :: t) acc s₁ =
                    visitFields rec (some f) a t (setKV acc k x) s₁' := by
                  simp only [visitFields, if_neg hvu, if_neg hdrop]
                  rw [h1]
                  rfl
                have e2 : visitFields rec (some f) a ((k, v) :: t) acc s₂ =
                    visitFields rec (some f) a t (setKV acc k x) s₂' := by
                  simp only [visitFields, if_neg hvu, if_neg hdrop]
                  rw [h2]
                  rfl
                rw [e1, e2]
                exact ih (setKV acc k x) s₁' s₂' ht' hc' hh'

theorem visit_rel {cfg : Config} {erp : Option (String → JSVal → JSVal × Bool)} :
    ∀ fuel, RelRec cfg (visit cfg erp fuel) := by
  intro fuel
  induction fuel with
  | zero =>
      intro v s₁ s₂ ht hc hh
      exact Or.inl ⟨.outOfFuel, rfl, rfl⟩
  | succ n ih =>
      intro v s₁ s₂ ht hc hh
      by_cases hvp : ∃ a, v = .ptr a
      · obtain ⟨a, rfl⟩ := hvp
        cases hga : s₁.heap[a]? with
        | none =>
            have hga2 : s₂.heap[a]? = none := by
              rcases hh.2 a with heq | ⟨nn, hn1, -, -⟩
              · rw [heq, hga]
              · rw [hn1] at hga
                exact Option.noConfusion hga
            refine Or.inl ⟨.danglingPtr, ?_, ?_⟩
            · simp only [visit]
              rw [hga]
            · simp only [visit]
              rw [hga2]
        | some n₁ =>
            cases htag : isTagged cfg s₁.heap a with
            | true =>
                have heq : s₂.heap[a]? = s₁.heap[a]? := relHeap_eq_of_tagged hh htag
                have htag2 : isTagged cfg s₂.heap a = true := by
                  rw [isTagged_congr heq]
                  exact htag
                have hgr : getRefcode cfg s₂.heap a = getRefcode cfg s₁.heap a := by
                  rw [getRefcode, getRefcode, heq]
                have hga2 : s₂.heap[a]? = some n₁ := heq.trans hga
                have hE1 : visit cfg erp (n + 1) (.ptr a) s₁ =
                    (match getRefcode cfg s₁.heap a with
                     | some (.num i) => .ok (.refRec i, s₁)
                     | _ => .error .badRefcode) := by
                  simp only [visit]
                  rw [hga]
                  simp only [htag, if_true]
                have hE2 : visit cfg erp (n + 1) (.ptr a) s₂ =
                    (match getRefcode cfg s₁.heap a with
                     | some (.num i) => .ok (.refRec i, s₂)
                     | _ => .error .badRefcode) := by
                  simp only [visit]
                  rw [hga2]
                  simp only [htag2, if_true]
                  rw [hgr]
                rw [hE1, hE2]
                cases hgr1 : getRefcode cfg s₁.heap a with
                | none => exact Or.inl ⟨.badRefcode, rfl, rfl⟩
                | some val =>
                    cases val <;>
                      first
                      | exact Or.inr ⟨.refRec _, s₁, s₂, rfl, rfl, ht, hc, hh⟩
                      | exact Or.inl ⟨.badRefcode, rfl, rfl⟩
            | false =>
                have htag2 : isTagged cfg s₂.heap a = false := by
                  rw [relHeap_isTagged hh a]
                  exact htag
                obtain ⟨hS1a, hS2a, hRel'⟩ :=
                  relHeap_stamp hh hga (JSVal.num s₁.table.length)
                cases n₁ with
                | obj fs =>
                    obtain ⟨fs₂, hga2⟩ : ∃ fs₂, s₂.heap[a]? = some (.obj fs₂) := by
                      rcases hh.2 a with heq | ⟨nn, hn1, hfree, hn2⟩
                      · exact ⟨fs, by rw [heq, hga]⟩
                      · rw [hga] at hn1
                        have hnn : nn = .obj fs := (Option.some.inj hn1).symm
                        subst hnn
                        exact ⟨fs ++ [(cfg.refcode, .null)], by rw [hn2]; rfl⟩
                    have hE1 := @visit_obj_eq cfg erp n s₁ a fs hga htag
                    have hE2 := @visit_obj_eq cfg erp n s₂ a fs₂ hga2 htag2
                    rw [← ht, ← hc] at hE2
                    have hLF1 : (match (setNodeProp s₁.heap a cfg.refcode
                          (JSVal.num s₁.table.length))[a]? with
                        | some (.obj fs') => fs'
                        | _ => []) =
                        setKV fs cfg.refcode (JSVal.num s₁.table.length) := by
                      rw [hS1a]
                      rfl
                    have hLF2 : (match (setNodeProp s₂.heap a cfg.refcode
                          (JSVal.num s₁.table.length))[a]? with
                        | some (.obj fs') => fs'
                        | _ => []) =
                        setKV fs cfg.refcode (JSVal.num s₁.table.length) := by
                      rw [hS2a]
                      rfl
                    rw [hLF1] at hE1
                    rw [hLF2] at hE2
                    rcases @visitFields_rel cfg (visit cfg erp n) erp a ih
                        (setKV fs cfg.refcode (JSVal.num s₁.table.length))
                        [(cfg.refcode, .atom (.num s₁.table.length))]
                        ⟨setNodeProp s₁.heap a cfg.refcode
                          (JSVal.num s₁.table.length),
                         s₁.table ++ [(.obj [(cfg.refcode,
                            .atom (.num s₁.table.length))], a)],
                         s₁.calls⟩
                        ⟨setNodeProp s₂.heap a cfg.refcode
                          (JSVal.num s₁.table.length),
                         s₁.table ++ [(.obj [(cfg.refcode,
                            .atom (.num s₁.table.length))], a)],
                         s₁.calls⟩
                        rfl rfl hRel' with
                      ⟨e, hr1, hr2⟩ | ⟨x, t₁, t₂, hr1, hr2, htt, hcc, hhh⟩
                    · refine Or.inl ⟨e, ?_, ?_⟩
                      · rw [hE1, hr1]
                        rfl
                      · rw [hE2, hr2]
                        rfl
                    · refine Or.inr ⟨.refRec s₁.table.length,
                        ⟨t₁.heap,
                         t₁.table.set s₁.table.length (.obj x, a), t₁.calls⟩,
                        ⟨t₂.heap,
                         t₂.table.set s₁.table.length (.obj x, a), t₂.calls⟩,
                        ?_, ?_, by rw [htt], hcc, hhh⟩
                      · rw [hE1, hr1]
                        rfl
                      · rw [hE2, hr2]
                        rfl
                | arr es ps =>
                    obtain ⟨ps₂, hga2⟩ : ∃ ps₂, s₂.heap[a]? = some (.arr es ps₂) := by
                      rcases hh.2 a with heq | ⟨nn, hn1, hfree, hn2⟩
                      · exact ⟨ps, by rw [heq, hga]⟩
                      · rw [hga] at hn1
                        have hnn : nn = .arr es ps := (Option.some.inj hn1).symm
                        subst hnn
                        exact ⟨ps ++ [(cfg.refcode, .null)], by rw [hn2]; rfl⟩
                    have hE1 := @visit_arr_eq cfg erp n s₁ a es ps hga htag
                    have hE2 := @visit_arr_eq cfg erp n s₂ a es ps₂ hga2 htag2
                    rw [← ht, ← hc] at hE2
                    rcases visitElems_rel ih es []
                        ⟨setNodeProp s₁.heap a cfg.refcode
                          (JSVal.num s₁.table.length),
                         s₁.table ++ [(.arr [] [(cfg.refcode,
                            .atom (.num s₁.table.length))], a)],
                         s₁.calls⟩
                        ⟨setNodeProp s₂.heap a cfg.refcode
                          (JSVal.num s₁.table.length),
                         s₁.table ++ [(.arr [] [(cfg.refcode,
                            .atom (.num s₁.table.length))], a)],
                         s₁.calls⟩
                        rfl rfl hRel' with
                      ⟨e, hr1, hr2⟩ | ⟨x, t₁, t₂, hr1, hr2, htt, hcc, hhh⟩
                    · refine Or.inl ⟨e, ?_, ?_⟩
                      · rw [hE1, hr1]
                        rfl
                      · rw [hE2, hr2]
                        rfl
                    · refine Or.inr ⟨.refRec s₁.table.length,
                        ⟨t₁.heap,
                         t₁.table.set s₁.table.length
                           (.arr x [(cfg.refcode,
                              .atom (.num s₁.table.length))], a), t₁.calls⟩,
                        ⟨t₂.heap,
                         t₂.table.set s₁.table.length
                           (.arr x [(cfg.refcode,
                              .atom (.num s₁.table.length))], a), t₂.calls⟩,
                        ?_, ?_, by rw [htt], hcc, hhh⟩
                      · rw [hE1, hr1]
                        rfl
                      · rw [hE2, hr2]
                        rfl
      · have hE : ∀ s : EncState, visit cfg erp (n + 1) v s =
            (handleAtom v).map fun e => (e, s) := by
          intro s
          cases v <;> first | rfl | exact absurd ⟨_, rfl⟩ hvp
        rw [hE s₁, hE s₂]
        cases hha : handleAtom v with
        | error e =>
            refine Or.inl ⟨e, ?_, ?_⟩ <;> rfl
        | ok e =>
            exact Or.inr ⟨e, s₁, s₂, rfl, rfl, ht, hc, hh⟩

/-- Running `stringify` a second time, on the graph exactly as the first call
left it, produces the identical wire value. -/
theorem stringify_again {cfg : Config} {h₀ : Heap} {rp : Replacer} {a : Addr}
    (hw : wfHeap cfg h₀ = true) (herp : ErpWf h₀.length (effRepl cfg rp))
    (ha : a < h₀.length) :
    ∃ (w : JValue) (st₁ st₂ : EncState),
      stringify cfg h₀ (.ptr a) rp = .ok (w, st₁) ∧
      stringify cfg st₁.heap (.ptr a) rp = .ok (w, st₂) := by
  obtain ⟨stV, hrunV, hpost, hid0, hstr⟩ := stringify_ptr_run hw herp ha
  have hI := hpost.sp.inv
  have hRel : RelHeap cfg h₀ (cleanupTable cfg stV.table stV.heap).2 := by
    refine ⟨cleaned_heap_len hI, ?_⟩
    intro b
    rcases cleaned_heap_char hw hI b with heq | ⟨-, n, i, hn, -, hres⟩
    · exact Or.inl heq
    · exact Or.inr ⟨n, hn, wfNode_rkFree (wfHeap_node hw hn), hres⟩
  have hrel2 := @visit_rel cfg (effRepl cfg rp) (h₀.length + 1) (.ptr a)
    ⟨h₀, [], []⟩ ⟨(cleanupTable cfg stV.table stV.heap).2, [], []⟩ rfl rfl hRel
  rcases hrel2 with ⟨e, h1, -⟩ | ⟨x, u₁, u₂, h1, h2, htab, hcalls, -⟩
  · rw [hrunV] at h1
    exact Except.noConfusion h1
  · rw [hrunV] at h1
    have hx : x = .refRec 0 ∧ u₁ = stV := by
      have := Except.ok.inj h1
      exact ⟨(congrArg Prod.fst this).symm, (congrArg Prod.snd this).symm⟩
    obtain ⟨hxe, hu1⟩ := hx
    subst hxe
    subst hu1
    refine ⟨_, _, ⟨(cleanupTable cfg u₂.table u₂.heap).2,
      u₂.table.map fun ca => (stripRk cfg ca.1, ca.2), u₂.calls⟩, hstr, ?_⟩
    show stringify cfg (cleanupTable cfg u₁.table u₁.heap).2 (.ptr a) rp = _
    simp only [stringify]
    rw [show (cleanupTable cfg u₁.table u₁.heap).2.length + 1 = h₀.length + 1 by
      rw [cleaned_heap_len hI]]
    rw [h2]
    show Except.ok
        ((JValue.arr ((cleanupTable cfg u₂.table u₂.heap).1.map
            fun ca => jOfCopy cfg ca.1) : JValue),
         ({ heap := (cleanupTable cfg u₂.table u₂.heap).2,
            table := (cleanupTable cfg u₂.table u₂.heap).1,
            calls := u₂.calls } : EncState)) = _
    rw [cleanupTable_fst, List.map_map]
    rw [← htab]
    rfl

/-! ### Support facts for the individual claims -/

theorem wfVal_of_plainVal {len : Nat} {v : JSVal} (h : plainVal len v = true) :
    wfVal len v = true := by
  cases v <;> simp_all [plainVal, wfVal, isPlainAtom, isRoundAtom]

theorem wfHeap_of_plainHeap {cfg : Config} {h : Heap}
    (hp : plainHeap cfg h = true) : wfHeap cfg h = true := by
  rw [plainHeap, Bool.and_eq_true] at hp
  rw [wfHeap, Bool.and_eq_true]
  refine ⟨hp.1, ?_⟩
  rw [List.all_eq_true] at hp ⊢
  intro n hn
  have h2 := hp.2 n hn
  cases n with
  | obj fs =>
      rw [plainNode, Bool.and_eq_true] at h2
      rw [wfNode, Bool.and_eq_true]
      refine ⟨h2.1, ?_⟩
      rw [List.all_eq_true] at h2 ⊢
      intro kv hkv
      have h3 := h2.2 kv hkv
      rw [Bool.and_eq_true] at h3 ⊢
      exact ⟨h3.1, wfVal_of_plainVal h3.2⟩
  | arr es ps =>
      rw [plainNode, Bool.and_eq_true] at h2
      rw [wfNode, Bool.and_eq_true]
      refine ⟨?_, h2.2⟩
      rw [List.all_eq_true] at h2 ⊢
      exact fun v hv => wfVal_of_plainVal (h2.1 v hv)

theorem erpWf_noRepl {cfg : Config} {len : Nat} :
    ErpWf len (effRepl cfg .noRepl) := fun f hf => Option.noConfusion hf

theorem erpWf_arrRepl {cfg : Config} {len : Nat} {keys : List String} :
    ErpWf len (effRepl cfg (.arrRepl keys)) := by
  intro f hf k v hv
  have hfe : f = fun k v => (if keys.contains k then v else .undef, true) :=
    (Option.some.inj hf).symm
  subst hfe
  by_cases hk : keys.contains k
  · left
    show wfVal len (if keys.contains k = true then v else JSVal.undef) = true
    rw [if_pos hk]
    exact hv
  · right
    show (if keys.contains k = true then v else JSVal.undef) = JSVal.undef
    rw [if_neg hk]

theorem erpWf_fnRepl {cfg : Config} {len : Nat} {f : String → JSVal → JSVal}
    (hf : ∀ k v, wfVal len v = true →
      wfVal len (f k v) = true ∨ f k v = .undef) :
    ErpWf len (effRepl cfg (.fnRepl f)) := by
  intro g hg k v hv
  have hge : g = fun k v =>
      if strStarts k cfg.mark then (v, false) else (f k v, true) :=
    (Option.some.inj hg).symm
  subst hge
  by_cases hm : strStarts k cfg.mark
  · exact Or.inl (by simpa [hm] using hv)
  · rcases hf k v hv with h | h
    · exact Or.inl (by simpa [hm] using h)
    · exact Or.inr (by simpa [hm] using h)

/-- The user-visible replacer invocations of one object node's field loop
under a wrapped function replacer: one per iterated field with a defined
value and a non-marker key, in order, carrying the original key and value. -/
theorem callsOfFields_fnRepl {cfg : Config} {f : String → JSVal → JSVal} {b : Addr} :
    ∀ {l : List (String × JSVal)},
      (∀ kv ∈ l, strStarts kv.1 cfg.mark = false) →
      ((callsOfFields (effRepl cfg (.fnRepl f)) b l).filter fun c => c.toUser) =
        l.filterMap fun kv =>
          if kv.2 = .undef then none else some ⟨b, kv.1, kv.2, true⟩ := by
  intro l
  induction l with
  | nil => intro _; rfl
  | cons kv t ih =>
      intro hks
      obtain ⟨k, v⟩ := kv
      have hk : strStarts k cfg.mark = false := hks (k, v) (List.mem_cons_self _ _)
      have iht := ih fun kv hkv => hks kv (List.mem_cons_of_mem _ hkv)
      by_cases hvu : v = .undef
      · simp only [callsOfFields, effRepl, List.filterMap_cons, if_pos hvu] at iht ⊢
        exact iht
      · simp only [callsOfFields, effRepl, List.filterMap_cons, if_neg hvu, hk,
          Bool.false_eq_true, if_false, List.filter_cons, List.filter_nil] at iht ⊢
        rw [iht]
        simp

theorem callsOfFields_rk_user {cfg : Config} {f : String → JSVal → JSVal}
    {b : Addr} {v : JSVal} (hv : v ≠ .undef) :
    ((callsOfFields (effRepl cfg (.fnRepl f)) b [(cfg.refcode, v)]).filter
      fun c => c.toUser) = [] := by
  simp only [callsOfFields, effRepl, List.filterMap_cons, List.filterMap_nil]
  rw [if_neg hv, List.filter_cons]
  rw [if_neg (by simp [strStarts_refcode cfg])]
  rfl

theorem callsOfFields_cons_undef {f : String → JSVal → JSVal × Bool} {b : Addr}
    {k : String} {t : List (String × JSVal)} :
    callsOfFields (some f) b ((k, JSVal.undef) :: t) =
      callsOfFields (some f) b t := by
  simp [callsOfFields]

theorem callsOfFields_cons_def {f : String → JSVal → JSVal × Bool} {b : Addr}
    {k : String} {v : JSVal} {t : List (String × JSVal)} (hv : v ≠ .undef) :
    callsOfFields (some f) b ((k, v) :: t) =
      ⟨b, k, v, (f k v).2⟩ :: callsOfFields (some f) b t := by
  simp [callsOfFields, hv]

theorem callsOfFields_keys {erp : Option (String → JSVal → JSVal × Bool)}
    {b : Addr} :
    ∀ {l : List (String × JSVal)} {k : String},
      (∀ kv ∈ l, kv.1 ≠ k) →
      ((callsOfFields erp b l).filter fun c => c.key == k) = [] := by
  intro l
  induction l with
  | nil => intro k _; cases erp <;> rfl
  | cons kv t ih =>
      intro k hks
      obtain ⟨k₀, v₀⟩ := kv
      have hk0 : k₀ ≠ k := hks (k₀, v₀) (List.mem_cons_self _ _)
      have iht := ih fun kv hkv => hks kv (List.mem_cons_of_mem _ hkv)
      cases erp with
      | none => rfl
      | some f =>
          simp only [callsOfFields, List.filterMap_cons] at iht ⊢
          by_cases hvu : v₀ = .undef
          · rw [if_pos hvu]
            exact iht
          · rw [if_neg hvu, List.filter_cons, if_neg (by simp [hk0])]
            exact iht

/-- An undefined-valued field generates no replacer invocation at all. -/
theorem callsOfFields_key_undef {erp : Option (String → JSVal → JSVal × Bool)}
    {b : Addr} :
    ∀ {l : List (String × JSVal)} {k : String},
      getKV l k = some .undef → nodupKeys l = true →
      ((callsOfFields erp b l).filter fun c => c.key == k) = [] := by
  intro l
  induction l with
  | nil => intro k h _; simp [getKV] at h
  | cons kv t ih =>
      intro k hget hnd
      obtain ⟨k₀, v₀⟩ := kv
      obtain ⟨hnotin, hndt⟩ := nodupKeys_cons hnd
      by_cases hk0 : k₀ = k
      · simp only [getKV, if_pos hk0] at hget
        have hv : v₀ = .undef := Option.some.inj hget
        subst hv
        subst hk0
        cases erp with
        | none => rfl
        | some f =>
            rw [callsOfFields_cons_undef]
            refine callsOfFields_keys ?_
            intro kv hkv hh
            apply hnotin
            rw [← hh]
            exact List.mem_map_of_mem Prod.fst hkv
      · simp only [getKV, if_neg hk0] at hget
        have iht := ih hget hndt
        cases erp with
        | none => rfl
        | some f =>
            by_cases hvu : v₀ = .undef
            · subst hvu
              rw [callsOfFields_cons_undef]
              exact iht
            · rw [callsOfFields_cons_def hvu, List.filter_cons,
                if_neg (by simp [hk0])]
              exact iht

theorem effValue_undef {erp : Option (String → JSVal → JSVal × Bool)}
    {k : String} : effValue erp k .undef = some .undef := by
  cases erp <;> simp [effValue]

/-- An undefined field always survives into the finished copy, as the
reserved ABSENT reference, whatever the replacer. -/
theorem fieldsM_getKV_undef {cfg : Config}
    {erp : Option (String → JSVal → JSVal × Bool)} {h : Heap} :
    ∀ {fs : List (String × JSVal)} {out : List (String × Encoded)} {k : String},
      FieldsM cfg erp h fs out → getKV fs k = some .undef →
      getKV out k = some (.refRec (-1)) := by
  intro fs
  induction fs with
  | nil =>
      intro out k hfm h2
      simp [getKV] at h2
  | cons kv rest ih =>
      intro out k hfm h2
      obtain ⟨k₀, v₀⟩ := kv
      cases hfm with
      | keep heff hs hrest =>
          by_cases hk0 : k₀ = k
          · simp only [getKV, if_pos hk0] at h2
            have hv : v₀ = .undef := Option.some.inj h2
            subst hv
            rw [effValue_undef] at heff
            have hv' := Option.some.inj heff
            subst hv'
            rcases hs with ⟨b, i, hb, -, -⟩ | ⟨-, he⟩
            · exact absurd hb (by simp)
            · simp only [getKV, if_pos hk0]
              rw [he]
              rfl
          · simp only [getKV, if_neg hk0] at h2
            simp only [getKV, if_neg hk0]
            exact ih hrest h2
      | drop heff hrest =>
          by_cases hk0 : k₀ = k
          · simp only [getKV, if_pos hk0] at h2
            have hv : v₀ = .undef := Option.some.inj h2
            subst hv
            rw [effValue_undef] at heff
            exact Option.noConfusion heff
          · simp only [getKV, if_neg hk0] at h2
            exact ih hrest h2

theorem forall₂_getKV {L : Nat} {cfg : Config} :
    ∀ {out : List (String × Encoded)} {dfs : List (String × JSVal)} {k : String}
      {e : Encoded},
      List.Forall₂ (fun ke d => d.1 = ke.1 ∧
        decodeSlot cfg L (jOfEncoded cfg ke.2) = .ok d.2) out dfs →
      getKV out k = some e →
      ∃ y, getKV dfs k = some y ∧ decodeSlot cfg L (jOfEncoded cfg e) = .ok y := by
  intro out dfs k e hf
  induction hf with
  | nil => intro h2; simp [getKV] at h2
  | cons hr hrest ih =>
      intro h2
      rename_i ke d outr dfsr
      obtain ⟨hk, hdec⟩ := hr
      by_cases hk0 : ke.1 = k
      · rw [show ke = (ke.1, ke.2) from rfl] at h2
        simp only [getKV, if_pos hk0] at h2
        have he : ke.2 = e := Option.some.inj h2
        subst he
        refine ⟨d.2, ?_, hdec⟩
        rw [show d = (d.1, d.2) from rfl]
        simp [getKV, hk, hk0]
      · rw [show ke = (ke.1, ke.2) from rfl] at h2
        simp only [getKV, if_neg hk0] at h2
        obtain ⟨y, hy, hdy⟩ := ih h2
        refine ⟨y, ?_, hdy⟩
        rw [show d = (d.1, d.2) from rfl]
        simp only [getKV, hk, if_neg hk0]
        exact hy

theorem decodeSlot_absent (cfg : Config) (L : Nat) :
    decodeSlot cfg L (jOfEncoded cfg (.refRec (-1))) = .ok .undef := by
  have hcond : ¬ ((0 : Int) ≤ -1 ∧ (-1 : Int).toNat < L) := by
    intro h
    exact absurd h.1 (by decide)
  simp [decodeSlot, jOfEncoded, jIsAtom, decodeChild, getKV, hcond]

theorem decodeChild_malformed (cfg : Config) (L : Nat)
    {fs : List (String × JValue)} (h1 : getKV fs cfg.mark = none)
    (h2 : getKV fs cfg.buildcode = none) :
    decodeChild cfg L (.obj fs) = .error .unknownEncoding := by
  simp [decodeChild, h1, h2]

theorem decodeChild_oob (cfg : Config) (L : Nat) {i : Int}
    (h : ¬ (0 ≤ i ∧ i.toNat < L)) :
    decodeChild cfg L (.obj [(cfg.mark, .num i)]) = .ok .undef := by
  simp [decodeChild, getKV, h]

theorem resurrect_unresolvable (cfg : Config) (resolver : String → Bool)
    (name : String) (hrev : cfg.revive = true) (hres : resolver name = false) :
    resurrect cfg resolver (.arr [.obj [(cfg.mark, .str name)]]) =
      .error .unknownConstructor := by
  rw [resurrect_arr, hrev]
  have hfp : fixPrototype cfg resolver (.obj [(cfg.mark, .str name)]) =
      .error .unknownConstructor := by
    simp [fixPrototype, getKV, hres]
  rw [if_pos rfl, List.mapM_cons, hfp]
  rfl

theorem resurrect_single {cfg : Config} {resolver : String → Bool} {j : JValue}
    (hna : ∀ entries, j ≠ .arr entries) :
    resurrect cfg resolver j =
      (decodeSlot cfg 0 j).bind fun v => .ok (([] : Heap), v) := by
  cases j with
  | arr entries => exact absurd rfl (hna entries)
  | obj fs => rfl
  | null => rfl
  | bool b => rfl
  | num n => rfl
  | str s => rfl

/-- Encoding a round-tripping atom at the root with no replacer and decoding
the wire value returns the atom exactly. -/
theorem atom_root_roundtrip {cfg : Config} {h : Heap}
    {resolver : String → Bool} {v : JSVal} (hround : isRoundAtom v = true) :
    stringify cfg h v .noRepl =
      .ok (jOfEncoded cfg (atomEnc v), ⟨h, [], []⟩) ∧
    resurrect cfg resolver (jOfEncoded cfg (atomEnc v)) = .ok ([], v) := by
  constructor
  · have hA := handleAtom_round hround
    cases v <;>
      first
      | (simp_all [stringify, Except.map]; done)
      | exact absurd hround (by simp [isRoundAtom])
  · have hna : ∀ entries, jOfEncoded cfg (atomEnc v) ≠ .arr entries := by
      intro entries
      cases v <;>
        first
        | (simp [atomEnc, jOfEncoded, jOfAtom]; done)
        | exact absurd hround (by simp [isRoundAtom])
    rw [resurrect_single hna, decodeSlot_atomEnc cfg 0 hround]
    rfl

/-- With the cleanup option on, `stringify` hands the caller's heap back
exactly as it was. -/
theorem stringify_cleanup_restores {cfg : Config} {h₀ : Heap} {rp : Replacer}
    {a : Addr} (hw : wfHeap cfg h₀ = true)
    (herp : ErpWf h₀.length (effRepl cfg rp)) (ha : a < h₀.length)
    (hclean : cfg.cleanup = true) :
    ∃ w stFin, stringify cfg h₀ (.ptr a) rp = .ok (w, stFin) ∧
      stFin.heap = h₀ := by
  obtain ⟨stV, hrunV, hpost, hid0, hstr⟩ := stringify_ptr_run hw herp ha
  have hI := hpost.sp.inv
  refine ⟨_, _, hstr, ?_⟩
  show (cleanupTable cfg stV.table stV.heap).2 = h₀
  have hlen : (cleanupTable cfg stV.table stV.heap).2.length = h₀.length :=
    cleaned_heap_len hI
  apply List.ext_getElem?
  intro i
  rcases cleaned_heap_char hw hI i with heq | ⟨hfalse, -⟩
  · exact heq
  · rw [hclean] at hfalse
    exact Bool.noConfusion hfalse

/-- The per-node replacer-call log of a full `stringify` run. -/
theorem stringify_calls_at {cfg : Config} {h₀ : Heap} {rp : Replacer} {a : Addr}
    (hw : wfHeap cfg h₀ = true) (herp : ErpWf h₀.length (effRepl cfg rp))
    (ha : a < h₀.length) :
    ∃ (w : JValue) (stV : EncState),
      stringify cfg h₀ (.ptr a) rp =
        .ok (w, ⟨(cleanupTable cfg stV.table stV.heap).2,
          stV.table.map fun ca => (stripRk cfg ca.1, ca.2), stV.calls⟩) ∧
      Inv cfg h₀ stV ∧ idOf cfg stV.heap a = some 0 ∧
      (∀ b, b < h₀.length → isTagged cfg stV.heap b = true →
        CallsAt cfg h₀ (effRepl cfg rp) stV b
          (stV.calls.filter fun c => c.node == b)) := by
  obtain ⟨stV, hrunV, hpost, hid0, hstr⟩ := stringify_ptr_run hw herp ha
  have hI := hpost.sp.inv
  obtain ⟨Δ, hΔeq, hall, hat⟩ := hpost.cp
  have hcalls : stV.calls = Δ := by
    rw [hΔeq]
    rfl
  refine ⟨_, stV, hstr, hI, hid0, ?_⟩
  intro b hb htg
  have hun : isTagged cfg h₀ b = false := by
    obtain ⟨n, hn⟩ := getElem?_some_of_lt hb
    exact isTagged_false_of_rkFree hn (wfNode_rkFree (wfHeap_node hw hn))
  have hA := hat b hb hun htg
  rw [hcalls]
  exact hA

/-! ### Path-resolution helpers and table-origin facts -/

theorem resolvePath_fld_obj {h : Heap} {a : Addr} {fs : List (String × JSVal)}
    (hn : h[a]? = some (.obj fs)) (k : String) :
    resolvePath h (.ptr a) [.fld k] = getKV fs k := by
  simp only [resolvePath, step, hn, Option.some_bind]
  cases getKV fs k <;> rfl

theorem orig_idOf {cfg : Config} {h₀ : Heap} {s : EncState}
    (hw : wfHeap cfg h₀ = true) (hI : Inv cfg h₀ s) {i : Nat}
    (hi : i < s.table.length) :
    ∃ b, ((s.table[i]?).map Prod.snd) = some b ∧ b < h₀.length ∧
      idOf cfg s.heap b = some i := by
  obtain ⟨b, hb, hsnd, hheap⟩ := hI.orig i hi
  refine ⟨b, hsnd, hb, ?_⟩
  obtain ⟨n, hn⟩ := getElem?_some_of_lt hb
  rw [hn] at hheap
  have hheap' : s.heap[b]? = some (addRk cfg n (.num i)) := hheap
  have hrk : n.getProp cfg.refcode = none := wfNode_rkFree (wfHeap_node hw hn)
  simp only [idOf, getRefcode, hheap', Option.some_bind]
  rw [addRk_getProp_self _ hrk]
  simp

theorem resolvePath_non_ptr {h : Heap} {v : JSVal} {c : Addr}
    (hv : ∀ a : Addr, v ≠ .ptr a) :
    ∀ {p : List Step}, resolvePath h v p = some (.ptr c) → False := by
  intro p
  cases p with
  | nil =>
      intro hres
      exact hv c (Option.some.inj hres)
  | cons s rest =>
      intro hres
      have hstep : step h v s = none := by
        cases s <;> cases v <;> first | rfl | exact absurd rfl (hv _)
      have hres' : (step h v s).bind (fun u => resolvePath h u rest) =
          some (.ptr c) := hres
      rw [hstep] at hres'
      exact Option.noConfusion hres'

/-- With no replacer, every pointer one access step away from an identified
node is itself identified: the node's table entry carries a slot for the
child, and a pointer slot records the child's identifier. -/
theorem child_tagged {cfg : Config} {h₀ : Heap} {stV : EncState}
    (hw : wfHeap cfg h₀ = true) (hI : Inv cfg h₀ stV)
    (hent : ∀ i, i < stV.table.length →
      EntryM cfg none stV.heap h₀ stV.table i)
    {b c : Addr} {i : Nat} (hid : idOf cfg stV.heap b = some i)
    {s : Step} (hstep : step h₀ (.ptr b) s = some (.ptr c)) :
    ∃ j, idOf cfg stV.heap c = some j := by
  obtain ⟨hilt, hsnd⟩ := idOf_lt_table hw hI hid
  obtain ⟨cc, bb, htab, hbr⟩ := hent i hilt
  have hbb : bb = b := by
    rw [htab] at hsnd
    exact Option.some.inj hsnd
  rw [hbb] at hbr
  rcases hbr with ⟨fs, erk, out, hfa, hfm, -⟩ | ⟨es, ps, outE, eps, hfa, hf2, -⟩
  · cases s with
    | fld k =>
        have hstep' : ((h₀[b]?).bind fun n =>
            match n with
            | .obj gs => getKV gs k
            | .arr _ qs => getKV qs k) = some (.ptr c) := hstep
        rw [hfa] at hstep'
        have hget : getKV fs k = some (.ptr c) := hstep'
        obtain ⟨ke, -, hrel⟩ :=
          forall₂_mem_left (fieldsM_none_slots hfm) (k, .ptr c) (getKV_mem hget)
        exact slotM_ptr_tagged hrel.2
    | idx jx =>
        have hstep' : ((h₀[b]?).bind fun n =>
            match n with
            | .arr gs _ => gs[jx]?
            | .obj _ => none) = some (.ptr c) := hstep
        rw [hfa] at hstep'
        exact Option.noConfusion hstep'
  · cases s with
    | fld k =>
        have hps : ps = [] := (wfNode_arr (wfHeap_node hw hfa)).2
        have hstep' : ((h₀[b]?).bind fun n =>
            match n with
            | .obj gs => getKV gs k
            | .arr _ qs => getKV qs k) = some (.ptr c) := hstep
        rw [hfa, hps] at hstep'
        exact Option.noConfusion hstep'
    | idx jx =>
        have hstep' : ((h₀[b]?).bind fun n =>
            match n with
            | .arr gs _ => gs[jx]?
            | .obj _ => none) = some (.ptr c) := hstep
        rw [hfa] at hstep'
        have hel : es[jx]? = some (.ptr c) := hstep'
        obtain ⟨e0, -, hrel⟩ :=
          forall₂_mem_left hf2 (.ptr c) (List.getElem?_mem hel)
        exact slotM_ptr_tagged hrel

/-- With no replacer, every composite reachable by an access path from an
identified node is itself identified. -/
theorem reachable_tagged {cfg : Config} {h₀ : Heap} {stV : EncState}
    (hw : wfHeap cfg h₀ = true) (hI : Inv cfg h₀ stV)
    (hent : ∀ i, i < stV.table.length →
      EntryM cfg none stV.heap h₀ stV.table i) :
    ∀ (p : List Step) (b c : Addr) (i : Nat), idOf cfg stV.heap b = some i →
      resolvePath h₀ (.ptr b) p = some (.ptr c) →
      ∃ j, idOf cfg stV.heap c = some j := by
  intro p
  induction p with
  | nil =>
      intro b c i hid hres
      have hbc : JSVal.ptr b = JSVal.ptr c := Option.some.inj hres
      injection hbc with hbc
      exact ⟨i, hbc ▸ hid⟩
  | cons s rest ih =>
      intro b c i hid hres
      have hres' : (step h₀ (.ptr b) s).bind
          (fun u => resolvePath h₀ u rest) = some (.ptr c) := hres
      cases hstep : step h₀ (.ptr b) s with
      | none =>
          rw [hstep] at hres'
          exact Option.noConfusion hres'
      | some u =>
          rw [hstep] at hres'
          have hres'' : resolvePath h₀ u rest = some (.ptr c) := hres'
          by_cases hvp : ∃ cx : Addr, u = .ptr cx
          · obtain ⟨c', rfl⟩ := hvp
            obtain ⟨j, hj⟩ := child_tagged hw hI hent hid hstep
            exact ih c' c j hj hres''
          · exact absurd hres''
              (resolvePath_non_ptr fun a ha => hvp ⟨a, ha⟩)

/-! ### Claim theorems -/

/-- C1: for an acyclic heap built only of plain objects, arrays and plain
atoms, `resurrect` after `stringify` reproduces the graph: some address
renaming `f` sends the root to decoded address 0, every access path in the
decoded heap resolves to the renamed original value (deep value equality),
and any two paths reaching the identity-same node originally reach the
identity-same decoded node. -/
theorem c1_roundtrip {cfg : Config} {h₀ : Heap} {a : Addr}
    {resolver : String → Bool}
    (hplain : plainHeap cfg h₀ = true) (ha : a < h₀.length)
    (hacyc : ∃ rank : Addr → Nat, ∀ (b : Addr) (n : HNode), h₀[b]? = some n →
      (∀ fs, n = .obj fs → ∀ kv ∈ fs, ∀ c, kv.2 = .ptr c → rank c < rank b) ∧
      (∀ es ps, n = .arr es ps → ∀ v ∈ es, ∀ c, v = .ptr c → rank c < rank b)) :
    ∃ (w : JValue) (stFin : EncState) (hD : Heap) (f : Addr → Nat),
      stringify cfg h₀ (.ptr a) .noRepl = .ok (w, stFin) ∧
      resurrect cfg resolver w = .ok (hD, .ptr 0) ∧
      f a = 0 ∧
      (∀ p, resolvePath hD (.ptr (f a)) p =
        (resolvePath h₀ (.ptr a) p).map (renameVal f)) ∧
      (∀ p₁ p₂ (b : Addr), resolvePath h₀ (.ptr a) p₁ = some (.ptr b) →
        resolvePath h₀ (.ptr a) p₂ = some (.ptr b) →
        resolvePath hD (.ptr (f a)) p₁ = some (.ptr (f b)) ∧
        resolvePath hD (.ptr (f a)) p₂ = some (.ptr (f b))) := by
  obtain ⟨w, stFin, hD, f, h1, h2, h3, h4⟩ :=
    @roundtrip_paths cfg h₀ a resolver (wfHeap_of_plainHeap hplain) ha
  refine ⟨w, stFin, hD, f, h1, h2, h3, h4, ?_⟩
  intro p₁ p₂ b hp1 hp2
  constructor
  · rw [h4 p₁, hp1]
    rfl
  · rw [h4 p₂, hp2]
    rfl

/-- C2: for a cyclic graph (an object whose field "self" points back at
itself), `stringify` terminates with a result, and the decoded object's
"self" field is the decoded object itself (identity equality of addresses). -/
theorem c2_cycle {cfg : Config} {h₀ : Heap} {a : Addr}
    {fs : List (String × JSVal)} {resolver : String → Bool}
    (hw : wfHeap cfg h₀ = true) (ha : a < h₀.length)
    (hself : h₀[a]? = some (.obj fs)) (hfld : getKV fs "self" = some (.ptr a)) :
    ∃ (w : JValue) (stFin : EncState) (hD : Heap),
      stringify cfg h₀ (.ptr a) .noRepl = .ok (w, stFin) ∧
      resurrect cfg resolver w = .ok (hD, .ptr 0) ∧
      resolvePath hD (.ptr 0) [.fld "self"] = some (.ptr 0) := by
  obtain ⟨w, stFin, hD, f, h1, h2, h3, h4⟩ :=
    @roundtrip_paths cfg h₀ a resolver hw ha
  refine ⟨w, stFin, hD, h1, h2, ?_⟩
  · have hres : resolvePath h₀ (.ptr a) [.fld "self"] = some (.ptr a) := by
      rw [resolvePath_fld_obj hself, hfld]
    have hp := h4 [.fld "self"]
    rw [h3] at hp
    rw [hp, hres]
    show some (JSVal.ptr (f a)) = _
    rw [h3]

/-- C3: one `stringify` run of a composite root assigns identifiers that are
exactly the positions of the emitted table entries: every entry position
holds the identifier of its origin node, the root is entry 0, every
composite reachable from the root by an access path is assigned an
identifier (completeness; stated for the replacer-less run, since a
replacer may prune or replace fields and then pruned subtrees are genuinely
not visited), a node's identifier is unique and in range, origins are
pairwise distinct, and re-visiting an already-identified node returns a
reference record with the previously assigned identifier, leaving the
state untouched. -/
theorem c3_identifiers {cfg : Config} {h₀ : Heap} {rp : Replacer} {a : Addr}
    (hw : wfHeap cfg h₀ = true) (herp : ErpWf h₀.length (effRepl cfg rp))
    (ha : a < h₀.length) :
    ∃ stV : EncState,
      stringify cfg h₀ (.ptr a) rp =
        .ok (.arr (stV.table.map fun ca => jOfCopy cfg (stripRk cfg ca.1)),
             ⟨(cleanupTable cfg stV.table stV.heap).2,
              stV.table.map fun ca => (stripRk cfg ca.1, ca.2),
              stV.calls⟩) ∧
      idOf cfg stV.heap a = some 0 ∧
      (rp = .noRepl → ∀ (p : List Step) (b : Addr),
        resolvePath h₀ (.ptr a) p = some (.ptr b) →
        ∃ i, idOf cfg stV.heap b = some i) ∧
      (∀ i, i < stV.table.length →
        ∃ b, ((stV.table[i]?).map Prod.snd) = some b ∧ b < h₀.length ∧
          idOf cfg stV.heap b = some i) ∧
      (∀ b i, idOf cfg stV.heap b = some i →
        i < stV.table.length ∧ ((stV.table[i]?).map Prod.snd) = some b) ∧
      (stV.table.map Prod.snd).Nodup ∧
      (∀ b i fuel, idOf cfg stV.heap b = some i →
        visit cfg (effRepl cfg rp) (fuel + 1) (.ptr b) stV =
          .ok (.refRec i, stV)) := by
  obtain ⟨stV, hrunV, hpost, hid0, hstr⟩ := stringify_ptr_run hw herp ha
  have hI := hpost.sp.inv
  have hent : ∀ i, i < stV.table.length →
      EntryM cfg (effRepl cfg rp) stV.heap h₀ stV.table i :=
    fun i hi => hpost.sp.entries i (Nat.zero_le i) hi
  refine ⟨stV, hstr, hid0, ?_, ?_, ?_, table_snd_nodup hw hI, ?_⟩
  · intro hrp p b hres
    subst hrp
    exact reachable_tagged hw hI hent p a b 0 hid0 hres
  · intro i hi
    exact orig_idOf hw hI hi
  · intro b i hid
    exact idOf_lt_table hw hI hid
  · intro b i fuel hid
    obtain ⟨hilt, hsnd⟩ := idOf_lt_table hw hI hid
    obtain ⟨b', hsnd', hb', -⟩ := orig_idOf hw hI hilt
    rw [hsnd] at hsnd'
    have hbb : b = b' := Option.some.inj hsnd'
    rw [hbb] at hid ⊢
    obtain ⟨i', hid', hrun, -⟩ :=
      @visit_tagged cfg h₀ (effRepl cfg rp) fuel stV b' hw hI hb'
        (idOf_some_tagged hid)
    rw [hid] at hid'
    have hii : i = i' := Option.some.inj hid'
    rw [hii]
    exact hrun

/-- C4 (amended): with the cleanup option enabled, `stringify` is free of
caller-visible side effects — the heap handed back is exactly the input
heap.  (With the default options the scratch refcode keys are only nulled,
not removed; see the counterexample.) -/
theorem c4_cleanup_restores {cfg : Config} {h₀ : Heap} {rp : Replacer}
    {a : Addr} (hw : wfHeap cfg h₀ = true)
    (herp : ErpWf h₀.length (effRepl cfg rp)) (ha : a < h₀.length)
    (hclean : cfg.cleanup = true) :
    ∃ w stFin, stringify cfg h₀ (.ptr a) rp = .ok (w, stFin) ∧
      stFin.heap = h₀ :=
  stringify_cleanup_restores hw herp ha hclean

/-- C4 counterexample: with the default options (cleanup disabled),
`stringify` hands back a heap in which the visited node has gained a
nulled `"#id"` own property — a caller-visible mutation. -/
theorem c4_counterexample :
    (stringify {} [HNode.obj []] (.ptr 0) .noRepl).map (fun r => r.2.heap) =
      .ok [HNode.obj [("#id", JSVal.null)]] ∧
    [HNode.obj [("#id", JSVal.null)]] ≠ [HNode.obj []] := by
  constructor
  · rfl
  · decide

/-- C5 (amended): typed atoms in the round-tripping class — plain atoms,
undefined, NaN, ±Infinity, BigInts, dates within the ECMAScript range, and
RegExps with nonempty source whose flag set is a duplicate-free subset of
g, i, m, y — are reproduced exactly by resurrect ∘ stringify, both at the
root (for a replacer-less call: with a replacer present the source hands an
atom root to JSON.stringify's replacer protocol, a case the model marks as
a boundary and asserts nothing about) and as an object field.  (The full
RegExp flag set is not preserved in general: flags outside g, i, m, y are
dropped; see the counterexample.) -/
theorem c5_typed_atoms {cfg : Config} {resolver : String → Bool} :
    (∀ (h : Heap) (v : JSVal), isRoundAtom v = true →
      stringify cfg h v .noRepl =
        .ok (jOfEncoded cfg (atomEnc v), ⟨h, [], []⟩) ∧
      resurrect cfg resolver (jOfEncoded cfg (atomEnc v)) = .ok ([], v)) ∧
    (∀ (h₀ : Heap) (a : Addr) (fs : List (String × JSVal)) (k : String)
        (v : JSVal),
      wfHeap cfg h₀ = true → a < h₀.length →
      h₀[a]? = some (.obj fs) → getKV fs k = some v → isRoundAtom v = true →
      ∃ w stFin hD, stringify cfg h₀ (.ptr a) .noRepl = .ok (w, stFin) ∧
        resurrect cfg resolver w = .ok (hD, .ptr 0) ∧
        resolvePath hD (.ptr 0) [.fld k] = some v) := by
  constructor
  · intro h v hround
    exact atom_root_roundtrip hround
  · intro h₀ a fs k v hw ha hnode hget hround
    obtain ⟨w, stFin, hD, f, h1, h2, h3, h4⟩ :=
      @roundtrip_paths cfg h₀ a resolver hw ha
    refine ⟨w, stFin, hD, h1, h2, ?_⟩
    have hp := h4 [.fld k]
    rw [h3] at hp
    rw [hp, resolvePath_fld_obj hnode, hget]
    show some (renameVal f v) = some v
    have hnp : renameVal f v = v := by
      cases v <;>
        first
        | rfl
        | exact absurd hround (by simp [isRoundAtom])
    rw [hnp]

/-- C5 counterexample: a RegExp flag outside g, i, m, y is lost: /a/u is
encoded with the reduced flag string and decodes to /a/ with no flags. -/
theorem c5_counterexample :
    stringify {} [] (.regexp "a" "u") .noRepl =
      .ok (jOfEncoded {} (.buildRec "RegExp" [.str "a", .str ""]),
        ⟨[], [], []⟩) ∧
    resurrect {} (fun _ => true)
      (jOfEncoded {} (.buildRec "RegExp" [.str "a", .str ""])) =
      .ok ([], .regexp "a" "") ∧
    JSVal.regexp "a" "" ≠ .regexp "a" "u" := by
  refine ⟨rfl, rfl, by decide⟩

/-- C6: an undefined-valued field round-trips to an undefined-valued field,
distinguishable from a null-valued and from an absent field; undefined is
encoded as the reference record carrying the reserved identifier -1, which
the decoder resolves back to undefined rather than to any table entry. -/
theorem c6_undefined {cfg : Config} {h₀ : Heap} {a : Addr}
    {fs : List (String × JSVal)} {ku kn kx : String} {resolver : String → Bool}
    (hw : wfHeap cfg h₀ = true) (ha : a < h₀.length)
    (hnode : h₀[a]? = some (.obj fs))
    (hu : getKV fs ku = some .undef) (hn : getKV fs kn = some .null)
    (hx : getKV fs kx = none) :
    atomEnc .undef = .refRec (-1) ∧
    (∀ L, decodeSlot cfg L (jOfEncoded cfg (.refRec (-1))) = .ok .undef) ∧
    ∃ (w : JValue) (stFin : EncState) (hD : Heap),
      stringify cfg h₀ (.ptr a) .noRepl = .ok (w, stFin) ∧
      resurrect cfg resolver w = .ok (hD, .ptr 0) ∧
      resolvePath hD (.ptr 0) [.fld ku] = some .undef ∧
      resolvePath hD (.ptr 0) [.fld kn] = some .null ∧
      resolvePath hD (.ptr 0) [.fld kx] = none := by
  refine ⟨rfl, fun L => decodeSlot_absent cfg L, ?_⟩
  obtain ⟨w, stFin, hD, f, h1, h2, h3, h4⟩ :=
    @roundtrip_paths cfg h₀ a resolver hw ha
  refine ⟨w, stFin, hD, h1, h2, ?_, ?_, ?_⟩
  · have hp := h4 [.fld ku]
    rw [h3] at hp
    rw [hp, resolvePath_fld_obj hnode, hu]
    rfl
  · have hp := h4 [.fld kn]
    rw [h3] at hp
    rw [hp, resolvePath_fld_obj hnode, hn]
    rfl
  · have hp := h4 [.fld kx]
    rw [h3] at hp
    rw [hp, resolvePath_fld_obj hnode, hx]
    rfl

/-! ### Witnesses -/

/-- Witness for C1 at the spec's `[x, x]` scenario with `x = {n: 1}`. -/
theorem c1_roundtrip_witness :
    plainHeap {} [HNode.arr [JSVal.ptr 1, JSVal.ptr 1] [],
      HNode.obj [("n", JSVal.num 1)]] = true ∧
    ∃ (w : JValue) (stFin : EncState) (hD : Heap) (f : Addr → Nat),
      stringify {} [HNode.arr [JSVal.ptr 1, JSVal.ptr 1] [],
          HNode.obj [("n", JSVal.num 1)]] (.ptr 0) .noRepl = .ok (w, stFin) ∧
      resurrect {} (fun _ => true) w = .ok (hD, .ptr 0) ∧
      f 0 = 0 ∧
      (∀ p, resolvePath hD (.ptr (f 0)) p =
        (resolvePath [HNode.arr [JSVal.ptr 1, JSVal.ptr 1] [],
          HNode.obj [("n", JSVal.num 1)]] (.ptr 0) p).map (renameVal f)) ∧
      (∀ p₁ p₂ (b : Addr),
        resolvePath [HNode.arr [JSVal.ptr 1, JSVal.ptr 1] [],
          HNode.obj [("n", JSVal.num 1)]] (.ptr 0) p₁ = some (.ptr b) →
        resolvePath [HNode.arr [JSVal.ptr 1, JSVal.ptr 1] [],
          HNode.obj [("n", JSVal.num 1)]] (.ptr 0) p₂ = some (.ptr b) →
        resolvePath hD (.ptr (f 0)) p₁ = some (.ptr (f b)) ∧
        resolvePath hD (.ptr (f 0)) p₂ = some (.ptr (f b))) := by
  refine ⟨by decide, ?_⟩
  refine @c1_roundtrip {} [HNode.arr [JSVal.ptr 1, JSVal.ptr 1] [],
    HNode.obj [("n", JSVal.num 1)]] 0 (fun _ => true) (by decide) (by decide)
    ⟨fun b => if b = 0 then 1 else 0, ?_⟩
  intro b n hb
  have hblt : b < 2 := by
    by_contra hge
    rw [List.getElem?_eq_none (by simpa using Nat.le_of_not_lt hge)] at hb
    exact Option.noConfusion hb
  interval_cases b
  · have hn : n = HNode.arr [JSVal.ptr 1, JSVal.ptr 1] [] :=
      (Option.some.inj hb).symm
    subst hn
    constructor
    · intro fs hfs
      exact absurd hfs (by simp)
    · intro es ps hes v hv c hc
      injection hes with h1 h2
      subst h1
      subst hc
      have hc1 : c = 1 := by simpa using hv
      subst hc1
      decide
  · have hn : n = HNode.obj [("n", JSVal.num 1)] := (Option.some.inj hb).symm
    subst hn
    constructor
    · intro fs hfs kv hkv c hc
      injection hfs with h1
      subst h1
      have hkv1 : kv = ("n", JSVal.num 1) := by simpa using hkv
      subst hkv1
      exact absurd hc (by simp)
    · intro es ps hes
      exact absurd hes (by simp)

/-- Witness for C2 on the one-node cycle `{self: ·}`. -/
theorem c2_cycle_witness :
    wfHeap {} [HNode.obj [("self", JSVal.ptr 0)]] = true ∧
    ∃ (w : JValue) (stFin : EncState) (hD : Heap),
      stringify {} [HNode.obj [("self", JSVal.ptr 0)]] (.ptr 0) .noRepl =
        .ok (w, stFin) ∧
      resurrect {} (fun _ => true) w = .ok (hD, .ptr 0) ∧
      resolvePath hD (.ptr 0) [.fld "self"] = some (.ptr 0) :=
  ⟨by decide,
   @c2_cycle {} [HNode.obj [("self", JSVal.ptr 0)]] 0 [("self", JSVal.ptr 0)]
     (fun _ => true) (by decide) (by decide) rfl rfl⟩

/-- Witness for C3 on a one-node heap. -/
theorem c3_identifiers_witness :
    wfHeap {} [HNode.obj []] = true ∧
    ∃ stV : EncState,
      stringify {} [HNode.obj []] (.ptr 0) .noRepl =
        .ok (.arr (stV.table.map fun ca => jOfCopy {} (stripRk {} ca.1)),
             ⟨(cleanupTable {} stV.table stV.heap).2,
              stV.table.map fun ca => (stripRk {} ca.1, ca.2),
              stV.calls⟩) ∧
      idOf {} stV.heap 0 = some 0 ∧
      (Replacer.noRepl = .noRepl → ∀ (p : List Step) (b : Addr),
        resolvePath [HNode.obj []] (.ptr 0) p = some (.ptr b) →
        ∃ i, idOf {} stV.heap b = some i) ∧
      (∀ i, i < stV.table.length →
        ∃ b, ((stV.table[i]?).map Prod.snd) = some b ∧ b < 1 ∧
          idOf {} stV.heap b = some i) ∧
      (∀ b i, idOf {} stV.heap b = some i →
        i < stV.table.length ∧ ((stV.table[i]?).map Prod.snd) = some b) ∧
      (stV.table.map Prod.snd).Nodup ∧
      (∀ b i fuel, idOf {} stV.heap b = some i →
        visit {} (effRepl {} .noRepl) (fuel + 1) (.ptr b) stV =
          .ok (.refRec i, stV)) :=
  ⟨by decide,
   @c3_identifiers {} [HNode.obj []] .noRepl 0 (by decide) erpWf_noRepl
     (by decide)⟩

/-- Witness for C4 with the cleanup option on. -/
theorem c4_cleanup_restores_witness :
    wfHeap { cleanup := true } [HNode.obj []] = true ∧
    ∃ w stFin,
      stringify { cleanup := true } [HNode.obj []] (.ptr 0) .noRepl =
        .ok (w, stFin) ∧ stFin.heap = [HNode.obj []] :=
  ⟨by decide,
   @c4_cleanup_restores { cleanup := true } [HNode.obj []] .noRepl 0
     (by decide) erpWf_noRepl (by decide) rfl⟩

/-- Witness for C5: a 30-digit BigInt at the root and NaN in a field. -/
theorem c5_typed_atoms_witness :
    isRoundAtom (JSVal.bigint 123456789012345678901234567890) = true ∧
    (stringify {} [] (JSVal.bigint 123456789012345678901234567890) .noRepl =
        .ok (jOfEncoded {}
            (atomEnc (JSVal.bigint 123456789012345678901234567890)),
          ⟨[], [], []⟩) ∧
      resurrect {} (fun _ => true)
        (jOfEncoded {} (atomEnc (JSVal.bigint 123456789012345678901234567890))) =
        .ok ([], JSVal.bigint 123456789012345678901234567890)) ∧
    ∃ w stFin hD,
      stringify {} [HNode.obj [("x", JSVal.nan)]] (.ptr 0) .noRepl =
        .ok (w, stFin) ∧
      resurrect {} (fun _ => true) w = .ok (hD, .ptr 0) ∧
      resolvePath hD (.ptr 0) [.fld "x"] = some JSVal.nan :=
  ⟨rfl,
   (@c5_typed_atoms {} (fun _ => true)).1 []
     (JSVal.bigint 123456789012345678901234567890) rfl,
   (@c5_typed_atoms {} (fun _ => true)).2 [HNode.obj [("x", JSVal.nan)]] 0
     [("x", JSVal.nan)] "x" JSVal.nan (by decide) (by decide) rfl rfl rfl⟩

/-- Witness for C6 on `{u: undefined, n: null}` probing keys u, n, z. -/
theorem c6_undefined_witness :
    wfHeap {} [HNode.obj [("u", JSVal.undef), ("n", JSVal.null)]] = true ∧
    (atomEnc .undef = .refRec (-1) ∧
    (∀ L, decodeSlot {} L (jOfEncoded {} (.refRec (-1))) = .ok .undef) ∧
    ∃ (w : JValue) (stFin : EncState) (hD : Heap),
      stringify {} [HNode.obj [("u", JSVal.undef), ("n", JSVal.null)]]
        (.ptr 0) .noRepl = .ok (w, stFin) ∧
      resurrect {} (fun _ => true) w = .ok (hD, .ptr 0) ∧
      resolvePath hD (.ptr 0) [.fld "u"] = some .undef ∧
      resolvePath hD (.ptr 0) [.fld "n"] = some .null ∧
      resolvePath hD (.ptr 0) [.fld "z"] = none) :=
  ⟨by decide,
   @c6_undefined {} [HNode.obj [("u", JSVal.undef), ("n", JSVal.null)]] 0
     [("u", JSVal.undef), ("n", JSVal.null)] "u" "n" "z" (fun _ => true)
     (by decide) (by decide) rfl rfl rfl rfl⟩

/-- C7 (amended): under a function replacer, for every emitted table entry
originating in an object node the user-visible replacer invocations logged
for that node are exactly one per own field whose value is defined, in
field order, with the original key and value; entries originating in array
nodes log none, and the bookkeeping refcode key never reaches the user
function.  Omission works: replacing a value by undefined drops the key
from the decoded output, as the concrete `{a:1, b:2}` scenario shows.
(Fields whose current value is undefined generate no invocation at all —
see the counterexample and C10.) -/
theorem c7_replacer_calls {cfg : Config} {h₀ : Heap} {a : Addr}
    {f : String → JSVal → JSVal}
    (hw : wfHeap cfg h₀ = true)
    (hf : ∀ k v, wfVal h₀.length v = true →
      wfVal h₀.length (f k v) = true ∨ f k v = .undef)
    (ha : a < h₀.length) :
    (∃ (w : JValue) (stFin : EncState),
      stringify cfg h₀ (.ptr a) (.fnRepl f) = .ok (w, stFin) ∧
      (∀ (i : Nat) (c : Copy) (b : Addr) (fs : List (String × JSVal)),
        stFin.table[i]? = some (c, b) →
        h₀[b]? = some (.obj fs) →
        ((stFin.calls.filter fun cl => cl.node == b).filter
            fun cl => cl.toUser) =
          fs.filterMap fun kv =>
            if kv.2 = .undef then none
            else some ⟨b, kv.1, kv.2, true⟩) ∧
      (∀ (i : Nat) (c : Copy) (b : Addr) (es : List JSVal)
          (ps : List (String × JSVal)),
        stFin.table[i]? = some (c, b) →
        h₀[b]? = some (.arr es ps) →
        (stFin.calls.filter fun cl => cl.node == b) = [])) ∧
    (∃ w2 st2 hD2,
      stringify {} [HNode.obj [("a", JSVal.num 1), ("b", JSVal.num 2)]]
        (.ptr 0) (.fnRepl fun k v => if k = "b" then .undef else v) =
        .ok (w2, st2) ∧
      resurrect {} (fun _ => true) w2 = .ok (hD2, .ptr 0) ∧
      resolvePath hD2 (.ptr 0) [.fld "a"] = some (.num 1) ∧
      resolvePath hD2 (.ptr 0) [.fld "b"] = none) := by
  constructor
  · obtain ⟨w, stV, hstr, hI, hid0, hAt⟩ :=
      stringify_calls_at hw (erpWf_fnRepl hf) ha
    refine ⟨w, _, hstr, ?_, ?_⟩
    · intro i c b fs htab hnode
      have htab' : (stV.table.map fun ca => (stripRk cfg ca.1, ca.2))[i]? =
          some (c, b) := htab
      rw [List.getElem?_map] at htab'
      obtain ⟨ca, hca, hmap⟩ := Option.map_eq_some'.mp htab'
      have hi : i < stV.table.length := by
        by_contra hge
        rw [List.getElem?_eq_none (by simpa using Nat.le_of_not_lt hge)] at hca
        exact Option.noConfusion hca
      obtain ⟨b', hsnd, hb', hid⟩ := orig_idOf hw hI hi
      rw [hca] at hsnd
      have hbb : b' = ca.2 := (Option.some.inj hsnd).symm
      have hb2 : ca.2 = b := congrArg Prod.snd hmap
      rw [hbb, hb2] at hid hb'
      have hA := hAt b hb' (idOf_some_tagged hid)
      show ((stV.calls.filter fun cl => cl.node == b).filter
          fun cl => cl.toUser) = _
      rcases hA with ⟨fs', i', hfa', hid', heq⟩ | ⟨es', ps', hfa', heq⟩
      · rw [hnode] at hfa'
        have hfs' : fs' = fs := by
          have hinj := Option.some.inj hfa'
          injection hinj with hh
          exact hh.symm
        rw [hfs'] at heq
        rw [heq, callsOfFields_append, List.filter_append]
        have hwn := wfHeap_node hw hnode
        have hks : ∀ kv ∈ fs, strStarts kv.1 cfg.mark = false :=
          fun kv hkv => (wfNode_obj_keys hwn kv hkv).1
        rw [callsOfFields_fnRepl hks, callsOfFields_rk_user (by simp),
          List.append_nil]
      · rw [hnode] at hfa'
        exact absurd (Option.some.inj hfa') (by simp)
    · intro i c b es ps htab hnode
      have htab' : (stV.table.map fun ca => (stripRk cfg ca.1, ca.2))[i]? =
          some (c, b) := htab
      rw [List.getElem?_map] at htab'
      obtain ⟨ca, hca, hmap⟩ := Option.map_eq_some'.mp htab'
      have hi : i < stV.table.length := by
        by_contra hge
        rw [List.getElem?_eq_none (by simpa using Nat.le_of_not_lt hge)] at hca
        exact Option.noConfusion hca
      obtain ⟨b', hsnd, hb', hid⟩ := orig_idOf hw hI hi
      rw [hca] at hsnd
      have hbb : b' = ca.2 := (Option.some.inj hsnd).symm
      have hb2 : ca.2 = b := congrArg Prod.snd hmap
      rw [hbb, hb2] at hid hb'
      have hA := hAt b hb' (idOf_some_tagged hid)
      show (stV.calls.filter fun cl => cl.node == b) = []
      rcases hA with ⟨fs', i', hfa', hid', heq⟩ | ⟨es', ps', hfa', heq⟩
      · rw [hnode] at hfa'
        exact absurd (Option.some.inj hfa') (by simp)
      · exact heq
  · exact ⟨_, _, _, rfl, rfl, rfl, rfl⟩

/-- C7 counterexample: the replacer is not called for an own field whose
value is undefined: `{u: undefined}` logs no user-visible invocation at
all, although `u` is an own field of the node. -/
theorem c7_counterexample :
    getKV [("u", JSVal.undef)] "u" = some .undef ∧
    (stringify {} [HNode.obj [("u", JSVal.undef)]] (.ptr 0)
        (.fnRepl fun _ v => v)).map
      (fun r => r.2.calls.filter fun c => c.toUser) = .ok [] :=
  ⟨rfl, rfl⟩

/-- C8: encoding is deterministic across runs: a second `stringify` of the
same root over the heap the first call handed back to the caller — the
same graph, same field order, same options and replacer — produces the
identical wire value. -/
theorem c8_deterministic {cfg : Config} {h₀ : Heap} {rp : Replacer} {a : Addr}
    (hw : wfHeap cfg h₀ = true) (herp : ErpWf h₀.length (effRepl cfg rp))
    (ha : a < h₀.length) :
    ∃ w st₁ st₂,
      stringify cfg h₀ (.ptr a) rp = .ok (w, st₁) ∧
      stringify cfg st₁.heap (.ptr a) rp = .ok (w, st₂) :=
  stringify_again hw herp ha

/-- C9 (amended): a malformed table-entry child (an object record carrying
neither the marker nor the builder key) and an unresolvable type name are
fatal decode errors yielding no result; but an out-of-range reference
identifier is not fatal — the decoder silently yields undefined for it
(see the counterexample). -/
theorem c9_decode_errors (cfg : Config) (resolver : String → Bool)
    (L : Nat) (fs : List (String × JValue)) (name : String) (i : Int)
    (h1 : getKV fs cfg.mark = none) (h2 : getKV fs cfg.buildcode = none)
    (hrev : cfg.revive = true) (hres : resolver name = false)
    (hoob : ¬ (0 ≤ i ∧ i.toNat < L)) :
    decodeChild cfg L (.obj fs) = .error .unknownEncoding ∧
    resurrect cfg resolver (.arr [.obj [(cfg.mark, .str name)]]) =
      .error .unknownConstructor ∧
    decodeChild cfg L (.obj [(cfg.mark, .num i)]) = .ok .undef :=
  ⟨decodeChild_malformed cfg L h1 h2,
   resurrect_unresolvable cfg resolver name hrev hres,
   decodeChild_oob cfg L hoob⟩

/-- C9 counterexample: a reference whose identifier does not resolve to a
table entry is not a fatal error: the decode succeeds and hands back a
partial result with undefined in place of the dangling reference. -/
theorem c9_counterexample :
    resurrect {} (fun _ => true)
      (.arr [.obj [("x", .obj [("#", .num 5)])]]) =
      .ok ([HNode.obj [("x", JSVal.undef)]], .ptr 0) := rfl

/-- C10: an own object field whose current value is undefined never reaches
the replacer — no invocation is logged for it under any replacer — and it
is encoded as the undefined reference, so it is present with value
undefined in the decoded output even when the replacer would omit it; the
concrete allowlist scenario accepts no keys, yet the undefined field
survives while a defined field is dropped. -/
theorem c10_undef_skips_replacer {cfg : Config} {h₀ : Heap} {a : Addr}
    {rp : Replacer} {resolver : String → Bool} {k : String}
    {fs : List (String × JSVal)}
    (hw : wfHeap cfg h₀ = true) (herp : ErpWf h₀.length (effRepl cfg rp))
    (ha : a < h₀.length)
    (hnode : h₀[a]? = some (.obj fs)) (hu : getKV fs k = some .undef) :
    (∃ (w : JValue) (stFin : EncState),
      stringify cfg h₀ (.ptr a) rp = .ok (w, stFin) ∧
      ((stFin.calls.filter fun c => c.node == a).filter
        fun c => c.key == k) = [] ∧
      ∃ hD, resurrect cfg resolver w = .ok (hD, .ptr 0) ∧
        ∃ dfs, hD[0]? = some (.obj dfs) ∧ getKV dfs k = some .undef) ∧
    (∃ w2 st2 hD2,
      stringify {} [HNode.obj [("u", JSVal.undef), ("x", JSVal.num 1)]]
        (.ptr 0) (.arrRepl []) = .ok (w2, st2) ∧
      resurrect {} (fun _ => true) w2 = .ok (hD2, .ptr 0) ∧
      resolvePath hD2 (.ptr 0) [.fld "u"] = some .undef ∧
      resolvePath hD2 (.ptr 0) [.fld "x"] = none) := by
  constructor
  · obtain ⟨stV, hrunV, hpost, hid0, hstr⟩ := stringify_ptr_run hw herp ha
    have hI := hpost.sp.inv
    refine ⟨_, _, hstr, ?_, ?_⟩
    · obtain ⟨Δ, hΔeq, hall, hat⟩ := hpost.cp
      have hcalls : stV.calls = Δ := by
        rw [hΔeq]
        rfl
      have hun : isTagged cfg h₀ a = false := by
        obtain ⟨n, hn⟩ := getElem?_some_of_lt ha
        exact isTagged_false_of_rkFree hn (wfNode_rkFree (wfHeap_node hw hn))
      have hA := hat a ha hun (idOf_some_tagged hid0)
      show ((stV.calls.filter fun c => c.node == a).filter
        fun c => c.key == k) = []
      rw [hcalls]
      rcases hA with ⟨fs', i', hfa', hid', heq⟩ | ⟨es', ps', hfa', heq⟩
      · rw [hnode] at hfa'
        have hfs' : fs' = fs := by
          have hinj := Option.some.inj hfa'
          injection hinj with hh
          exact hh.symm
        rw [hfs'] at heq
        rw [heq, callsOfFields_append, List.filter_append]
        have hwn := wfHeap_node hw hnode
        have hnd : nodupKeys fs = true := wfNode_obj_nodup hwn
        have hknm : strStarts k cfg.mark = false :=
          (wfNode_obj_keys hwn (k, .undef) (getKV_mem hu)).1
        have hrk : ∀ kv ∈ [(cfg.refcode, (JSVal.num i' : JSVal))],
            kv.1 ≠ k := by
          intro kv hkv
          have hkv1 : kv = (cfg.refcode, (JSVal.num i' : JSVal)) := by
            simpa using hkv
          rw [hkv1]
          exact Ne.symm (notMark_ne_refcode hknm)
        rw [callsOfFields_key_undef hu hnd, List.nil_append]
        exact callsOfFields_keys hrk
      · rw [hnode] at hfa'
        exact absurd (Option.some.inj hfa') (by simp)
    · have hent : ∀ i, i < stV.table.length →
          EntryM cfg (effRepl cfg rp) stV.heap h₀ stV.table i :=
        fun i hi => hpost.sp.entries i (Nat.zero_le i) hi
      have hlen0 : 0 < stV.table.length := (idOf_lt_table hw hI hid0).1
      obtain ⟨hD, hres, hlenD, hcorr⟩ := resurrect_of_visit hw hI hent hlen0
      refine ⟨hD, hres, ?_⟩
      rcases hcorr a 0 hid0 with
        ⟨fs0, out, hfa0, hfm, dfs, hD0, hf2⟩ | ⟨es0, ps0, outE, hfa0, -, -⟩
      · have hfs0 : fs0 = fs := by
          rw [hnode] at hfa0
          have hinj := Option.some.inj hfa0
          injection hinj with hh
          exact hh.symm
        rw [hfs0] at hfm
        have hout : getKV out k = some (.refRec (-1)) :=
          fieldsM_getKV_undef hfm hu
        obtain ⟨y, hy, hdy⟩ := forall₂_getKV hf2 hout
        have hyu : y = JSVal.undef := by
          rw [decodeSlot_absent] at hdy
          exact (Except.ok.inj hdy).symm
        refine ⟨dfs, hD0, ?_⟩
        rw [hy, hyu]
      · rw [hnode] at hfa0
        exact absurd (Option.some.inj hfa0) (by simp)
  · exact ⟨_, _, _, rfl, rfl, rfl, rfl⟩

/-- Witness for C7 on `{k: 3}` with the identity replacer. -/
theorem c7_replacer_calls_witness :
    wfHeap {} [HNode.obj [("k", JSVal.num 3)]] = true ∧
    ((∃ (w : JValue) (stFin : EncState),
      stringify {} [HNode.obj [("k", JSVal.num 3)]] (.ptr 0)
        (.fnRepl fun _ v => v) = .ok (w, stFin) ∧
      (∀ (i : Nat) (c : Copy) (b : Addr) (fs : List (String × JSVal)),
        stFin.table[i]? = some (c, b) →
        [HNode.obj [("k", JSVal.num 3)]][b]? = some (.obj fs) →
        ((stFin.calls.filter fun cl => cl.node == b).filter
            fun cl => cl.toUser) =
          fs.filterMap fun kv =>
            if kv.2 = .undef then none
            else some ⟨b, kv.1, kv.2, true⟩) ∧
      (∀ (i : Nat) (c : Copy) (b : Addr) (es : List JSVal)
          (ps : List (String × JSVal)),
        stFin.table[i]? = some (c, b) →
        [HNode.obj [("k", JSVal.num 3)]][b]? = some (.arr es ps) →
        (stFin.calls.filter fun cl => cl.node == b) = [])) ∧
    (∃ w2 st2 hD2,
      stringify {} [HNode.obj [("a", JSVal.num 1), ("b", JSVal.num 2)]]
        (.ptr 0) (.fnRepl fun k v => if k = "b" then .undef else v) =
        .ok (w2, st2) ∧
      resurrect {} (fun _ => true) w2 = .ok (hD2, .ptr 0) ∧
      resolvePath hD2 (.ptr 0) [.fld "a"] = some (.num 1) ∧
      resolvePath hD2 (.ptr 0) [.fld "b"] = none)) :=
  ⟨by decide,
   @c7_replacer_calls {} [HNode.obj [("k", JSVal.num 3)]] 0 (fun _ v => v)
     (by decide) (fun k v hv => Or.inl hv) (by decide)⟩

/-- Witness for C8 on a one-node heap. -/
theorem c8_deterministic_witness :
    wfHeap {} [HNode.obj []] = true ∧
    ∃ w st₁ st₂,
      stringify {} [HNode.obj []] (.ptr 0) .noRepl = .ok (w, st₁) ∧
      stringify {} st₁.heap (.ptr 0) .noRepl = .ok (w, st₂) :=
  ⟨by decide,
   @c8_deterministic {} [HNode.obj []] .noRepl 0 (by decide) erpWf_noRepl
     (by decide)⟩

/-- Witness for C9 with a markerless record, an unresolvable name and an
out-of-range identifier. -/
theorem c9_decode_errors_witness :
    getKV [("z", JValue.null)] "#" = none ∧
    (decodeChild {} 1 (.obj [("z", JValue.null)]) =
        .error .unknownEncoding ∧
      resurrect {} (fun _ => false) (.arr [.obj [("#", .str "Widget")]]) =
        .error .unknownConstructor ∧
      decodeChild {} 1 (.obj [("#", .num 5)]) = .ok .undef) :=
  ⟨rfl,
   c9_decode_errors {} (fun _ => false) 1 [("z", JValue.null)] "Widget" 5
     rfl rfl rfl rfl (by decide)⟩

/-- Witness for C10 on `{u: undefined}` with no replacer. -/
theorem c10_undef_skips_replacer_witness :
    wfHeap {} [HNode.obj [("u", JSVal.undef)]] = true ∧
    ((∃ (w : JValue) (stFin : EncState),
      stringify {} [HNode.obj [("u", JSVal.undef)]] (.ptr 0) .noRepl =
        .ok (w, stFin) ∧
      ((stFin.calls.filter fun c => c.node == 0).filter
        fun c => c.key == "u") = [] ∧
      ∃ hD, resurrect {} (fun _ => true) w = .ok (hD, .ptr 0) ∧
        ∃ dfs, hD[0]? = some (.obj dfs) ∧ getKV dfs "u" = some .undef) ∧
    (∃ w2 st2 hD2,
      stringify {} [HNode.obj [("u", JSVal.undef), ("x", JSVal.num 1)]]
        (.ptr 0) (.arrRepl []) = .ok (w2, st2) ∧
      resurrect {} (fun _ => true) w2 = .ok (hD2, .ptr 0) ∧
      resolvePath hD2 (.ptr 0) [.fld "u"] = some .undef ∧
      resolvePath hD2 (.ptr 0) [.fld "x"] = none)) :=
  ⟨by decide,
   @c10_undef_skips_replacer {} [HNode.obj [("u", JSVal.undef)]] 0 .noRepl
     (fun _ => true) "u" [("u", JSVal.undef)] (by decide) erpWf_noRepl
     (by decide) rfl rfl⟩

end Rz
